import Mathlib

/-!
# Verification of the ABIT binary document codec

A shallow embedding of the Go package `abit` (file `abit.go`): the tagged
value model (`ABITObject`/`ABITArray`), the canonical encoder, the
bounds-checked decoder, the mutation operations, and the lexicon matcher,
together with proofs of the specified properties (round-trip, canonical
uniqueness, key-order rejection, truncation rejection, integer width
minimality, sign extension, payload-length semantics and re-encodability).

Bytes are modelled as `Nat` (with the invariant `< 256` stated as the
hypothesis `Bytes` where a claim needs it); Go strings are byte lists;
`int64` values are `Int` with explicit `% 2^64` where Go wraps; Go slices
are `List Nat`; buffer offsets are `Int` exactly as the Go code uses
`int64` offsets (a decoded nested-tree size is signed and can move an
offset backwards, so offsets can in principle go negative).
-/

namespace Abit

/-- The error sites of the Go decoder, one constructor per `fmt.Errorf`
site that a claim refers to (`InvalidKeyOrder` is `invalidKeyOrder`, the
size-nibble check is `intTooBig`, etc.). -/
inductive DErr where
  | keyOutOfBounds
  | typeExceeds
  | nullExceeds
  | notNull
  | boolExceeds
  | notBool
  | intExceeds
  | intTooBig
  | intOutOfBounds
  | negativeBlobLength
  | blobLengthExceeds
  | invalidType
  | corruptArray
  | invalidKeyOrder
deriving DecidableEq, Repr

/-- Result of a decoding step: success, a Go error, or non-termination of
the Go loop (the model is fuelled; `diverge` is returned when fuel runs
out, which corresponds to the Go code not terminating). -/
inductive DR (α : Type) where
  | ok (a : α)
  | err (e : DErr)
  | diverge
deriving Repr, DecidableEq

/-- Sequencing of decoding steps: errors and divergence propagate, exactly
as the Go `if err != nil { return ... }` pattern does. -/
def DR.bind {α β : Type} : DR α → (α → DR β) → DR β
  | .ok a, f => f a
  | .err e, _ => .err e
  | .diverge, _ => .diverge

instance : Monad DR where
  pure := DR.ok
  bind := DR.bind

@[simp] theorem DR.bind_ok {α β : Type} (a : α) (f : α → DR β) :
    DR.bind (.ok a) f = f a := rfl

@[simp] theorem DR.bind_err {α β : Type} (e : DErr) (f : α → DR β) :
    DR.bind (.err e) f = .err e := rfl

@[simp] theorem DR.bind_diverge {α β : Type} (f : α → DR β) :
    DR.bind .diverge f = .diverge := rfl

@[simp] theorem DR.pure_eq_ok {α : Type} (a : α) :
    (pure a : DR α) = .ok a := rfl

@[simp] theorem DR.monad_bind_eq_bind {α β : Type} (x : DR α) (f : α → DR β) :
    x >>= f = x.bind f := rfl

/-- A buffer is a byte buffer: every element is an actual byte value.  In
Go this is enforced by the type `[]byte`. -/
def Bytes (blob : List Nat) : Prop := ∀ b ∈ blob, b < 256

/-- `(*blob)[i]` under a bounds guard; out of range it returns a junk `0`
that the code never uses (every access in the Go source is guarded). -/
def byteAt (blob : List Nat) (i : Int) : Nat := blob.getD i.toNat 0

/-- Go slicing `(*blob)[a:b]` for `0 ≤ a ≤ b ≤ len` (all uses are
guarded). -/
def slice (blob : List Nat) (a b : Int) : List Nat :=
  (blob.take b.toNat).drop a.toNat

/-- Byte-lexicographic order on byte strings, the order Go's `a < b` uses
on strings. -/
def lexLt : List Nat → List Nat → Bool
  | [], [] => false
  | [], _ :: _ => true
  | _ :: _, [] => false
  | a :: as, b :: bs => if a < b then true else if b < a then false else lexLt as bs

/-- Go `keyCompare(a, b)`: length first, byte-lexicographic on equal
lengths (`abit.go`, `keyCompare`). -/
def keyCompare (a b : List Nat) : Bool :=
  if a.length = b.length then lexLt a b else decide (a.length < b.length)

/-! ## The value model

`ABITObject`/`ABITArray` as a closed sum.  The Go struct stores a
`dataType` tag plus one payload field; the sum type carries exactly the
payload selected by the tag.  A Go `map[string]*ABITObject` is a finite
set of key/value pairs with no intrinsic order; it is modelled as an
association list with (for trees built by the API) unique keys, in
arbitrary order.  `ValList`/`Entries` are the array and tree spines,
kept as dedicated mutual inductives so that all recursions are
structural. -/

mutual

inductive Val where
  | vnull
  | vbool (b : Bool)
  | vint (i : Int)
  | vblob (bs : List Nat)
  | vstr (bs : List Nat)
  | varr (a : ValList)
  | vtree (t : Entries)

inductive ValList where
  | nil
  | cons (v : Val) (rest : ValList)

inductive Entries where
  | nil
  | cons (k : List Nat) (v : Val) (rest : Entries)

end

/-- The Go `dataType` nibble of a value. -/
def Val.tag : Val → Nat
  | .vnull => 0
  | .vbool _ => 1
  | .vint _ => 2
  | .vblob _ => 3
  | .vstr _ => 4
  | .varr _ => 5
  | .vtree _ => 6

/-- Append an element at the end of an array (Go `append`). -/
def ValList.push : ValList → Val → ValList
  | .nil, v => .cons v .nil
  | .cons w r, v => .cons w (r.push v)

def ValList.toList : ValList → List Val
  | .nil => []
  | .cons v r => v :: r.toList

def ValList.length (a : ValList) : Nat := a.toList.length

/-- Append one key/value pair at the end of a tree's pair list. -/
def Entries.push : Entries → List Nat → Val → Entries
  | .nil, k, v => .cons k v .nil
  | .cons k' v' r, k, v => .cons k' v' (r.push k v)

def Entries.toList : Entries → List (List Nat × Val)
  | .nil => []
  | .cons k v r => (k, v) :: r.toList

def Entries.keys : Entries → List (List Nat)
  | .nil => []
  | .cons k _ r => k :: r.keys

/-- Go map lookup `t[key]` (first match; API-built trees have unique
keys). -/
def Entries.lookup : Entries → List Nat → Option Val
  | .nil, _ => none
  | .cons k v r, key => if k = key then some v else r.lookup key

/-! ## The encoder -/

/-- The `switch` cascade of `encodeInteger` choosing the byte count: the
first two's-complement range that contains the value, 1 through 8
bytes. -/
def intByteCount (value : Int) : Nat :=
  if -128 ≤ value ∧ value ≤ 127 then 1
  else if -32768 ≤ value ∧ value ≤ 32767 then 2
  else if -8388608 ≤ value ∧ value ≤ 8388607 then 3
  else if -2147483648 ≤ value ∧ value ≤ 2147483647 then 4
  else if -549755813888 ≤ value ∧ value ≤ 549755813887 then 5
  else if -140737488355328 ≤ value ∧ value ≤ 140737488355327 then 6
  else if -36028797018963968 ≤ value ∧ value ≤ 36028797018963967 then 7
  else 8

/-- Byte `j` of the little-endian layout of `u` (Go
`binary.LittleEndian.PutUint64`). -/
def leByte (u : Nat) (j : Nat) : Nat := u / 2 ^ (8 * j) % 256

/-- Go `encodeInteger(value, type_n)`: a tag byte whose high nibble is
`byteCount - 1` and whose low nibble is `type_n & 0x0f` (the Go `|` of
the two disjoint nibbles is addition), followed by the first `byteCount`
bytes of the 64-bit little-endian two's-complement layout
(`uint64(value)` is `value % 2^64`). -/
def encodeInteger (value : Int) (type_n : Nat) : List Nat :=
  let byteCount := intByteCount value
  let u := (value % (2 ^ 64 : Int)).toNat
  (16 * (byteCount - 1) + type_n % 16) :: (List.range byteCount).map (leByte u)

/-- Go `encodeKey`: rejects keys outside 1–256 encoded bytes, otherwise
one length byte (`len - 1`) followed by the key bytes. -/
def encodeKey (value : List Nat) : Option (List Nat) :=
  if 256 < value.length then none
  else if value.length < 1 then none
  else some ((value.length - 1) :: value)

def encodeNull : List Nat := [0]

def encodeBoolean (value : Bool) : List Nat := if value then [0x11] else [0x01]

/-- Go `encodeBlob`: the payload length as an integer field with the
given type nibble, then the raw payload. -/
def encodeBlob (value : List Nat) (type_n : Nat) : List Nat :=
  encodeInteger (value.length : Int) type_n ++ value

/-- Go `encodeString`: a blob of the string's bytes with type nibble 4. -/
def encodeString (value : List Nat) : List Nat := encodeBlob value 0b0100

/-- Insertion step of the canonical key sort. -/
def insertEntry (k : List Nat) (v : Val) : Entries → Entries
  | .nil => .cons k v .nil
  | .cons k' v' r =>
      if keyCompare k k' then .cons k v (.cons k' v' r)
      else .cons k' v' (insertEntry k v r)

/-- The `sort.Slice(keys, ...)` of `encodeTree`, realised as an insertion
sort by `keyCompare` on the pair list directly (the Go code sorts the key
list and then looks each key up in the map; for the unique keys of a map
the two produce the same pair sequence). -/
def sortEntries : Entries → Entries
  | .nil => .nil
  | .cons k v r => insertEntry k v (sortEntries r)

theorem sizeOf_insertEntry (k : List Nat) (v : Val) :
    (e : Entries) → sizeOf (insertEntry k v e) = 1 + sizeOf k + sizeOf v + sizeOf e
  | .nil => by simp [insertEntry]
  | .cons k' v' r => by
      have ih := sizeOf_insertEntry k v r
      by_cases h : keyCompare k k' = true <;> simp [insertEntry, h, ih] <;> omega

theorem sizeOf_sortEntries : (e : Entries) → sizeOf (sortEntries e) = sizeOf e
  | .nil => by simp [sortEntries]
  | .cons k v r => by
      simp [sortEntries, sizeOf_insertEntry, sizeOf_sortEntries r]

mutual

/-- The value `switch` shared by `encodeArray` and `encodeTree`: one
encoded form per `dataType`. -/
def encodeValue : Val → Option (List Nat)
  | .vnull => some encodeNull
  | .vbool b => some (encodeBoolean b)
  | .vint i => some (encodeInteger i 0b0010)
  | .vblob bs => some (encodeBlob bs 0b0011)
  | .vstr bs => some (encodeString bs)
  | .varr a => do
      let p ← encodeList a
      some (encodeBlob p 0b0101)
  | .vtree t => encodeTree t true
termination_by v => (sizeOf v, 0)
decreasing_by
  all_goals simp_wf
  · exact Prod.Lex.left _ _ (by simp_arith)
  · exact Prod.Lex.left _ _ (by simp_arith)

/-- Payload of `encodeArray`: the elements' encodings concatenated in
order. -/
def encodeList : ValList → Option (List Nat)
  | .nil => some []
  | .cons v r => do
      let vb ← encodeValue v
      let rb ← encodeList r
      some (vb ++ rb)
termination_by a => (sizeOf a, 0)
decreasing_by
  all_goals simp_wf
  · exact Prod.Lex.left _ _ (by simp_arith)
  · exact Prod.Lex.left _ _ (by simp_arith)

/-- Pair loop of `encodeTree`: `encodeKey` then the value encoding, for
each pair in the given (already sorted) order. -/
def encodeEntries : Entries → Option (List Nat)
  | .nil => some []
  | .cons k v r => do
      let kb ← encodeKey k
      let vb ← encodeValue v
      let rb ← encodeEntries r
      some (kb ++ vb ++ rb)
termination_by e => (sizeOf e, 0)
decreasing_by
  all_goals simp_wf
  · exact Prod.Lex.left _ _ (by simp_arith)
  · exact Prod.Lex.left _ _ (by simp_arith)

/-- Go `encodeTree`: sort the pairs canonically, concatenate the encoded
pairs, and wrap nested trees as a length-prefixed blob with type nibble
6; the top-level tree is the bare pair sequence. -/
def encodeTree (t : Entries) (nested : Bool) : Option (List Nat) := do
  let p ← encodeEntries (sortEntries t)
  if nested then some (encodeBlob p 0b0110) else some p
termination_by (sizeOf t, 1)
decreasing_by
  simp_wf
  rw [sizeOf_sortEntries]
  exact Prod.Lex.right _ (by omega)

end

/-- Go `(t *ABITObject) ToByteArray()`: serialize a document (the
receiver is a tree). -/
def ToByteArray (t : Val) : Option (List Nat) :=
  match t with
  | .vtree e => encodeTree e false
  | _ => none

/-! ## The decoder

Each Go decode function returns `(value, new offset, error)`; here
`DR (value × Int)`.  The two container loops and the recursive descent
are fuelled: every function of the mutual block consumes one unit of
fuel at entry, so the recursion is structural on the fuel, and `diverge`
models the Go loop not terminating (which genuinely can happen: a nested
tree size field is decoded signed and unchecked, so an adversarial
buffer can move the resume offset backwards). -/

/-- Go `decodeKey`: a length byte (`stored + 1` key bytes) then the key
bytes, fully bounds-checked. -/
def decodeKey (blob : List Nat) (offset : Int) : DR (List Nat × Int) :=
  if offset < 0 ∨ (blob.length : Int) ≤ offset then .err .keyOutOfBounds
  else
    let keyLength : Int := (byteAt blob offset : Int) + 1
    if (blob.length : Int) < offset + 1 + keyLength then .err .keyOutOfBounds
    else .ok (slice blob (offset + 1) (offset + 1 + keyLength), offset + 1 + keyLength)

/-- Go `decodeType`: the low nibble of the tag byte. -/
def decodeType (blob : List Nat) (offset : Int) : DR Nat :=
  if offset < 0 ∨ (blob.length : Int) ≤ offset then .err .typeExceeds
  else .ok (byteAt blob offset % 16)

/-- Go `decodeNull`: the byte must be exactly `0x00`. -/
def decodeNull (blob : List Nat) (offset : Int) : DR Int :=
  if offset < 0 ∨ (blob.length : Int) ≤ offset then .err .nullExceeds
  else if byteAt blob offset ≠ 0 then .err .notNull
  else .ok (offset + 1)

/-- Go `decodeBoolean`: exactly `0x11` (true) or `0x01` (false). -/
def decodeBoolean (blob : List Nat) (offset : Int) : DR (Bool × Int) :=
  if offset < 0 ∨ (blob.length : Int) ≤ offset then .err .boolExceeds
  else if byteAt blob offset = 0x11 then .ok (true, offset + 1)
  else if byteAt blob offset = 0x01 then .ok (false, offset + 1)
  else .err .notBool

/-- Reinterpret the low 64 bits of `u` as a signed two's-complement
value; this is what the Go chain of `int64(...) << 8j` ORs computes. -/
def toInt64 (u : Nat) : Int :=
  if u % 2 ^ 64 < 2 ^ 63 then ((u % 2 ^ 64 : Nat) : Int)
  else ((u % 2 ^ 64 : Nat) : Int) - 2 ^ 64

/-- Go `decodeInteger`: size nibble (`+1` bytes), `maxSize` check, bounds
check, copy into an 8-byte buffer, sign-extend from the top bit of the
last payload byte, and combine little-endian (the OR of disjoint shifted
bytes is their sum). -/
def decodeInteger (blob : List Nat) (offset : Int) (maxSize : Nat) : DR (Int × Int) :=
  if offset < 0 ∨ (blob.length : Int) ≤ offset then .err .intExceeds
  else
    let intSize : Nat := byteAt blob offset / 16 + 1
    if maxSize < intSize then .err .intTooBig
    else if (blob.length : Int) < offset + 1 + (intSize : Int) then .err .intOutOfBounds
    else
      let ext : Nat → Nat := fun j =>
        if j < intSize then byteAt blob (offset + 1 + (j : Int))
        else if 128 ≤ byteAt blob (offset + (intSize : Int)) then 255 else 0
      let uval : Nat :=
        ext 0 + ext 1 * 2 ^ 8 + ext 2 * 2 ^ 16 + ext 3 * 2 ^ 24 +
          ext 4 * 2 ^ 32 + ext 5 * 2 ^ 40 + ext 6 * 2 ^ 48 + ext 7 * 2 ^ 56
      .ok (toInt64 uval, offset + 1 + (intSize : Int))

/-- Go `decodeBlob`: a length field (max 4 bytes, decoded signed and
rejected when negative) then exactly that many payload bytes. -/
def decodeBlob (blob : List Nat) (offset : Int) : DR (List Nat × Int) := do
  let (blobLength, off) ← decodeInteger blob offset 4
  if blobLength < 0 then .err .negativeBlobLength
  else if (blob.length : Int) < off + blobLength then .err .blobLengthExceeds
  else .ok (slice blob off (off + blobLength), off + blobLength)

/-- Go `decodeString`: a blob whose bytes are carried over verbatim into
the string. -/
def decodeString (blob : List Nat) (offset : Int) : DR (List Nat × Int) :=
  decodeBlob blob offset

mutual

/-- The value `switch` shared by the Go array and tree decode loops: the
low tag nibble selects the variant decoder. -/
def decodeValueAt (fuel : Nat) (blob : List Nat) (offset : Int) (typ : Nat) :
    DR (Val × Int) :=
  match fuel with
  | 0 => .diverge
  | fuel + 1 =>
    match typ with
    | 0 => do
        let off ← decodeNull blob offset
        .ok (.vnull, off)
    | 1 => do
        let (b, off) ← decodeBoolean blob offset
        .ok (.vbool b, off)
    | 2 => do
        let (i, off) ← decodeInteger blob offset 8
        .ok (.vint i, off)
    | 3 => do
        let (bs, off) ← decodeBlob blob offset
        .ok (.vblob bs, off)
    | 4 => do
        let (bs, off) ← decodeString blob offset
        .ok (.vstr bs, off)
    | 5 => decodeArray fuel blob offset
    | 6 => do
        let (t, off) ← decodeTree fuel blob offset true
        .ok (.vtree t, off)
    | _ => .err .invalidType

/-- Go `decodeArray`: extract the length-prefixed payload, then run the
element loop over that payload from index 0. -/
def decodeArray (fuel : Nat) (blob : List Nat) (offset : Int) : DR (Val × Int) :=
  match fuel with
  | 0 => .diverge
  | fuel + 1 => do
      let (arrBlob, off) ← decodeBlob blob offset
      let (elems, index) ← decodeArrayLoop fuel arrBlob 0 .nil
      if (arrBlob.length : Int) < index then .err .corruptArray
      else .ok (.varr elems, off)

/-- The `for int(index) < len(arrBlob)` loop of `decodeArray`. -/
def decodeArrayLoop (fuel : Nat) (arrBlob : List Nat) (index : Int) (acc : ValList) :
    DR (ValList × Int) :=
  if index < (arrBlob.length : Int) then
    match fuel with
    | 0 => .diverge
    | fuel + 1 => do
        let typ ← decodeType arrBlob index
        let (v, index') ← decodeValueAt fuel arrBlob index typ
        decodeArrayLoop fuel arrBlob index' (acc.push v)
  else .ok (acc, index)

/-- Go `decodeTree`: nested trees read a (signed, unchecked) size field
and parse pairs up to `index + treeSize`; the top level parses the whole
buffer.  The final bound check is against the whole buffer, exactly as in
the source. -/
def decodeTree (fuel : Nat) (blob : List Nat) (offset : Int) (nested : Bool) :
    DR (Entries × Int) :=
  match fuel with
  | 0 => .diverge
  | fuel + 1 =>
    if nested then do
      let (treeSize, index) ← decodeInteger blob offset 4
      let endOffset := index + treeSize
      let (t, finalIndex) ← decodeTreeLoop fuel blob index endOffset [] .nil
      if (blob.length : Int) < finalIndex then .err .corruptArray
      else .ok (t, endOffset)
    else do
      let (t, finalIndex) ← decodeTreeLoop fuel blob 0 (blob.length : Int) [] .nil
      if (blob.length : Int) < finalIndex then .err .corruptArray
      else .ok (t, (blob.length : Int))

/-- The `for index < offset` pair loop of `decodeTree`: decode a key,
enforce that it is canonically greater than the previous key at this
nesting level, decode the value, and continue. -/
def decodeTreeLoop (fuel : Nat) (blob : List Nat) (index endOffset : Int)
    (lastKey : List Nat) (acc : Entries) : DR (Entries × Int) :=
  if index < endOffset then
    match fuel with
    | 0 => .diverge
    | fuel + 1 => do
        let (key, index1) ← decodeKey blob index
        if keyCompare lastKey key = false then .err .invalidKeyOrder
        else do
          let typ ← decodeType blob index1
          let (v, index2) ← decodeValueAt fuel blob index1 typ
          decodeTreeLoop fuel blob index2 endOffset key (acc.push key v)
  else .ok (acc, index)

end

/-- The fuel `NewABITObject` hands the decoder; large enough that every
buffer the decoder terminates on in Go is decided (each loop iteration
and each descent consumes at least one buffer byte and at most two units
of fuel). -/
def newFuel (document : List Nat) : Nat := 2 * document.length + 4

/-- Go `NewABITObject`: an empty buffer yields the empty tree, otherwise
the buffer is decoded as a top-level tree. -/
def NewABITObject (document : List Nat) : DR Val :=
  if 0 < document.length then
    match decodeTree (newFuel document) document 0 false with
    | .ok (t, _) => .ok (.vtree t)
    | .err e => .err e
    | .diverge => .diverge
  else .ok (.vtree .nil)

/-! ## Mutation operations -/

/-- Go map assignment `t.tree[key] = o`: replace an existing binding or
add a new pair. -/
def entriesInsert : Entries → List Nat → Val → Entries
  | .nil, k, v => .cons k v .nil
  | .cons k' v' r, k, v =>
      if k' = k then .cons k' v r else .cons k' v' (entriesInsert r k v)

/-- Go map deletion `delete(t.tree, key)`. -/
def entriesRemove : Entries → List Nat → Entries
  | .nil, _ => .nil
  | .cons k v r, key => if k = key then r else .cons k v (entriesRemove r key)

/-- Go `Put`: the receiver must be a tree and the key's encoded length
must be in 1–256 bytes; every `Val` is exactly one of the seven variants,
so the Go value `switch` always selects a case (a tree value is by
construction a well-formed tree). -/
def Put (t : Val) (key : List Nat) (value : Val) : Option Val :=
  match t with
  | .vtree e =>
      if 256 < key.length ∨ key.length < 1 then none
      else some (.vtree (entriesInsert e key value))
  | _ => none

/-- Go `(a *ABITArray) Add`: append at the end (for `Val` arguments the
Go type `switch` always accepts). -/
def Add (a : ValList) (value : Val) : ValList := a.push value

/-- Go `(t *ABITObject) Remove(key)`: delete the binding, no-op when the
key is absent. -/
def TreeRemove (t : Val) (key : List Nat) : Val :=
  match t with
  | .vtree e => .vtree (entriesRemove e key)
  | v => v

def ValList.ofList : List Val → ValList
  | [] => .nil
  | v :: r => .cons v (ValList.ofList r)

/-- Go `(a *ABITArray) Remove(index)`: bounds-checked removal shifting
later elements down. -/
def ArrayRemove (a : ValList) (index : Int) : Option ValList :=
  if index < 0 ∨ (a.toList.length : Int) ≤ index then none
  else some (ValList.ofList
    (a.toList.take index.toNat ++ a.toList.drop (index.toNat + 1)))

/-! ## Validity: the invariants of API-built documents -/

mutual

/-- The data invariants any value reachable through the public API has:
integers are `int64` values, byte payloads are bytes, and every tree maps
distinct 1–256 byte keys to valid values. -/
def ValidVal : Val → Prop
  | .vnull => True
  | .vbool _ => True
  | .vint i => -(2 ^ 63) ≤ i ∧ i < 2 ^ 63
  | .vblob bs => Bytes bs
  | .vstr bs => Bytes bs
  | .varr a => ValidList a
  | .vtree t => ValidEntries t

def ValidList : ValList → Prop
  | .nil => True
  | .cons v r => ValidVal v ∧ ValidList r

def ValidEntries : Entries → Prop
  | .nil => True
  | .cons k v r =>
      (1 ≤ k.length ∧ k.length ≤ 256) ∧ Bytes k ∧ r.lookup k = none ∧
        ValidVal v ∧ ValidEntries r

end

/-- The documents constructible through the public API: scalars of the
Go payload types, the empty tree and array, and the closure under
successful `Put`, `Add` and the two `Remove` operations. -/
inductive Built : Val → Prop where
  | null : Built .vnull
  | bool (b : Bool) : Built (.vbool b)
  | int (i : Int) (h : -(2 ^ 63) ≤ i ∧ i < 2 ^ 63) : Built (.vint i)
  | blob (bs : List Nat) (h : Bytes bs) : Built (.vblob bs)
  | str (bs : List Nat) (h : Bytes bs) : Built (.vstr bs)
  | emptyTree : Built (.vtree .nil)
  | emptyArr : Built (.varr .nil)
  | put (t : Entries) (k : List Nat) (v t' : Val) (ht : Built (.vtree t))
      (hk : Bytes k) (hv : Built v) (h : Put (.vtree t) k v = some t') :
      Built t'
  | add (a : ValList) (v : Val) (ha : Built (.varr a)) (hv : Built v) :
      Built (.varr (Add a v))
  | removeKey (t : Entries) (k : List Nat) (ht : Built (.vtree t)) :
      Built (TreeRemove (.vtree t) k)
  | removeIdx (a a' : ValList) (index : Int) (ha : Built (.varr a))
      (h : ArrayRemove a index = some a') : Built (.varr a')

/-! ## Encoded sizes and the decodable-size bound -/

mutual

/-- The byte length of `encodeValue` (when it succeeds). -/
def encLenV : Val → Nat
  | .vnull => 1
  | .vbool _ => 1
  | .vint i => 1 + intByteCount i
  | .vblob bs => 1 + intByteCount bs.length + bs.length
  | .vstr bs => 1 + intByteCount bs.length + bs.length
  | .varr a => 1 + intByteCount (encLenL a) + encLenL a
  | .vtree t => 1 + intByteCount (encLenE t) + encLenE t

/-- The byte length of `encodeList`. -/
def encLenL : ValList → Nat
  | .nil => 0
  | .cons v r => encLenV v + encLenL r

/-- The byte length of `encodeEntries` (for valid keys). -/
def encLenE : Entries → Nat
  | .nil => 0
  | .cons k v r => 1 + k.length + encLenV v + encLenE r

end

mutual

/-- Every length-prefixed payload below this node fits the decoder's
4-byte (signed) length field, i.e. is at most `2^31 - 1` bytes. -/
def SmallVal : Val → Prop
  | .vblob bs => bs.length < 2 ^ 31
  | .vstr bs => bs.length < 2 ^ 31
  | .varr a => encLenL a < 2 ^ 31 ∧ SmallList a
  | .vtree t => encLenE t < 2 ^ 31 ∧ SmallEntries t
  | _ => True

def SmallList : ValList → Prop
  | .nil => True
  | .cons v r => SmallVal v ∧ SmallList r

/-- Payload bound for every value of a tree (the top-level pair sequence
itself carries no length field, so no bound is needed on its total). -/
def SmallEntries : Entries → Prop
  | .nil => True
  | .cons _ v r => SmallVal v ∧ SmallEntries r

end

/-! ## Canonical form: what the decoder returns for an encoded document -/

mutual

/-- Deep canonical sort: every tree's pairs in canonical key order.  The
decoder reconstructs exactly this form from an encoded document. -/
def canonV : Val → Val
  | .varr a => .varr (canonL a)
  | .vtree t => .vtree (canonE (sortEntries t))
  | v => v
termination_by v => sizeOf v
decreasing_by
  · simp_arith
  · simp_arith [sizeOf_sortEntries]

def canonL : ValList → ValList
  | .nil => .nil
  | .cons v r => .cons (canonV v) (canonL r)
termination_by a => sizeOf a
decreasing_by all_goals simp_arith

def canonE : Entries → Entries
  | .nil => .nil
  | .cons k v r => .cons k (canonV v) (canonE r)
termination_by e => sizeOf e
decreasing_by all_goals simp_arith

end

/-! ## The lexicon matcher -/

mutual

/-- The dispatch Go performs at each matched node: tags must agree,
containers recurse (`matchArray` / `matchTree`), scalars compare by tag
only, never by value. -/
def matchV : Val → Val → Bool
  | .varr a, .varr b => matchArrayL a b
  | .vtree a, .vtree b => matchTreeE a b
  | x, y => x.tag == y.tag
termination_by v _ => (sizeOf v, 0)
decreasing_by
  · exact Prod.Lex.left _ _ (by simp_arith)
  · exact Prod.Lex.left _ _ (by simp_arith)

/-- Go `matchArray` without its two tag guards (both hold at every call
site): equal lengths, positionally matching elements. -/
def matchArrayL : ValList → ValList → Bool
  | .nil, .nil => true
  | .cons v1 r1, .cons v2 r2 => matchV v1 v2 && matchArrayL r1 r2
  | _, _ => false
termination_by a _ => (sizeOf a, 0)
decreasing_by
  · exact Prod.Lex.left _ _ (by simp_arith)
  · exact Prod.Lex.left _ _ (by simp_arith)

/-- Go `matchTree` on the pair lists of two trees: equal pair counts,
equal canonically sorted key lists, and a matching value in `b` for
every pair of `a` (Go iterates the sorted key list; the same conjunction
is taken here over `a`'s pairs directly). -/
def matchTreeE (a b : Entries) : Bool :=
  a.toList.length == b.toList.length &&
    ((sortEntries a).keys == (sortEntries b).keys && matchEntriesIn a b)
termination_by (sizeOf a, 1)
decreasing_by exact Prod.Lex.right _ (by omega)

/-- For every pair `(k, v)` of `a`, the value `b[k]` matches `v`. -/
def matchEntriesIn : Entries → Entries → Bool
  | .nil, _ => true
  | .cons k v r, b =>
      (match b.lookup k with
       | some w => matchV v w
       | none => false) && matchEntriesIn r b
termination_by a _ => (sizeOf a, 0)
decreasing_by
  · exact Prod.Lex.left _ _ (by simp_arith)
  · exact Prod.Lex.left _ _ (by simp_arith)

end

/-- Go `(l *ABITLexicon) Matches(doc)`: match the lexicon tree against
the document tree. -/
def Matches (lexicon doc : Entries) : Bool := matchTreeE lexicon doc

/-- The specification's structural-match relation: trees have identical
key sets with, for every key, matching values; arrays match positionally
with equal lengths; scalar leaves match by variant tag only, never by
value (any two integers match). -/
inductive SpecMatch : Val → Val → Prop where
  | null : SpecMatch .vnull .vnull
  | bool (b1 b2 : Bool) : SpecMatch (.vbool b1) (.vbool b2)
  | int (i1 i2 : Int) : SpecMatch (.vint i1) (.vint i2)
  | blob (b1 b2 : List Nat) : SpecMatch (.vblob b1) (.vblob b2)
  | str (b1 b2 : List Nat) : SpecMatch (.vstr b1) (.vstr b2)
  | arr (a b : ValList) (hlen : a.toList.length = b.toList.length)
      (h : ∀ (i : Nat) v1 v2, a.toList[i]? = some v1 → b.toList[i]? = some v2 →
        SpecMatch v1 v2) :
      SpecMatch (.varr a) (.varr b)
  | tree (a b : Entries)
      (hkeys : ∀ k, (a.lookup k).isSome ↔ (b.lookup k).isSome)
      (h : ∀ k v1 v2, a.lookup k = some v1 → b.lookup k = some v2 →
        SpecMatch v1 v2) :
      SpecMatch (.vtree a) (.vtree b)

/-- Structural equality of documents: the same variant and payload at
every node, trees compared as key-to-value maps (identical key sets,
equal value per key, no order), arrays compared positionally. -/
inductive EquivVal : Val → Val → Prop where
  | null : EquivVal .vnull .vnull
  | bool (b : Bool) : EquivVal (.vbool b) (.vbool b)
  | int (i : Int) : EquivVal (.vint i) (.vint i)
  | blob (bs : List Nat) : EquivVal (.vblob bs) (.vblob bs)
  | str (bs : List Nat) : EquivVal (.vstr bs) (.vstr bs)
  | arr (a b : ValList) (hlen : a.toList.length = b.toList.length)
      (h : ∀ (i : Nat) v1 v2, a.toList[i]? = some v1 → b.toList[i]? = some v2 →
        EquivVal v1 v2) :
      EquivVal (.varr a) (.varr b)
  | tree (a b : Entries)
      (hkeys : ∀ k, (a.lookup k).isSome ↔ (b.lookup k).isSome)
      (h : ∀ k v1 v2, a.lookup k = some v1 → b.lookup k = some v2 →
        EquivVal v1 v2) :
      EquivVal (.vtree a) (.vtree b)

/-! ## Byte buffer lemmas -/

theorem slice_append (pre x suf : List Nat) :
    slice (pre ++ (x ++ suf)) (pre.length : Int)
      ((pre.length : Int) + (x.length : Int)) = x := by
  have h1 : ((pre.length : Int) + (x.length : Int)).toNat = pre.length + x.length := by
    omega
  simp only [slice, h1, Int.toNat_ofNat]
  rw [List.take_append_eq_append_take, List.take_all_of_le (by omega),
    List.take_append_eq_append_take]
  simp

theorem byteAt_append (pre rest : List Nat) (j : Nat) (hj : j < rest.length) :
    byteAt (pre ++ rest) ((pre.length : Int) + (j : Int)) = rest.getD j 0 := by
  have h1 : ((pre.length : Int) + (j : Int)).toNat = pre.length + j := by omega
  simp only [byteAt, h1]
  rw [List.getD_eq_getElem?_getD, List.getD_eq_getElem?_getD,
    List.getElem?_append_right (by omega), show pre.length + j - pre.length = j by omega]

theorem byteAt_head (pre : List Nat) (b : Nat) (rest : List Nat) :
    byteAt (pre ++ b :: rest) (pre.length : Int) = b := by
  have := byteAt_append pre (b :: rest) 0 (Nat.succ_pos rest.length)
  simpa using this

/-! ## The canonical key order -/

theorem lexLt_irrefl : ∀ a : List Nat, lexLt a a = false
  | [] => rfl
  | _ :: as => by simp [lexLt, lexLt_irrefl as]

theorem keyCompare_irrefl (a : List Nat) : keyCompare a a = false := by
  simp [keyCompare, lexLt_irrefl]

theorem lexLt_nil_right : ∀ b : List Nat, lexLt b [] = false
  | [] => rfl
  | _ :: _ => rfl

theorem lexLt_asymm : ∀ a b : List Nat, lexLt a b = true → lexLt b a = false
  | [], [] => by simp [lexLt]
  | [], _ :: _ => by simp [lexLt]
  | _ :: _, [] => by simp [lexLt]
  | a :: as, b :: bs => by
      intro h
      simp only [lexLt] at h ⊢
      by_cases h1 : a < b
      · rw [if_neg (show ¬ b < a by omega), if_pos h1]
      · rw [if_neg h1] at h
        by_cases h2 : b < a
        · rw [if_pos h2] at h
          cases h
        · rw [if_neg h2] at h
          rw [if_neg h2, if_neg h1]
          exact lexLt_asymm as bs h

theorem lexLt_trans : ∀ a b c : List Nat,
    lexLt a b = true → lexLt b c = true → lexLt a c = true
  | _, b, [], _, hbc => by rw [lexLt_nil_right b] at hbc; cases hbc
  | [], _, _ :: _, _, _ => by simp [lexLt]
  | _ :: _, [], _, hab, _ => by rw [lexLt_nil_right] at hab; cases hab
  | a :: as, b :: bs, c :: cs, hab, hbc => by
      simp only [lexLt] at hab hbc ⊢
      by_cases h1 : a < b
      · by_cases h2 : b < c
        · rw [if_pos (show a < c by omega)]
        · rw [if_neg h2] at hbc
          by_cases h3 : c < b
          · rw [if_pos h3] at hbc
            cases hbc
          · rw [if_pos (show a < c by omega)]
      · rw [if_neg h1] at hab
        by_cases h1' : b < a
        · rw [if_pos h1'] at hab
          cases hab
        · rw [if_neg h1'] at hab
          by_cases h2 : b < c
          · rw [if_pos (show a < c by omega)]
          · rw [if_neg h2] at hbc
            by_cases h3 : c < b
            · rw [if_pos h3] at hbc
              cases hbc
            · rw [if_neg h3] at hbc
              rw [if_neg (show ¬ a < c by omega), if_neg (show ¬ c < a by omega)]
              exact lexLt_trans as bs cs hab hbc

theorem lexLt_total_of_ne : ∀ a b : List Nat, a.length = b.length → a ≠ b →
    lexLt a b = true ∨ lexLt b a = true
  | [], [], _, hne => absurd rfl hne
  | [], _ :: _, hlen, _ => by cases hlen
  | _ :: _, [], hlen, _ => by cases hlen
  | a :: as, b :: bs, hlen, hne => by
      simp only [lexLt]
      by_cases hab : a < b
      · left; simp [hab]
      · by_cases hba : b < a
        · right; simp [hba]
        · have ha : a = b := by omega
          subst ha
          have : as ≠ bs := by intro h; exact hne (by rw [h])
          rcases lexLt_total_of_ne as bs (by simpa using hlen) this with h | h
          · left; simpa [lt_irrefl] using h
          · right; simpa [lt_irrefl] using h

theorem keyCompare_asymm (a b : List Nat) :
    keyCompare a b = true → keyCompare b a = false := by
  simp only [keyCompare]
  split
  · rename_i h
    rw [if_pos h.symm]
    exact lexLt_asymm a b
  · rename_i h
    rw [if_neg (fun hc => h hc.symm)]
    simp only [decide_eq_true_eq]
    intro hlt
    simpa using by omega

theorem keyCompare_trans (a b c : List Nat) :
    keyCompare a b = true → keyCompare b c = true → keyCompare a c = true := by
  simp only [keyCompare]
  split <;> rename_i h1
  · split <;> rename_i h2
    · rw [if_pos (h1.trans h2)]
      exact lexLt_trans a b c
    · rw [h1, if_neg h2]
      exact fun _ h => h
  · split <;> rename_i h2
    · rw [← h2, if_neg h1]
      exact fun h _ => h
    · simp only [decide_eq_true_eq]
      intro hab hbc
      rw [if_neg (by omega)]
      simp only [decide_eq_true_eq]
      omega

theorem keyCompare_total_of_ne (a b : List Nat) (hne : a ≠ b) :
    keyCompare a b = true ∨ keyCompare b a = true := by
  simp only [keyCompare]
  by_cases hlen : a.length = b.length
  · rw [if_pos hlen, if_pos hlen.symm]
    exact lexLt_total_of_ne a b hlen hne
  · rw [if_neg hlen, if_neg (fun h => hlen h.symm)]
    simp only [decide_eq_true_eq]
    omega

/-- `keyCompare` distinguishes: a true comparison implies distinct keys. -/
theorem keyCompare_ne (a b : List Nat) (h : keyCompare a b = true) : a ≠ b := by
  intro he
  subst he
  rw [keyCompare_irrefl] at h
  cases h

/-- The empty string is canonically below every nonempty key; this is why
the decoder's initial `lastKey = ""` accepts any first key. -/
theorem keyCompare_nil_left (k : List Nat) (hk : 1 ≤ k.length) :
    keyCompare [] k = true := by
  simp only [keyCompare, List.length_nil]
  rw [if_neg (by omega)]
  simpa using hk

/-! ## Sorting lemmas -/

theorem toList_insertEntry (k : List Nat) (v : Val) :
    ∀ e : Entries, (insertEntry k v e).toList.Perm ((k, v) :: e.toList)
  | .nil => by simp [insertEntry, Entries.toList]
  | .cons k' v' r => by
      by_cases h : keyCompare k k' = true
      · simp only [insertEntry, h, if_true]
        exact List.Perm.refl _
      · simp only [insertEntry, h, Entries.toList, if_false, Bool.false_eq_true]
        exact ((toList_insertEntry k v r).cons (k', v')).trans (List.Perm.swap _ _ _)

theorem toList_sortEntries : ∀ e : Entries, (sortEntries e).toList.Perm e.toList
  | .nil => List.Perm.refl _
  | .cons k v r => by
      simp only [sortEntries, Entries.toList]
      exact (toList_insertEntry k v (sortEntries r)).trans
        ((toList_sortEntries r).cons (k, v))

theorem keys_eq_map_fst : ∀ e : Entries, e.keys = e.toList.map Prod.fst
  | .nil => rfl
  | .cons k v r => by simp [Entries.keys, Entries.toList, keys_eq_map_fst r]

theorem keys_sortEntries_perm (e : Entries) :
    (sortEntries e).keys.Perm e.keys := by
  rw [keys_eq_map_fst, keys_eq_map_fst]
  exact (toList_sortEntries e).map Prod.fst

theorem lookup_eq_none_iff : ∀ (e : Entries) (k : List Nat),
    e.lookup k = none ↔ k ∉ e.keys
  | .nil, k => by simp [Entries.lookup, Entries.keys]
  | .cons k' v r, k => by
      simp only [Entries.lookup, Entries.keys, List.mem_cons]
      by_cases h : k' = k
      · simp [h]
      · rw [if_neg h, lookup_eq_none_iff r k]
        constructor
        · intro hr hc
          rcases hc with hc | hc
          · exact h hc.symm
          · exact hr hc
        · intro hc
          exact fun hm => hc (Or.inr hm)

/-- The chain discipline of the decoder: every key is canonically
greater than the previous one, starting from the given lower key. -/
def EChain : List Nat → Entries → Prop
  | _, .nil => True
  | last, .cons k _ r => keyCompare last k = true ∧ EChain k r

theorem EChain_insertEntry (k : List Nat) (v : Val) :
    ∀ (low : List Nat) (e : Entries), EChain low e → keyCompare low k = true →
      k ∉ e.keys → EChain low (insertEntry k v e)
  | low, .nil, _, hlk, _ => by simpa [insertEntry, EChain] using hlk
  | low, .cons k' v' r, he, hlk, hmem => by
      simp only [EChain] at he
      have hmem' : k ≠ k' ∧ k ∉ r.keys := by
        constructor
        · intro h
          exact hmem (by simp [Entries.keys, h])
        · intro h
          exact hmem (by simp [Entries.keys, h])
      by_cases h : keyCompare k k' = true
      · simp only [insertEntry, h, if_true, EChain]
        refine ⟨hlk, ?_, he.2⟩
        simp [h]
      · have hk'k : keyCompare k' k = true := by
          rcases keyCompare_total_of_ne k k' hmem'.1 with hc | hc
          · exact absurd hc h
          · exact hc
        simp only [insertEntry, h, if_false, Bool.false_eq_true, EChain]
        exact ⟨he.1, EChain_insertEntry k v k' r he.2 hk'k hmem'.2⟩

/-- All pairs of an entry list satisfy `P`. -/
def EntriesAll (P : List Nat → Val → Prop) : Entries → Prop
  | .nil => True
  | .cons k v r => P k v ∧ EntriesAll P r

theorem EntriesAll_insertEntry (P : List Nat → Val → Prop) (k : List Nat) (v : Val) :
    ∀ e : Entries, EntriesAll P e → P k v → EntriesAll P (insertEntry k v e)
  | .nil, _, hp => by simpa [insertEntry, EntriesAll] using hp
  | .cons k' v' r, he, hp => by
      by_cases h : keyCompare k k' = true
      · simpa [insertEntry, h, EntriesAll] using ⟨hp, he⟩
      · simp only [insertEntry, h, if_false, Bool.false_eq_true, EntriesAll]
        exact ⟨he.1, EntriesAll_insertEntry P k v r he.2 hp⟩

theorem EntriesAll_sortEntries (P : List Nat → Val → Prop) :
    ∀ e : Entries, EntriesAll P e → EntriesAll P (sortEntries e)
  | .nil, _ => trivial
  | .cons k v r, he =>
      EntriesAll_insertEntry P k v (sortEntries r)
        (EntriesAll_sortEntries P r he.2) he.1

/-- Valid entries, re-packaged: their uniqueness as a `keys` nodup and
the per-pair facts as an `EntriesAll`. -/
def validPair (k : List Nat) (v : Val) : Prop :=
  (1 ≤ k.length ∧ k.length ≤ 256) ∧ Bytes k ∧ ValidVal v

theorem ValidEntries_all : ∀ e : Entries, ValidEntries e → EntriesAll validPair e
  | .nil, _ => trivial
  | .cons k v r, he => by
      simp only [ValidEntries] at he
      exact ⟨⟨⟨he.1.1, he.1.2⟩, he.2.1, he.2.2.2.1⟩, ValidEntries_all r he.2.2.2.2⟩

theorem ValidEntries_nodup : ∀ e : Entries, ValidEntries e → e.keys.Nodup
  | .nil, _ => by simp [Entries.keys]
  | .cons k v r, he => by
      simp only [ValidEntries] at he
      simp only [Entries.keys, List.nodup_cons]
      exact ⟨(lookup_eq_none_iff r k).mp he.2.2.1, ValidEntries_nodup r he.2.2.2.2⟩

/-- Sorting the pairs of a valid tree yields a strictly ascending chain
starting below the empty key. -/
theorem EChain_sortEntries : ∀ e : Entries, ValidEntries e →
    EChain [] (sortEntries e)
  | .nil, _ => trivial
  | .cons k v r, he => by
      simp only [ValidEntries] at he
      have hk : keyCompare [] k = true := keyCompare_nil_left k he.1.1
      have hmem : k ∉ (sortEntries r).keys := by
        intro hm
        exact (lookup_eq_none_iff r k).mp he.2.2.1 ((keys_sortEntries_perm r).mem_iff.mp hm)
      exact EChain_insertEntry k v [] (sortEntries r)
        (EChain_sortEntries r he.2.2.2.2) hk hmem

/-! ## The integer codec -/

theorem byteAt_lt (blob : List Nat) (hB : Bytes blob) (i : Int) :
    byteAt blob i < 256 := by
  unfold byteAt
  by_cases h : i.toNat < blob.length
  · rw [List.getD_eq_getElem blob 0 h]
    exact hB _ (List.getElem_mem h)
  · rw [List.getD_eq_default blob 0 (by omega)]
    omega

/-- The unsigned little-endian value of the `n` bytes starting at buffer
position `a`. -/
def leValAt (blob : List Nat) (a : Int) : Nat → Nat
  | 0 => 0
  | m + 1 => leValAt blob a m + byteAt blob (a + (m : Int)) * 2 ^ (8 * m)

/-- The specification's sign extension: the unsigned little-endian value
of the `n` bytes at position `a`, made negative by replicating the top
bit of the last byte (i.e. subtracting `2^(8n)` when that bit is set). -/
def sextAt (blob : List Nat) (a : Int) (n : Nat) : Int :=
  if 128 ≤ byteAt blob (a + (n : Int) - 1) then
    (leValAt blob a n : Int) - 2 ^ (8 * n)
  else (leValAt blob a n : Int)

/-- The 8-term little-endian combination computed by the Go decoder,
with bytes below `n` from `f` and the sign fill above, equals the
sign-extended `n`-byte value. -/
theorem toInt64_combine (n : Nat) (hn1 : 1 ≤ n) (hn8 : n ≤ 8)
    (f : Nat → Nat) (hf : ∀ j, f j < 256) :
    (let ext : Nat → Nat := fun j =>
      if j < n then f j else if 128 ≤ f (n - 1) then 255 else 0
     toInt64 (ext 0 + ext 1 * 2 ^ 8 + ext 2 * 2 ^ 16 + ext 3 * 2 ^ 24 +
        ext 4 * 2 ^ 32 + ext 5 * 2 ^ 40 + ext 6 * 2 ^ 48 + ext 7 * 2 ^ 56)) =
      (if 128 ≤ f (n - 1) then
        (((List.range n).map (fun j => f j * 2 ^ (8 * j))).sum : Int) - 2 ^ (8 * n)
       else (((List.range n).map (fun j => f j * 2 ^ (8 * j))).sum : Int)) := by
  have h0 := hf 0
  have h1 := hf 1
  have h2 := hf 2
  have h3 := hf 3
  have h4 := hf 4
  have h5 := hf 5
  have h6 := hf 6
  have h7 := hf 7
  interval_cases n <;>
    · simp only [List.range_succ, List.range_zero, List.map_append, List.map_cons,
        List.map_nil, List.sum_append, List.sum_cons, List.sum_nil, toInt64]
      norm_num
      split_ifs <;> omega

theorem leValAt_eq_sum (blob : List Nat) (a : Int) :
    ∀ n : Nat, leValAt blob a n =
      ((List.range n).map (fun (j : Nat) => byteAt blob (a + (j : Int)) * 2 ^ (8 * j))).sum
  | 0 => rfl
  | m + 1 => by
      simp only [leValAt, List.range_succ, List.map_append, List.map_cons, List.map_nil,
        List.sum_append, List.sum_cons, List.sum_nil, leValAt_eq_sum blob a m]
      omega

/-- Complete characterization of `decodeInteger` at an in-bounds offset:
the two failure modes of the claims (size nibble above `max_size`;
indicated bytes not fully present) and, otherwise, success with the
sign-extended value and the offset just past the consumed bytes — with
no minimality check of any kind. -/
theorem decodeInteger_spec (blob : List Nat) (offset : Int) (maxSize : Nat)
    (hB : Bytes blob) (h0 : 0 ≤ offset) (hlt : offset < (blob.length : Int))
    (hms8 : maxSize ≤ 8) :
    (maxSize < byteAt blob offset / 16 + 1 →
        decodeInteger blob offset maxSize = .err .intTooBig) ∧
    (byteAt blob offset / 16 + 1 ≤ maxSize →
      (blob.length : Int) < offset + 1 + ((byteAt blob offset / 16 + 1 : Nat) : Int) →
        decodeInteger blob offset maxSize = .err .intOutOfBounds) ∧
    (byteAt blob offset / 16 + 1 ≤ maxSize →
      offset + 1 + ((byteAt blob offset / 16 + 1 : Nat) : Int) ≤ (blob.length : Int) →
        decodeInteger blob offset maxSize =
          .ok (sextAt blob (offset + 1) (byteAt blob offset / 16 + 1),
            offset + 1 + ((byteAt blob offset / 16 + 1 : Nat) : Int))) := by
  have hguard : ¬ (offset < 0 ∨ (blob.length : Int) ≤ offset) := by omega
  refine ⟨?_, ?_, ?_⟩
  · intro h
    simp only [decodeInteger, hguard, if_false, if_pos h]
  · intro h hoob
    simp only [decodeInteger, hguard, if_false, if_neg (by omega : ¬ maxSize < byteAt blob offset / 16 + 1),
      if_pos hoob]
  · intro h hok
    have hn1 : 1 ≤ byteAt blob offset / 16 + 1 := by omega
    have hn8 : byteAt blob offset / 16 + 1 ≤ 8 := by omega
    have hcomb := toInt64_combine (byteAt blob offset / 16 + 1) hn1 hn8
      (fun j => byteAt blob (offset + 1 + (j : Int))) (fun j => byteAt_lt blob hB _)
    simp only [] at hcomb
    have hidx : offset + 1 + ((byteAt blob offset / 16 + 1 - 1 : Nat) : Int) =
        offset + ((byteAt blob offset / 16 + 1 : Nat) : Int) := by
      omega
    simp only [decodeInteger, hguard, if_false,
      if_neg (by omega : ¬ maxSize < byteAt blob offset / 16 + 1),
      if_neg (by omega : ¬ (blob.length : Int) < offset + 1 + ((byteAt blob offset / 16 + 1 : Nat) : Int))]
    simp only [hidx] at hcomb
    rw [hcomb]
    simp only [sextAt, leValAt_eq_sum]
    rw [show offset + 1 + ((byteAt blob offset / 16 + 1 : Nat) : Int) - 1 =
      offset + ((byteAt blob offset / 16 + 1 : Nat) : Int) from by omega]

/-! ## Byte-count minimality -/

theorem intByteCount_pos (v : Int) : 1 ≤ intByteCount v := by
  unfold intByteCount
  split_ifs <;> omega

theorem intByteCount_le8 (v : Int) : intByteCount v ≤ 8 := by
  unfold intByteCount
  split_ifs <;> omega

/-- The chosen byte count's two's-complement range contains the value. -/
theorem intByteCount_contains (v : Int) (h : -(2 ^ 63) ≤ v ∧ v < 2 ^ 63) :
    -(2 ^ (8 * intByteCount v - 1) : Int) ≤ v ∧ v < 2 ^ (8 * intByteCount v - 1) := by
  unfold intByteCount
  split_ifs <;> norm_num <;> omega

/-- No smaller byte count's two's-complement range contains the value. -/
theorem intByteCount_min (v : Int) (m : Nat) (h1 : 1 ≤ m) (h2 : m < intByteCount v) :
    ¬ (-(2 ^ (8 * m - 1) : Int) ≤ v ∧ v < 2 ^ (8 * m - 1)) := by
  unfold intByteCount at h2
  split_ifs at h2 <;> interval_cases m <;> norm_num <;> omega

/-! ## Encoder output facts -/

theorem encodeInteger_length (v : Int) (t : Nat) :
    (encodeInteger v t).length = 1 + intByteCount v := by
  simp [encodeInteger]
  omega

theorem leByte_lt (u j : Nat) : leByte u j < 256 := by
  unfold leByte
  omega

theorem encodeInteger_head (v : Int) (t : Nat) :
    (encodeInteger v t).head? = some (16 * (intByteCount v - 1) + t % 16) := by
  simp [encodeInteger]

theorem encodeInteger_bytes (v : Int) (t : Nat) : Bytes (encodeInteger v t) := by
  intro b hb
  simp only [encodeInteger, List.mem_cons, List.mem_map] at hb
  rcases hb with hb | ⟨j, _, hj⟩
  · have := intByteCount_le8 v
    have := intByteCount_pos v
    omega
  · rw [← hj]
    exact leByte_lt _ _

theorem Bytes_append (a b : List Nat) (ha : Bytes a) (hb : Bytes b) :
    Bytes (a ++ b) := by
  intro x hx
  rcases List.mem_append.mp hx with h | h
  · exact ha x h
  · exact hb x h

theorem Bytes_slice (blob : List Nat) (hB : Bytes blob) (a b : Int) :
    Bytes (slice blob a b) := by
  intro x hx
  unfold slice at hx
  exact hB x (List.mem_of_mem_take (List.mem_of_mem_drop hx))

theorem Bytes_cons (b : Nat) (l : List Nat) (hb : b < 256) (hl : Bytes l) :
    Bytes (b :: l) := by
  intro x hx
  rcases List.mem_cons.mp hx with h | h
  · omega
  · exact hl x h

/-! ## Decoding an encoded integer recovers the value -/

/-- Sign-extending the minimal-width little-endian bytes of `v` recovers
`v` (pure arithmetic core). -/
theorem sext_of_leBytes (v : Int) (n : Nat) (hn1 : 1 ≤ n) (hn8 : n ≤ 8)
    (hr : -(2 ^ (8 * n - 1) : Int) ≤ v ∧ v < 2 ^ (8 * n - 1))
    (hv64 : -(2 ^ 63) ≤ v ∧ v < 2 ^ 63) :
    (if 128 ≤ leByte (v % 2 ^ 64).toNat (n - 1)
     then (((List.range n).map
        (fun j => leByte (v % 2 ^ 64).toNat j * 2 ^ (8 * j))).sum : Int) - 2 ^ (8 * n)
     else (((List.range n).map
        (fun j => leByte (v % 2 ^ 64).toNat j * 2 ^ (8 * j))).sum : Int)) = v := by
  interval_cases n <;>
    · simp only [List.range_succ, List.range_zero, List.map_append, List.map_cons,
        List.map_nil, List.sum_append, List.sum_cons, List.sum_nil, leByte]
      norm_num
      split_ifs <;> omega

/-- `decodeInteger` at the start of an embedded `encodeInteger` output
returns the original value and stops exactly after it. -/
theorem decodeInteger_encodeInteger (pre suf : List Nat) (v : Int) (t : Nat)
    (hv : -(2 ^ 63) ≤ v ∧ v < 2 ^ 63) (maxSize : Nat)
    (hms : intByteCount v ≤ maxSize) (hms8 : maxSize ≤ 8)
    (hB : Bytes (pre ++ (encodeInteger v t ++ suf))) :
    decodeInteger (pre ++ (encodeInteger v t ++ suf)) (pre.length : Int) maxSize =
      .ok (v, (pre.length : Int) + 1 + (intByteCount v : Int)) := by
  have hn1 := intByteCount_pos v
  have hn8 := intByteCount_le8 v
  have henc : encodeInteger v t ++ suf =
      (16 * (intByteCount v - 1) + t % 16) ::
        ((List.range (intByteCount v)).map (leByte (v % 2 ^ 64).toNat) ++ suf) := by
    simp [encodeInteger]
  have hlen : (pre ++ (encodeInteger v t ++ suf)).length =
      pre.length + (1 + intByteCount v) + suf.length := by
    simp [encodeInteger_length]
    omega
  have htag : byteAt (pre ++ (encodeInteger v t ++ suf)) (pre.length : Int) =
      16 * (intByteCount v - 1) + t % 16 := by
    rw [henc]
    exact byteAt_head pre _ _
  have hnib : byteAt (pre ++ (encodeInteger v t ++ suf)) (pre.length : Int) / 16 + 1 =
      intByteCount v := by
    rw [htag]
    omega
  have hbyte : ∀ j : Nat, j < intByteCount v →
      byteAt (pre ++ (encodeInteger v t ++ suf)) ((pre.length : Int) + 1 + (j : Int)) =
        leByte (v % 2 ^ 64).toNat j := by
    intro j hj
    rw [henc, show (pre.length : Int) + 1 + (j : Int) = (pre.length : Int) + ((j + 1 : Nat) : Int) by omega,
      byteAt_append pre _ (j + 1)
        (by simp only [List.length_cons, List.length_append, List.length_map,
              List.length_range]
            omega)]
    simp only [List.getD_cons_succ]
    rw [List.getD_eq_getElem?_getD,
      List.getElem?_append_left (by simp only [List.length_map, List.length_range]; omega),
      List.getElem?_map, List.getElem?_range hj]
    rfl
  have hspec := (decodeInteger_spec (pre ++ (encodeInteger v t ++ suf)) (pre.length : Int)
    maxSize hB (by omega) (by rw [hlen]; push_cast; omega) hms8).2.2
  rw [hnib] at hspec
  rw [hspec (by omega) (by rw [hlen]; push_cast; omega)]
  congr 1
  refine Prod.ext ?_ rfl
  show sextAt (pre ++ (encodeInteger v t ++ suf)) ((pre.length : Int) + 1) (intByteCount v) = v
  have hsign : byteAt (pre ++ (encodeInteger v t ++ suf))
      ((pre.length : Int) + 1 + (intByteCount v : Int) - 1) =
      leByte (v % 2 ^ 64).toNat (intByteCount v - 1) := by
    rw [show (pre.length : Int) + 1 + (intByteCount v : Int) - 1 =
      (pre.length : Int) + 1 + ((intByteCount v - 1 : Nat) : Int) by omega]
    exact hbyte _ (by omega)
  have hval : leValAt (pre ++ (encodeInteger v t ++ suf)) ((pre.length : Int) + 1)
      (intByteCount v) =
      ((List.range (intByteCount v)).map
        (fun j => leByte (v % 2 ^ 64).toNat j * 2 ^ (8 * j))).sum := by
    rw [leValAt_eq_sum]
    refine congrArg List.sum (List.map_congr_left ?_)
    intro j hj
    rw [hbyte j (List.mem_range.mp hj)]
  unfold sextAt
  rw [hsign, hval]
  exact sext_of_leBytes v (intByteCount v) hn1 hn8 (intByteCount_contains v hv) hv

/-! ## Encoding a valid document always succeeds -/

theorem encLenE_insertEntry (k : List Nat) (v : Val) :
    ∀ e : Entries, encLenE (insertEntry k v e) = 1 + k.length + encLenV v + encLenE e
  | .nil => by simp [insertEntry, encLenE]
  | .cons k' v' r => by
      by_cases h : keyCompare k k' = true
      · simp [insertEntry, h, encLenE]
      · simp only [insertEntry, h, if_false, Bool.false_eq_true, encLenE,
          encLenE_insertEntry k v r]
        omega

theorem encLenE_sortEntries : ∀ e : Entries, encLenE (sortEntries e) = encLenE e
  | .nil => rfl
  | .cons k v r => by
      simp [sortEntries, encLenE_insertEntry, encLenE, encLenE_sortEntries r]

theorem Bytes_nil : Bytes [] := fun b hb => absurd hb (List.not_mem_nil b)

mutual

theorem encodeValue_props : ∀ v : Val, ValidVal v →
    ∃ e, encodeValue v = some e ∧ e.length = encLenV v ∧ Bytes e
  | .vnull, _ => by
      refine ⟨encodeNull, by simp [encodeValue], by simp [encodeNull, encLenV], ?_⟩
      exact Bytes_cons 0 [] (by omega) Bytes_nil
  | .vbool b, _ => by
      refine ⟨encodeBoolean b, by simp [encodeValue], ?_, ?_⟩
      · cases b <;> simp [encodeBoolean, encLenV]
      · cases b <;> exact Bytes_cons _ [] (by omega) Bytes_nil
  | .vint i, _ => by
      refine ⟨encodeInteger i 0b0010, by simp [encodeValue], ?_, encodeInteger_bytes i 2⟩
      simp [encodeInteger_length, encLenV]
  | .vblob bs, h => by
      refine ⟨encodeBlob bs 0b0011, by simp [encodeValue], ?_, ?_⟩
      · simp [encodeBlob, encodeInteger_length, encLenV] <;> omega
      · exact Bytes_append _ _ (encodeInteger_bytes _ _) h
  | .vstr bs, h => by
      refine ⟨encodeBlob bs 0b0100, by simp [encodeValue, encodeString], ?_, ?_⟩
      · simp [encodeBlob, encodeInteger_length, encLenV] <;> omega
      · exact Bytes_append _ _ (encodeInteger_bytes _ _) h
  | .varr a, h => by
      obtain ⟨p, hp, hlen, hB⟩ := encodeList_props a h
      refine ⟨encodeBlob p 0b0101, ?_, ?_, ?_⟩
      · simp [encodeValue, hp]
      · simp [encodeBlob, encodeInteger_length, encLenV, hlen] <;> omega
      · exact Bytes_append _ _ (encodeInteger_bytes _ _) hB
  | .vtree t, h => by
      have hall := EntriesAll_sortEntries validPair t (ValidEntries_all t h)
      obtain ⟨p, hp, hlen, hB⟩ := encodeEntries_props (sortEntries t) hall
      refine ⟨encodeBlob p 0b0110, ?_, ?_, ?_⟩
      · simp [encodeValue, encodeTree, hp]
      · simp [encodeBlob, encodeInteger_length, encLenV, hlen, encLenE_sortEntries] <;> omega
      · exact Bytes_append _ _ (encodeInteger_bytes _ _) hB
termination_by v => (sizeOf v, 0)
decreasing_by
  · exact Prod.Lex.left _ _ (by simp_arith)
  · exact Prod.Lex.left _ _ (by simp_arith [sizeOf_sortEntries])

theorem encodeList_props : ∀ a : ValList, ValidList a →
    ∃ e, encodeList a = some e ∧ e.length = encLenL a ∧ Bytes e
  | .nil, _ => ⟨[], by simp [encodeList], by simp [encLenL], Bytes_nil⟩
  | .cons v r, h => by
      simp only [ValidList] at h
      obtain ⟨vb, hv, hvlen, hvB⟩ := encodeValue_props v h.1
      obtain ⟨rb, hr, hrlen, hrB⟩ := encodeList_props r h.2
      refine ⟨vb ++ rb, ?_, ?_, Bytes_append _ _ hvB hrB⟩
      · simp [encodeList, hv, hr]
      · simp [encLenL, hvlen, hrlen]
termination_by a => (sizeOf a, 0)
decreasing_by
  · exact Prod.Lex.left _ _ (by simp_arith)
  · exact Prod.Lex.left _ _ (by simp_arith)

theorem encodeEntries_props : ∀ t : Entries, EntriesAll validPair t →
    ∃ e, encodeEntries t = some e ∧ e.length = encLenE t ∧ Bytes e
  | .nil, _ => ⟨[], by simp [encodeEntries], by simp [encLenE], Bytes_nil⟩
  | .cons k v r, h => by
      simp only [EntriesAll] at h
      obtain ⟨⟨hk, hkB, hkv⟩, hrest⟩ := h
      obtain ⟨vb, hv, hvlen, hvB⟩ := encodeValue_props v hkv
      obtain ⟨rb, hr, hrlen, hrB⟩ := encodeEntries_props r hrest
      have hkey : encodeKey k = some ((k.length - 1) :: k) := by
        simp only [encodeKey, if_neg (by omega : ¬ 256 < k.length),
          if_neg (by omega : ¬ k.length < 1)]
      refine ⟨((k.length - 1) :: k) ++ vb ++ rb, ?_, ?_, ?_⟩
      · simp [encodeEntries, hkey, hv, hr]
      · simp [encLenE, hvlen, hrlen] <;> omega
      · exact Bytes_append _ _ (Bytes_append _ _ (Bytes_cons _ _ (by omega) hkB) hvB) hrB
termination_by t => (sizeOf t, 0)
decreasing_by
  · exact Prod.Lex.left _ _ (by simp_arith)
  · exact Prod.Lex.left _ _ (by simp_arith)

end

/-- `ToByteArray` succeeds on every valid tree document. -/
theorem ToByteArray_ok (t : Entries) (h : ValidEntries t) :
    ∃ e, ToByteArray (.vtree t) = some e ∧ e.length = encLenE t ∧ Bytes e := by
  obtain ⟨p, hp, hlen, hB⟩ := encodeEntries_props (sortEntries t)
    (EntriesAll_sortEntries validPair t (ValidEntries_all t h))
  refine ⟨p, ?_, ?_, hB⟩
  · simp [ToByteArray, encodeTree, hp]
  · rw [hlen, encLenE_sortEntries]

/-! ## Accumulator appends -/

def ValList.append : ValList → ValList → ValList
  | .nil, b => b
  | .cons v r, b => .cons v (r.append b)

theorem ValList.appendNilVL : ∀ a : ValList, a.append .nil = a
  | .nil => rfl
  | .cons v r => by simp [ValList.append, ValList.appendNilVL r]

theorem ValList.pushAppendVL : ∀ (a : ValList) (v : Val),
    a.push v = a.append (.cons v .nil)
  | .nil, v => rfl
  | .cons w r, v => by simp [ValList.push, ValList.append, ValList.pushAppendVL r v]

theorem ValList.appendAssocVL : ∀ a b c : ValList,
    (a.append b).append c = a.append (b.append c)
  | .nil, _, _ => rfl
  | .cons v r, b, c => by simp [ValList.append, ValList.appendAssocVL r b c]

def Entries.append : Entries → Entries → Entries
  | .nil, b => b
  | .cons k v r, b => .cons k v (r.append b)

theorem Entries.appendNilEn : ∀ a : Entries, a.append .nil = a
  | .nil => rfl
  | .cons k v r => by simp [Entries.append, Entries.appendNilEn r]

theorem Entries.pushAppendEn : ∀ (a : Entries) (k : List Nat) (v : Val),
    a.push k v = a.append (.cons k v .nil)
  | .nil, _, _ => rfl
  | .cons k' v' r, k, v => by
      simp [Entries.push, Entries.append, Entries.pushAppendEn r k v]

theorem Entries.appendAssocEn : ∀ a b c : Entries,
    (a.append b).append c = a.append (b.append c)
  | .nil, _, _ => rfl
  | .cons k v r, b, c => by simp [Entries.append, Entries.appendAssocEn r b c]

/-! ## Single decode steps on encoder output -/

theorem decodeKey_encodeKey (pre k suf : List Nat)
    (hk1 : 1 ≤ k.length) (hk2 : k.length ≤ 256) :
    decodeKey (pre ++ (((k.length - 1) :: k) ++ suf)) (pre.length : Int) =
      .ok (k, (pre.length : Int) + ((1 + k.length : Nat) : Int)) := by
  have hlen : (pre ++ (((k.length - 1) :: k) ++ suf)).length =
      pre.length + (1 + k.length) + suf.length := by
    simp
    omega
  have hhead : byteAt (pre ++ (((k.length - 1) :: k) ++ suf)) (pre.length : Int) =
      k.length - 1 := byteAt_head pre _ _
  unfold decodeKey
  rw [if_neg (by rw [hlen]; push_cast; omega)]
  simp only [hhead]
  rw [if_neg (by rw [hlen]; push_cast; omega)]
  have hsl : slice (pre ++ (((k.length - 1) :: k) ++ suf)) ((pre.length : Int) + 1)
      ((pre.length : Int) + 1 + (((k.length - 1 : Nat) : Int) + 1)) = k := by
    have hre : pre ++ (((k.length - 1) :: k) ++ suf) =
        (pre ++ [k.length - 1]) ++ (k ++ suf) := by simp
    have := slice_append (pre ++ [k.length - 1]) k suf
    rw [hre]
    rw [show (pre.length : Int) + 1 = ((pre ++ [k.length - 1]).length : Int) by simp,
      show ((pre ++ [k.length - 1]).length : Int) + (((k.length - 1 : Nat) : Int) + 1) =
        ((pre ++ [k.length - 1]).length : Int) + (k.length : Int) by push_cast; omega]
    exact this
  rw [hsl]
  congr 1
  refine Prod.ext rfl ?_
  show (pre.length : Int) + 1 + (((k.length - 1 : Nat) : Int) + 1) =
    (pre.length : Int) + ((1 + k.length : Nat) : Int)
  push_cast
  omega

theorem decodeBlob_encodeBlob (pre bs suf : List Nat) (t : Nat)
    (hB : Bytes (pre ++ (encodeBlob bs t ++ suf))) (hL : bs.length < 2 ^ 31) :
    decodeBlob (pre ++ (encodeBlob bs t ++ suf)) (pre.length : Int) =
      .ok (bs, (pre.length : Int) + ((encodeBlob bs t).length : Int)) := by
  have hbc4 : intByteCount (bs.length : Int) ≤ 4 := by
    unfold intByteCount
    split_ifs <;> omega
  have hre : encodeBlob bs t ++ suf = encodeInteger (bs.length : Int) t ++ (bs ++ suf) := by
    simp [encodeBlob]
  have hint := decodeInteger_encodeInteger pre (bs ++ suf) (bs.length : Int) t
    (by constructor <;> omega) 4 hbc4 (by omega) (by rw [← hre]; exact hB)
  unfold decodeBlob
  rw [hre, hint]
  simp only [DR.monad_bind_eq_bind, DR.bind_ok]
  rw [if_neg (by omega)]
  have hlen : (pre ++ (encodeInteger (bs.length : Int) t ++ (bs ++ suf))).length =
      pre.length + (1 + intByteCount (bs.length : Int)) + bs.length + suf.length := by
    simp [encodeInteger_length] <;> omega
  rw [if_neg (by rw [hlen]; push_cast; omega)]
  have hre2 : pre ++ (encodeInteger (bs.length : Int) t ++ (bs ++ suf)) =
      (pre ++ encodeInteger (bs.length : Int) t) ++ (bs ++ suf) := by simp
  have hsl : slice (pre ++ (encodeInteger (bs.length : Int) t ++ (bs ++ suf)))
      ((pre.length : Int) + 1 + (intByteCount (bs.length : Int) : Int))
      ((pre.length : Int) + 1 + (intByteCount (bs.length : Int) : Int) + (bs.length : Int)) = bs := by
    rw [hre2,
      show (pre.length : Int) + 1 + (intByteCount (bs.length : Int) : Int) =
        ((pre ++ encodeInteger (bs.length : Int) t).length : Int) by
          simp [encodeInteger_length]; push_cast; omega]
    exact slice_append (pre ++ encodeInteger (bs.length : Int) t) bs suf
  rw [hsl]
  congr 1
  refine Prod.ext rfl ?_
  show (pre.length : Int) + 1 + (intByteCount (bs.length : Int) : Int) + (bs.length : Int) =
    (pre.length : Int) + ((encodeBlob bs t).length : Int)
  have : (encodeBlob bs t).length = 1 + intByteCount (bs.length : Int) + bs.length := by
    simp [encodeBlob, encodeInteger_length] <;> omega
  rw [this]
  push_cast
  omega

/-- The first byte of every encoded value carries the variant tag in its
low nibble. -/
theorem encodeValue_head (v : Val) (e : List Nat) (he : encodeValue v = some e) :
    ∃ b rest, e = b :: rest ∧ b % 16 = Val.tag v := by
  cases v with
  | vnull =>
      simp only [encodeValue, encodeNull, Option.some.injEq] at he
      exact ⟨0, [], he.symm, rfl⟩
  | vbool b =>
      cases b <;> simp only [encodeValue, encodeBoolean, Option.some.injEq,
        if_true, if_false, Bool.false_eq_true] at he
      · exact ⟨1, [], he.symm, rfl⟩
      · exact ⟨17, [], he.symm, rfl⟩
  | vint i =>
      simp only [encodeValue, Option.some.injEq] at he
      subst he
      refine ⟨16 * (intByteCount i - 1) + 2 % 16,
        (List.range (intByteCount i)).map (leByte ((i % 2 ^ 64).toNat)),
        by simp [encodeInteger], by simp [Val.tag]; omega⟩
  | vblob bs =>
      simp only [encodeValue, Option.some.injEq] at he
      subst he
      refine ⟨16 * (intByteCount (bs.length : Int) - 1) + 3 % 16,
        (List.range (intByteCount (bs.length : Int))).map
          (leByte (((bs.length : Int) % 2 ^ 64).toNat)) ++ bs,
        by simp [encodeBlob, encodeInteger], by simp [Val.tag]; omega⟩
  | vstr bs =>
      simp only [encodeValue, encodeString, Option.some.injEq] at he
      subst he
      refine ⟨16 * (intByteCount (bs.length : Int) - 1) + 4 % 16,
        (List.range (intByteCount (bs.length : Int))).map
          (leByte (((bs.length : Int) % 2 ^ 64).toNat)) ++ bs,
        by simp [encodeBlob, encodeInteger], by simp [Val.tag]; omega⟩
  | varr a =>
      simp only [encodeValue] at he
      cases hp : encodeList a with
      | none => rw [hp] at he; cases he
      | some p =>
          rw [hp] at he
          simp only [Option.bind_eq_bind, Option.some_bind, Option.some.injEq] at he
          subst he
          refine ⟨16 * (intByteCount (p.length : Int) - 1) + 5 % 16,
            (List.range (intByteCount (p.length : Int))).map
              (leByte (((p.length : Int) % 2 ^ 64).toNat)) ++ p,
            by simp [encodeBlob, encodeInteger], by simp [Val.tag]; omega⟩
  | vtree t =>
      simp only [encodeValue, encodeTree] at he
      cases hp : encodeEntries (sortEntries t) with
      | none => rw [hp] at he; cases he
      | some p =>
          rw [hp] at he
          simp only [Option.bind_eq_bind, Option.some_bind, if_true, Option.some.injEq] at he
          subst he
          refine ⟨16 * (intByteCount (p.length : Int) - 1) + 6 % 16,
            (List.range (intByteCount (p.length : Int))).map
              (leByte (((p.length : Int) % 2 ^ 64).toNat)) ++ p,
            by simp [encodeBlob, encodeInteger], by simp [Val.tag]; omega⟩

/-! ## Smallness is preserved by the canonical sort -/

theorem SmallEntries_to_all : ∀ e : Entries, SmallEntries e →
    EntriesAll (fun _ v => SmallVal v) e
  | .nil, _ => trivial
  | .cons k v r, h => by
      simp only [SmallEntries] at h
      exact ⟨h.1, SmallEntries_to_all r h.2⟩

theorem SmallEntries_of_all : ∀ e : Entries, EntriesAll (fun _ v => SmallVal v) e →
    SmallEntries e
  | .nil, _ => trivial
  | .cons k v r, h => by
      simp only [SmallEntries]
      exact ⟨h.1, SmallEntries_of_all r h.2⟩

theorem SmallEntries_sortEntries (e : Entries) (h : SmallEntries e) :
    SmallEntries (sortEntries e) :=
  SmallEntries_of_all _ (EntriesAll_sortEntries _ e (SmallEntries_to_all e h))

theorem Bytes_append_elim (a b : List Nat) (h : Bytes (a ++ b)) :
    Bytes a ∧ Bytes b := by
  constructor <;> intro x hx
  · exact h x (List.mem_append.mpr (Or.inl hx))
  · exact h x (List.mem_append.mpr (Or.inr hx))

theorem encLenV_pos : ∀ v : Val, 1 ≤ encLenV v
  | .vnull => le_refl 1
  | .vbool _ => le_refl 1
  | .vint i => by simp only [encLenV]; omega
  | .vblob bs => by simp only [encLenV]; omega
  | .vstr bs => by simp only [encLenV]; omega
  | .varr a => by simp only [encLenV]; omega
  | .vtree t => by simp only [encLenV]; omega

theorem decodeType_at (blob : List Nat) (idx : Int) (h0 : 0 ≤ idx)
    (hlt : idx < (blob.length : Int)) :
    decodeType blob idx = .ok (byteAt blob idx % 16) := by
  unfold decodeType
  rw [if_neg (by omega)]

/-! ## The decoder inverts the encoder

The mutual induction at the heart of the round-trip property: decoding
at the start of an embedded encoded value (with arbitrary surrounding
bytes and sufficient fuel) returns the canonical form of that value and
stops exactly at its end; the two container loops consume an embedded
encoded pair/element sequence exactly. -/

mutual

theorem decode_encodeValue : ∀ (v : Val) (e : List Nat), ValidVal v → SmallVal v →
    encodeValue v = some e →
    ∀ (pre suf : List Nat) (fuel : Nat), Bytes (pre ++ (e ++ suf)) →
      2 * e.length ≤ fuel + 1 →
      decodeValueAt fuel (pre ++ (e ++ suf)) (pre.length : Int) (Val.tag v) =
        .ok (canonV v, (pre.length : Int) + (e.length : Int))
  | .vnull, e, hval, hsmall, he => by
      intro pre suf fuel hB hfuel
      simp only [encodeValue, Option.some.injEq] at he
      subst he
      simp only [encodeNull, List.length_cons, List.length_nil] at hfuel ⊢
      obtain ⟨f, rfl⟩ : ∃ f, fuel = f + 1 := ⟨fuel - 1, by omega⟩
      simp only [List.singleton_append, Val.tag, decodeValueAt, decodeNull,
        byteAt_head pre 0 suf]
      rw [if_neg (by simp only [List.length_append, List.length_cons]; push_cast; omega)]
      simp [canonV]
  | .vbool b, e, hval, hsmall, he => by
      intro pre suf fuel hB hfuel
      simp only [encodeValue, Option.some.injEq] at he
      subst he
      cases b <;>
        · simp only [encodeBoolean, if_true, if_false, Bool.false_eq_true,
            List.length_cons, List.length_nil] at hfuel ⊢
          obtain ⟨f, rfl⟩ : ∃ f, fuel = f + 1 := ⟨fuel - 1, by omega⟩
          simp only [List.singleton_append, Val.tag, decodeValueAt, decodeBoolean,
            byteAt_head]
          rw [if_neg (by simp only [List.length_append, List.length_cons]; push_cast; omega)]
          simp [canonV]
  | .vint i, e, hval, hsmall, he => by
      intro pre suf fuel hB hfuel
      simp only [encodeValue, Option.some.injEq] at he
      subst he
      simp only [ValidVal] at hval
      have hlen := encodeInteger_length i 0b0010
      obtain ⟨f, rfl⟩ : ∃ f, fuel = f + 1 := ⟨fuel - 1, by omega⟩
      simp only [Val.tag, decodeValueAt]
      rw [decodeInteger_encodeInteger pre suf i 0b0010 hval 8 (intByteCount_le8 i)
        (le_refl 8) hB]
      simp only [DR.monad_bind_eq_bind, DR.bind_ok, canonV]
      rw [hlen]
      congr 2
      push_cast
      omega
  | .vblob bs, e, hval, hsmall, he => by
      intro pre suf fuel hB hfuel
      simp only [encodeValue, Option.some.injEq] at he
      subst he
      simp only [SmallVal] at hsmall
      have helen : (encodeBlob bs 0b0011).length =
          1 + intByteCount (bs.length : Int) + bs.length := by
        simp [encodeBlob, encodeInteger_length] <;> omega
      obtain ⟨f, rfl⟩ : ∃ f, fuel = f + 1 := ⟨fuel - 1, by rw [helen] at hfuel; omega⟩
      simp only [Val.tag, decodeValueAt]
      rw [decodeBlob_encodeBlob pre bs suf 0b0011 hB hsmall]
      simp [canonV]
  | .vstr bs, e, hval, hsmall, he => by
      intro pre suf fuel hB hfuel
      simp only [encodeValue, encodeString, Option.some.injEq] at he
      subst he
      simp only [SmallVal] at hsmall
      have helen : (encodeBlob bs 0b0100).length =
          1 + intByteCount (bs.length : Int) + bs.length := by
        simp [encodeBlob, encodeInteger_length] <;> omega
      obtain ⟨f, rfl⟩ : ∃ f, fuel = f + 1 := ⟨fuel - 1, by rw [helen] at hfuel; omega⟩
      simp only [Val.tag, decodeValueAt, decodeString]
      rw [decodeBlob_encodeBlob pre bs suf 0b0100 hB hsmall]
      simp [canonV]
  | .varr a, e, hval, hsmall, he => by
      intro pre suf fuel hB hfuel
      simp only [encodeValue] at he
      cases hp : encodeList a with
      | none => rw [hp] at he; cases he
      | some p =>
          rw [hp] at he
          simp only [Option.bind_eq_bind, Option.some_bind, Option.some.injEq] at he
          subst he
          simp only [ValidVal] at hval
          simp only [SmallVal] at hsmall
          obtain ⟨p', hp', hplen, hpB⟩ := encodeList_props a hval
          rw [hp] at hp'
          injection hp' with hp'
          subst hp'
          have hbc : intByteCount (p.length : Int) ≤ 4 := by
            unfold intByteCount
            split_ifs <;> omega
          have hbc1 := intByteCount_pos (p.length : Int)
          have helen : (encodeBlob p 0b0101).length =
              1 + intByteCount (p.length : Int) + p.length := by
            simp [encodeBlob, encodeInteger_length] <;> omega
          obtain ⟨f, rfl⟩ : ∃ f, fuel = f + 1 := ⟨fuel - 1, by rw [helen] at hfuel; omega⟩
          obtain ⟨g, rfl⟩ : ∃ g, f = g + 1 := ⟨f - 1, by rw [helen] at hfuel; omega⟩
          simp only [Val.tag, decodeValueAt, decodeArray]
          rw [decodeBlob_encodeBlob pre p suf 0b0101 hB (by omega)]
          simp only [DR.monad_bind_eq_bind, DR.bind_ok]
          have hloop := decode_encodeList_loop a p hval hsmall.2 hp [] .nil g
            (by simpa using hpB) (by rw [helen] at hfuel; rw [hplen]; omega)
          simp only [List.nil_append, List.length_nil, Nat.cast_zero] at hloop
          rw [show (0 : Int) = ((List.nil (α := Nat)).length : Int) by simp] at hloop
          simp only [List.nil_append, List.length_nil, Nat.cast_zero] at hloop
          rw [hloop]
          simp only [ValList.append, DR.bind_ok]
          rw [if_neg (by omega)]
          simp [canonV]
  | .vtree t, e, hval, hsmall, he => by
      intro pre suf fuel hB hfuel
      simp only [encodeValue, encodeTree] at he
      cases hp : encodeEntries (sortEntries t) with
      | none => rw [hp] at he; cases he
      | some p =>
          rw [hp] at he
          simp only [Option.bind_eq_bind, Option.some_bind, if_true, Option.some.injEq] at he
          subst he
          simp only [ValidVal] at hval
          simp only [SmallVal] at hsmall
          obtain ⟨p', hp', hplen, hpB⟩ := encodeEntries_props (sortEntries t)
            (EntriesAll_sortEntries validPair t (ValidEntries_all t hval))
          rw [hp] at hp'
          injection hp' with hp'
          subst hp'
          rw [encLenE_sortEntries] at hplen
          have hbc : intByteCount (p.length : Int) ≤ 4 := by
            unfold intByteCount
            split_ifs <;> omega
          have hbc1 := intByteCount_pos (p.length : Int)
          have helen : (encodeBlob p 0b0110).length =
              1 + intByteCount (p.length : Int) + p.length := by
            simp [encodeBlob, encodeInteger_length] <;> omega
          obtain ⟨f, rfl⟩ : ∃ f, fuel = f + 1 := ⟨fuel - 1, by rw [helen] at hfuel; omega⟩
          obtain ⟨g, rfl⟩ : ∃ g, f = g + 1 := ⟨f - 1, by rw [helen] at hfuel; omega⟩
          simp only [Val.tag, decodeValueAt, decodeTree, if_true]
          have hre : encodeBlob p 0b0110 ++ suf =
              encodeInteger (p.length : Int) 0b0110 ++ (p ++ suf) := by
            simp [encodeBlob]
          rw [hre]
          rw [decodeInteger_encodeInteger pre (p ++ suf) (p.length : Int) 0b0110
            (by constructor <;> omega) 4 hbc (by omega)
            (by rw [← hre]; exact hB)]
          simp only [DR.monad_bind_eq_bind, DR.bind_ok]
          have hloop := decode_encodeEntries_loop (sortEntries t) p
            (EntriesAll_sortEntries validPair t (ValidEntries_all t hval))
            (SmallEntries_sortEntries t hsmall.2) hp
            (pre ++ encodeInteger (p.length : Int) 0b0110) suf [] .nil g
            (by rw [hre] at hB
                rw [← List.append_assoc] at hB
                exact hB)
            (EChain_sortEntries t hval)
            (by rw [helen] at hfuel; omega)
          have hpreq : ((pre ++ encodeInteger (p.length : Int) 0b0110).length : Int) =
              (pre.length : Int) + 1 + (intByteCount (p.length : Int) : Int) := by
            simp [encodeInteger_length]
            push_cast
            omega
          rw [hpreq] at hloop
          rw [List.append_assoc] at hloop
          rw [hloop]
          simp only [Entries.append, DR.bind_ok]
          rw [if_neg (by
            simp only [List.length_append, List.length_cons, encodeInteger_length]
            push_cast
            omega)]
          refine congrArg DR.ok (Prod.ext ?_ ?_)
          · simp [canonV]
          · show (pre.length : Int) + 1 + (intByteCount (p.length : Int) : Int) +
                (p.length : Int) =
              (pre.length : Int) + ((encodeBlob p 0b0110).length : Int)
            rw [helen]
            push_cast
            omega
termination_by v => (sizeOf v, 0)
decreasing_by
  · exact Prod.Lex.left _ _ (by simp_arith)
  · exact Prod.Lex.left _ _ (by simp_arith [sizeOf_sortEntries])

theorem decode_encodeList_loop : ∀ (a : ValList) (p : List Nat), ValidList a →
    SmallList a → encodeList a = some p →
    ∀ (pre : List Nat) (acc : ValList) (fuel : Nat), Bytes (pre ++ p) →
      2 * p.length ≤ fuel →
      decodeArrayLoop fuel (pre ++ p) (pre.length : Int) acc =
        .ok (acc.append (canonL a), (pre.length : Int) + (p.length : Int))
  | .nil, p, hval, hsmall, he => by
      intro pre acc fuel hB hfuel
      simp only [encodeList, Option.some.injEq] at he
      subst he
      unfold decodeArrayLoop
      simp only [List.append_nil, List.length_nil, Nat.cast_zero, add_zero]
      rw [if_neg (by omega)]
      simp [canonL, ValList.appendNilVL]
  | .cons v r, p, hval, hsmall, he => by
      intro pre acc fuel hB hfuel
      simp only [encodeList] at he
      cases hv : encodeValue v with
      | none => rw [hv] at he; cases he
      | some vb =>
          cases hr : encodeList r with
          | none => rw [hv, hr] at he; cases he
          | some rb =>
              rw [hv, hr] at he
              simp only [Option.bind_eq_bind, Option.some_bind, Option.some.injEq] at he
              subst he
              simp only [ValidList] at hval
              simp only [SmallList] at hsmall
              obtain ⟨vb', hvb', hvblen, hvbB⟩ := encodeValue_props v hval.1
              rw [hv] at hvb'
              injection hvb' with hvb'
              subst hvb'
              have hvb1 : 1 ≤ vb.length := by rw [hvblen]; exact encLenV_pos v
              obtain ⟨b, brest, hbrest, hbtag⟩ := encodeValue_head v vb hv
              obtain ⟨f, rfl⟩ : ∃ f, fuel = f + 1 :=
                ⟨fuel - 1, by simp only [List.length_append] at hfuel ⊢; omega⟩
              unfold decodeArrayLoop
              rw [if_pos (by simp only [List.length_append]; push_cast; omega)]
              rw [decodeType_at _ _ (by omega)
                (by simp only [List.length_append]; push_cast; omega)]
              rw [show byteAt (pre ++ (vb ++ rb)) (pre.length : Int) = b from by
                rw [hbrest, List.cons_append]
                exact byteAt_head pre b _]
              rw [hbtag]
              simp only [DR.monad_bind_eq_bind, DR.bind_ok]
              rw [decode_encodeValue v vb hval.1 hsmall.1 hv pre rb f hB
                (by simp only [List.length_append] at hfuel; omega)]
              simp only [DR.bind_ok]
              have hIH := decode_encodeList_loop r rb hval.2 hsmall.2 hr (pre ++ vb)
                (acc.push (canonV v)) f
                (by rw [List.append_assoc]; exact hB)
                (by simp only [List.length_append] at hfuel; omega)
              rw [List.append_assoc] at hIH
              rw [show ((pre ++ vb).length : Int) = (pre.length : Int) + (vb.length : Int)
                from by simp] at hIH
              rw [hIH]
              rw [ValList.pushAppendVL, ValList.appendAssocVL]
              simp only [ValList.append, canonL]
              congr 2
              simp only [List.length_append]
              push_cast
              omega
termination_by a => (sizeOf a, 0)
decreasing_by
  · exact Prod.Lex.left _ _ (by simp_arith)
  · exact Prod.Lex.left _ _ (by simp_arith)

theorem decode_encodeEntries_loop : ∀ (t : Entries) (p : List Nat),
    EntriesAll validPair t → SmallEntries t → encodeEntries t = some p →
    ∀ (pre suf : List Nat) (lastKey : List Nat) (acc : Entries) (fuel : Nat),
      Bytes (pre ++ (p ++ suf)) → EChain lastKey t → 2 * p.length ≤ fuel →
      decodeTreeLoop fuel (pre ++ (p ++ suf)) (pre.length : Int)
          ((pre.length : Int) + (p.length : Int)) lastKey acc =
        .ok (acc.append (canonE t), (pre.length : Int) + (p.length : Int))
  | .nil, p, hall, hsmall, he => by
      intro pre suf lastKey acc fuel hB hchain hfuel
      simp only [encodeEntries, Option.some.injEq] at he
      subst he
      unfold decodeTreeLoop
      simp only [List.length_nil, Nat.cast_zero, add_zero, List.nil_append]
      rw [if_neg (by omega)]
      simp [canonE, Entries.appendNilEn]
  | .cons k v r, p, hall, hsmall, he => by
      intro pre suf lastKey acc fuel hB hchain hfuel
      simp only [encodeEntries] at he
      simp only [EntriesAll] at hall
      obtain ⟨⟨hk, hkB, hkv⟩, hrall⟩ := hall
      simp only [SmallEntries] at hsmall
      simp only [EChain] at hchain
      have hkey : encodeKey k = some ((k.length - 1) :: k) := by
        simp only [encodeKey, if_neg (by omega : ¬ 256 < k.length),
          if_neg (by omega : ¬ k.length < 1)]
      rw [hkey] at he
      cases hv : encodeValue v with
      | none => rw [hv] at he; cases he
      | some vb =>
          cases hr : encodeEntries r with
          | none => rw [hv, hr] at he; cases he
          | some rb =>
              rw [hv, hr] at he
              simp only [Option.bind_eq_bind, Option.some_bind, Option.some.injEq] at he
              subst he
              obtain ⟨vb', hvb', hvblen, hvbB⟩ := encodeValue_props v hkv
              rw [hv] at hvb'
              injection hvb' with hvb'
              subst hvb'
              have hvb1 : 1 ≤ vb.length := by rw [hvblen]; exact encLenV_pos v
              obtain ⟨b, brest, hbrest, hbtag⟩ := encodeValue_head v vb hv
              have hplen : ((k.length - 1) :: k ++ vb ++ rb).length =
                  1 + k.length + vb.length + rb.length := by
                simp
                omega
              obtain ⟨f, rfl⟩ : ∃ f, fuel = f + 1 :=
                ⟨fuel - 1, by rw [hplen] at hfuel; omega⟩
              unfold decodeTreeLoop
              rw [if_pos (by rw [hplen]; push_cast; omega)]
              have hre1 : ((k.length - 1) :: k ++ vb ++ rb) ++ suf =
                  ((k.length - 1) :: k) ++ (vb ++ (rb ++ suf)) := by
                simp
              rw [hre1]
              rw [decodeKey_encodeKey pre k (vb ++ (rb ++ suf)) (by omega) (by omega)]
              simp only [DR.monad_bind_eq_bind, DR.bind_ok]
              rw [if_neg (by rw [hchain.1]; simp)]
              have hpre2 : (pre.length : Int) + ((1 + k.length : Nat) : Int) =
                  ((pre ++ ((k.length - 1) :: k)).length : Int) := by
                simp
                push_cast
                omega
              rw [hpre2]
              have hre2 : pre ++ (((k.length - 1) :: k) ++ (vb ++ (rb ++ suf))) =
                  (pre ++ ((k.length - 1) :: k)) ++ (vb ++ (rb ++ suf)) := by
                simp
              rw [hre2]
              rw [decodeType_at _ _ (by omega)
                (by simp only [List.length_append, List.length_cons]; push_cast; omega)]
              rw [show byteAt ((pre ++ ((k.length - 1) :: k)) ++ (vb ++ (rb ++ suf)))
                  (((pre ++ ((k.length - 1) :: k)).length : Int)) = b from by
                rw [hbrest, List.cons_append]
                exact byteAt_head _ b _]
              rw [hbtag]
              simp only [DR.monad_bind_eq_bind, DR.bind_ok]
              rw [decode_encodeValue v vb hkv hsmall.1 hv (pre ++ ((k.length - 1) :: k))
                (rb ++ suf) f (by rw [← hre2, ← hre1]; exact hB)
                (by rw [hplen] at hfuel; omega)]
              simp only [DR.bind_ok]
              have hIH := decode_encodeEntries_loop r rb hrall hsmall.2 hr
                ((pre ++ ((k.length - 1) :: k)) ++ vb) suf k
                (acc.push k (canonV v)) f
                (by rw [List.append_assoc, ← hre2, ← hre1]; exact hB)
                hchain.2
                (by rw [hplen] at hfuel; omega)
              rw [List.append_assoc] at hIH
              rw [show (((pre ++ ((k.length - 1) :: k)) ++ vb).length : Int) =
                  ((pre ++ ((k.length - 1) :: k)).length : Int) + (vb.length : Int)
                from by simp only [List.length_append, List.length_cons]
                        push_cast
                        omega] at hIH
              have hend : ((pre ++ ((k.length - 1) :: k)).length : Int) +
                  (vb.length : Int) + (rb.length : Int) =
                  (pre.length : Int) + ((((k.length - 1) :: k ++ vb ++ rb)).length : Int) := by
                simp only [List.length_append, List.length_cons]
                push_cast
                omega
              rw [hend] at hIH
              rw [hIH]
              rw [Entries.pushAppendEn, Entries.appendAssocEn]
              simp only [Entries.append, canonE]
termination_by t => (sizeOf t, 0)
decreasing_by
  · exact Prod.Lex.left _ _ (by simp_arith)
  · exact Prod.Lex.left _ _ (by simp_arith)

end

/-- Decoding a serialized valid (and payload-small) document succeeds
and returns the canonically sorted form of the document. -/
theorem NewABITObject_ToByteArray (t : Entries) (hval : ValidEntries t)
    (hsmall : SmallEntries t) :
    ∃ e, ToByteArray (.vtree t) = some e ∧
      NewABITObject e = .ok (.vtree (canonE (sortEntries t))) := by
  obtain ⟨e, he, helen, heB⟩ := ToByteArray_ok t hval
  refine ⟨e, he, ?_⟩
  have hp : encodeEntries (sortEntries t) = some e := by
    simp only [ToByteArray, encodeTree, Option.bind_eq_bind] at he
    cases hp : encodeEntries (sortEntries t) with
    | none => rw [hp] at he; cases he
    | some p =>
        rw [hp] at he
        simp only [Option.some_bind, if_false, Option.some.injEq, Bool.false_eq_true] at he
        rw [he]
  by_cases hlen0 : e.length = 0
  · have ht : t = .nil := by
      cases t with
      | nil => rfl
      | cons k v r =>
          rw [helen] at hlen0
          simp only [encLenE] at hlen0
          omega
    subst ht
    have he0 : e = [] := List.length_eq_zero.mp hlen0
    subst he0
    simp [NewABITObject, sortEntries, canonE]
  · unfold NewABITObject
    rw [if_pos (by omega)]
    have hfuel : ∃ F, newFuel e = F + 1 := ⟨newFuel e - 1, by unfold newFuel; omega⟩
    obtain ⟨F, hF⟩ := hfuel
    rw [hF]
    unfold decodeTree
    rw [if_neg (by simp)]
    have hloop := decode_encodeEntries_loop (sortEntries t) e
      (EntriesAll_sortEntries validPair t (ValidEntries_all t hval))
      (SmallEntries_sortEntries t hsmall) hp [] [] [] .nil F
      (by simpa using heB) (EChain_sortEntries t hval)
      (by unfold newFuel at hF; omega)
    simp only [List.nil_append, List.append_nil, List.length_nil, Nat.cast_zero,
      zero_add] at hloop
    rw [show (0 : Int) = ((List.nil (α := Nat)).length : Int) by simp] at hloop
    simp only [List.length_nil, Nat.cast_zero] at hloop
    rw [hloop]
    simp only [Entries.append, DR.monad_bind_eq_bind, DR.bind_ok]
    rw [if_neg (by omega)]

theorem lookup_entriesInsert_none (k : List Nat) (v : Val) (k' : List Nat)
    (hne : k ≠ k') :
    ∀ e : Entries, e.lookup k' = none → (entriesInsert e k v).lookup k' = none
  | .nil, _ => by
      simp only [entriesInsert, Entries.lookup]
      rw [if_neg hne]
  | .cons k'' v'' r, hnone => by
      simp only [Entries.lookup] at hnone
      by_cases h2 : k'' = k'
      · rw [if_pos h2] at hnone
        cases hnone
      · rw [if_neg h2] at hnone
        simp only [entriesInsert]
        by_cases h3 : k'' = k
        · rw [if_pos h3]
          simp only [Entries.lookup]
          rw [if_neg h2]
          exact hnone
        · rw [if_neg h3]
          simp only [Entries.lookup]
          rw [if_neg h2]
          exact lookup_entriesInsert_none k v k' hne r hnone

theorem ValidEntries_insert (k : List Nat) (v : Val) (hk1 : 1 ≤ k.length)
    (hk2 : k.length ≤ 256) (hkB : Bytes k) (hv : ValidVal v) :
    ∀ e : Entries, ValidEntries e → ValidEntries (entriesInsert e k v)
  | .nil, _ => by
      simp only [entriesInsert, ValidEntries]
      exact ⟨⟨hk1, hk2⟩, hkB, rfl, hv, trivial⟩
  | .cons k' v' r, he => by
      simp only [ValidEntries] at he
      simp only [entriesInsert]
      by_cases hkk : k' = k
      · rw [if_pos hkk]
        simp only [ValidEntries]
        exact ⟨he.1, he.2.1, he.2.2.1, hv, he.2.2.2.2⟩
      · rw [if_neg hkk]
        simp only [ValidEntries]
        exact ⟨he.1, he.2.1,
          lookup_entriesInsert_none k v k' (fun hc => hkk hc.symm) r he.2.2.1,
          he.2.2.2.1, ValidEntries_insert k v hk1 hk2 hkB hv r he.2.2.2.2⟩

theorem lookup_entriesRemove_none (k k' : List Nat) :
    ∀ e : Entries, e.lookup k' = none → (entriesRemove e k).lookup k' = none
  | .nil, _ => rfl
  | .cons k'' v'' r, hnone => by
      simp only [Entries.lookup] at hnone
      by_cases h2 : k'' = k'
      · rw [if_pos h2] at hnone
        cases hnone
      · rw [if_neg h2] at hnone
        simp only [entriesRemove]
        by_cases h3 : k'' = k
        · rw [if_pos h3]
          exact hnone
        · rw [if_neg h3]
          simp only [Entries.lookup]
          rw [if_neg h2]
          exact lookup_entriesRemove_none k k' r hnone

theorem ValidEntries_remove (k : List Nat) :
    ∀ e : Entries, ValidEntries e → ValidEntries (entriesRemove e k)
  | .nil, _ => trivial
  | .cons k' v' r, he => by
      simp only [ValidEntries] at he
      simp only [entriesRemove]
      by_cases hkk : k' = k
      · rw [if_pos hkk]
        exact he.2.2.2.2
      · rw [if_neg hkk]
        simp only [ValidEntries]
        exact ⟨he.1, he.2.1, lookup_entriesRemove_none k k' r he.2.2.1,
          he.2.2.2.1, ValidEntries_remove k r he.2.2.2.2⟩

theorem ValidList_push (v : Val) (hv : ValidVal v) :
    ∀ a : ValList, ValidList a → ValidList (a.push v)
  | .nil, _ => ⟨hv, trivial⟩
  | .cons w r, hl => ⟨hl.1, ValidList_push v hv r hl.2⟩

theorem ValidList_mem : ∀ a : ValList, ValidList a → ∀ y ∈ a.toList, ValidVal y
  | .cons w r, hl, y, hy => by
      rcases List.mem_cons.mp hy with h | h
      · rw [h]; exact hl.1
      · exact ValidList_mem r hl.2 y h

theorem ValidList_ofList : ∀ l : List Val, (∀ v ∈ l, ValidVal v) →
    ValidList (ValList.ofList l)
  | [], _ => trivial
  | w :: r, hl =>
      ⟨hl w (by simp), ValidList_ofList r (fun x hx => hl x (by simp [hx]))⟩

/-- Values reachable through the public mutation API satisfy the data
invariants. -/
theorem Built_valid {v : Val} (h : Built v) : ValidVal v := by
  induction h with
  | null => trivial
  | bool b => trivial
  | int i hr => exact hr
  | blob bs hb => exact hb
  | str bs hb => exact hb
  | emptyTree => trivial
  | emptyArr => trivial
  | put t k v t' ht hk hv hput iht ihv =>
      simp only [Put] at hput
      by_cases hcond : 256 < k.length ∨ k.length < 1
      · rw [if_pos hcond] at hput
        cases hput
      · rw [if_neg hcond] at hput
        obtain rfl : Val.vtree (entriesInsert t k v) = t' := Option.some.inj hput
        push_neg at hcond
        simp only [ValidVal] at iht ⊢
        exact ValidEntries_insert k v (by omega) (by omega) hk ihv t iht
  | add a v ha hv iha ihv =>
      simp only [ValidVal] at iha ⊢
      exact ValidList_push v ihv a iha
  | removeKey t k ht iht =>
      simp only [TreeRemove, ValidVal] at iht ⊢
      exact ValidEntries_remove k t iht
  | removeIdx a a' index ha hrem iha =>
      simp only [ArrayRemove] at hrem
      by_cases hcond : index < 0 ∨ (a.toList.length : Int) ≤ index
      · rw [if_pos hcond] at hrem
        cases hrem
      · rw [if_neg hcond] at hrem
        obtain rfl : ValList.ofList
            (a.toList.take index.toNat ++ a.toList.drop (index.toNat + 1)) = a' :=
          Option.some.inj hrem
        simp only [ValidVal] at iha ⊢
        apply ValidList_ofList
        intro x hx
        have hmem : x ∈ a.toList := by
          rcases List.mem_append.mp hx with h | h
          · exact List.mem_of_mem_take h
          · exact List.mem_of_mem_drop h
        exact ValidList_mem a iha x hmem

/-! ## Canonicalization is structural equality -/

theorem lookup_canonE : ∀ (e : Entries) (k : List Nat),
    (canonE e).lookup k = (e.lookup k).map canonV
  | .nil, k => by simp [canonE, Entries.lookup]
  | .cons k' v r, k => by
      simp only [canonE, Entries.lookup]
      by_cases h : k' = k
      · rw [if_pos h, if_pos h]
        rfl
      · rw [if_neg h, if_neg h]
        exact lookup_canonE r k

theorem lookup_insertEntry (k : List Nat) (v : Val) :
    ∀ (e : Entries) (key : List Nat), k ∉ e.keys →
      (insertEntry k v e).lookup key = if k = key then some v else e.lookup key
  | .nil, key, _ => by simp [insertEntry, Entries.lookup]
  | .cons k' v' r, key, hmem => by
      have hne : k ≠ k' := fun hc => hmem (by simp [Entries.keys, hc])
      have hmem' : k ∉ r.keys := fun hc => hmem (by simp [Entries.keys, hc])
      by_cases h : keyCompare k k' = true
      · simp only [insertEntry, h, if_true, Entries.lookup]
      · simp only [insertEntry, h, if_false, Bool.false_eq_true, Entries.lookup,
          lookup_insertEntry k v r key hmem']
        by_cases h2 : k' = key
        · rw [if_pos h2, if_neg (by rw [← h2]; exact hne), if_pos h2]
        · rw [if_neg h2]
          by_cases h3 : k = key
          · rw [if_pos h3, if_pos h3]
          · rw [if_neg h3, if_neg h3, if_neg h2]

theorem lookup_sortEntries : ∀ e : Entries, e.keys.Nodup →
    ∀ key : List Nat, (sortEntries e).lookup key = e.lookup key
  | .nil, _, key => rfl
  | .cons k v r, hnd, key => by
      simp only [Entries.keys, List.nodup_cons] at hnd
      have hmem : k ∉ (sortEntries r).keys := fun hc =>
        hnd.1 ((keys_sortEntries_perm r).mem_iff.mp hc)
      simp only [sortEntries, Entries.lookup]
      rw [lookup_insertEntry k v (sortEntries r) key hmem]
      by_cases h : k = key
      · rw [if_pos h, if_pos h]
      · rw [if_neg h, if_neg h, lookup_sortEntries r hnd.2 key]

theorem toList_canonL : ∀ a : ValList, (canonL a).toList = a.toList.map canonV
  | .nil => by simp [canonL, ValList.toList]
  | .cons v r => by simp [canonL, ValList.toList, toList_canonL r]

theorem lookup_valid : ∀ (e : Entries), ValidEntries e →
    ∀ k v, e.lookup k = some v → ValidVal v
  | .cons k' v' r, he, k, v, hl => by
      simp only [ValidEntries] at he
      simp only [Entries.lookup] at hl
      by_cases h : k' = k
      · rw [if_pos h] at hl
        injection hl with hl
        rw [← hl]
        exact he.2.2.2.1
      · rw [if_neg h] at hl
        exact lookup_valid r he.2.2.2.2 k v hl

mutual

theorem equiv_canonV : ∀ v : Val, ValidVal v → EquivVal (canonV v) v
  | .vnull, _ => by rw [show canonV .vnull = .vnull from by simp [canonV]]; exact .null
  | .vbool b, _ => by
      rw [show canonV (.vbool b) = .vbool b from by simp [canonV]]
      exact .bool b
  | .vint i, _ => by
      rw [show canonV (.vint i) = .vint i from by simp [canonV]]
      exact .int i
  | .vblob bs, _ => by
      rw [show canonV (.vblob bs) = .vblob bs from by simp [canonV]]
      exact .blob bs
  | .vstr bs, _ => by
      rw [show canonV (.vstr bs) = .vstr bs from by simp [canonV]]
      exact .str bs
  | .varr a, hval => by
      simp only [ValidVal] at hval
      simp only [canonV]
      refine EquivVal.arr (canonL a) a (by simp [toList_canonL]) ?_
      intro i v1 v2 h1 h2
      rw [toList_canonL, List.getElem?_map, h2] at h1
      simp only [Option.map_some'] at h1
      injection h1 with h1
      rw [← h1]
      exact equiv_canon_mem a hval v2 (by
        obtain ⟨hlt, hv⟩ := List.getElem?_eq_some.mp h2
        rw [← hv]
        exact List.getElem_mem hlt)
  | .vtree t, hval => by
      simp only [ValidVal] at hval
      simp only [canonV]
      have hnd := ValidEntries_nodup t hval
      refine EquivVal.tree (canonE (sortEntries t)) t ?_ ?_
      · intro k
        rw [lookup_canonE, lookup_sortEntries t hnd k]
        cases t.lookup k <;> simp
      · intro k v1 v2 h1 h2
        rw [lookup_canonE, lookup_sortEntries t hnd k, h2] at h1
        simp only [Option.map_some'] at h1
        injection h1 with h1
        rw [← h1]
        exact equiv_canon_lookup t hval k v2 h2
termination_by v => (sizeOf v, 1)
decreasing_by
  · exact Prod.Lex.left _ _ (by simp_arith)
  · exact Prod.Lex.left _ _ (by simp_arith)

theorem equiv_canon_mem : ∀ (a : ValList), ValidList a →
    ∀ v, v ∈ a.toList → EquivVal (canonV v) v
  | .cons w r, hval, v, hmem => by
      rcases List.mem_cons.mp hmem with h | h
      · rw [h]
        exact equiv_canonV w hval.1
      · exact equiv_canon_mem r hval.2 v h
termination_by a => (sizeOf a, 0)
decreasing_by
  · exact Prod.Lex.left _ _ (by simp_arith)
  · exact Prod.Lex.left _ _ (by simp_arith)

theorem equiv_canon_lookup : ∀ (t : Entries), ValidEntries t →
    ∀ k v, t.lookup k = some v → EquivVal (canonV v) v
  | .cons k' v' r, hval, k, v, hl => by
      simp only [ValidEntries] at hval
      simp only [Entries.lookup] at hl
      by_cases h : k' = k
      · rw [if_pos h] at hl
        injection hl with hl
        rw [← hl]
        exact equiv_canonV v' hval.2.2.2.1
      · rw [if_neg h] at hl
        exact equiv_canon_lookup r hval.2.2.2.2 k v hl
termination_by t => (sizeOf t, 0)
decreasing_by
  · exact Prod.Lex.left _ _ (by simp_arith)
  · exact Prod.Lex.left _ _ (by simp_arith)

end

/-! ## Claim C1 -/

/-- C1, amended: for every document built through valid mutations in
which every length-prefixed payload (blob, string, array payload,
nested-tree payload) is smaller than `2^31` bytes, `ToByteArray`
succeeds, `NewABITObject` on the result succeeds, and the decoded
document is structurally equal to the original (same variant tag at
every node, same tree key sets, same array order, same payloads). -/
theorem C1_roundtrip_amended (t : Entries) (hb : Built (.vtree t))
    (hsmall : SmallEntries t) :
    ∃ e w, ToByteArray (.vtree t) = some e ∧ NewABITObject e = .ok w ∧
      EquivVal w (.vtree t) := by
  have hval : ValidEntries t := by
    have := Built_valid hb
    simpa [ValidVal] using this
  obtain ⟨e, he, hdec⟩ := NewABITObject_ToByteArray t hval hsmall
  refine ⟨e, .vtree (canonE (sortEntries t)), he, hdec, ?_⟩
  have := equiv_canonV (.vtree t) (by simpa [ValidVal] using hval)
  rwa [show canonV (.vtree t) = .vtree (canonE (sortEntries t)) from by
    simp [canonV]] at this

/-- Witness: the round-trip theorem applied to the concrete document
`{ "a" : 5 }`. -/
theorem C1_roundtrip_amended_witness :
    ∃ e w,
      ToByteArray (.vtree (.cons [97] (.vint 5) .nil)) = some e ∧
      NewABITObject e = .ok w ∧
      EquivVal w (.vtree (.cons [97] (.vint 5) .nil)) :=
  C1_roundtrip_amended (.cons [97] (.vint 5) .nil)
    (Built.put .nil [97] (.vint 5) (.vtree (.cons [97] (.vint 5) .nil))
      Built.emptyTree (Bytes_cons 97 [] (by omega) Bytes_nil)
      (Built.int 5 (by constructor <;> decide)) rfl)
    ⟨trivial, trivial⟩

/-- The document `{ "a" : blob of 2^31 zero bytes }`, constructible
through valid mutations but whose blob does not fit the decoder's 4-byte
signed length field. -/
def bigDoc : Val := .vtree (.cons [97] (.vblob (List.replicate (2 ^ 31) 0)) .nil)

/-- A single-pair tree whose blob payload has exactly `2^31` bytes
serializes fine, but its encoding decodes to the size-nibble error: the
blob's length field needs 5 bytes and decode length fields are capped at
4.  Stated over an abstract payload of that length. -/
theorem bigTree_encode_decode (p : List Nat) (hlen : p.length = 2 ^ 31) :
    ToByteArray (.vtree (.cons [97] (.vblob p) .nil)) =
      some (0 :: 97 :: 67 :: 0 :: 0 :: 0 :: 128 :: 0 :: p) ∧
    NewABITObject (0 :: 97 :: 67 :: 0 :: 0 :: 0 :: 128 :: 0 :: p) = .err .intTooBig := by
  have henc : encodeInteger ((p.length : Nat) : Int) 0b0011 = [67, 0, 0, 0, 128, 0] := by
    rw [hlen]
    decide
  constructor
  · simp only [ToByteArray, encodeTree, sortEntries, insertEntry,
      encodeEntries, encodeValue, encodeKey, encodeBlob, henc]
    simp
  · set e : List Nat := 0 :: 97 :: 67 :: 0 :: 0 :: 0 :: 128 :: 0 :: p with hedef
    have hel : e.length = 2 ^ 31 + 8 := by
      simp [hedef, hlen]
    unfold NewABITObject
    rw [if_pos (by omega)]
    obtain ⟨F, hF⟩ : ∃ F, newFuel e = F + 1 := ⟨newFuel e - 1, by unfold newFuel; omega⟩
    rw [hF]
    unfold decodeTree
    rw [if_neg (by simp)]
    obtain ⟨G, hG⟩ : ∃ G, F = G + 1 := ⟨F - 1, by unfold newFuel at hF; omega⟩
    unfold decodeTreeLoop
    rw [if_pos (by rw [hel]; push_cast <;> omega), hG]
    have hkey : decodeKey e 0 = .ok ([97], 2) := by
      unfold decodeKey
      rw [if_neg (by rw [hel]; omega)]
      rw [show byteAt e 0 = 0 from rfl]
      rw [if_neg (by rw [hel]; decide)]
      rfl
    rw [hkey]
    simp only [DR.monad_bind_eq_bind, DR.bind_ok]
    rw [if_neg (by decide)]
    rw [decodeType_at e 2 (by omega) (by rw [hel]; push_cast <;> omega)]
    rw [show byteAt e 2 = 67 from rfl]
    simp only [DR.bind_ok]
    norm_num
    obtain ⟨H, hH⟩ : ∃ H, G = H + 1 :=
      ⟨G - 1, by unfold newFuel at hF; rw [hel] at hF; omega⟩
    rw [hH]
    unfold decodeValueAt
    have hint : decodeInteger e 2 4 = .err .intTooBig := by
      unfold decodeInteger
      rw [if_neg (by rw [hel]; decide)]
      rw [show byteAt e 2 = 67 from rfl]
      rw [if_pos (by omega)]
    unfold decodeBlob
    rw [hint]
    rfl

/-- C1, counterexample: the claim fails as stated.  `bigDoc` is built
through valid mutations and serializes fine, but decoding its encoding
fails with the size-nibble error (its blob length field needs 5 bytes,
and length fields are capped at 4), so `decode(encode(v))` does not
succeed. -/
theorem C1_counterexample :
    Built bigDoc ∧
    ∃ e, ToByteArray bigDoc = some e ∧ NewABITObject e = .err .intTooBig := by
  have h := bigTree_encode_decode (List.replicate (2 ^ 31) 0)
    (List.length_replicate _ _)
  constructor
  · exact Built.put .nil [97] (.vblob (List.replicate (2 ^ 31) 0)) bigDoc
      Built.emptyTree (Bytes_cons 97 [] (by omega) Bytes_nil)
      (Built.blob _ (fun b hb => by
        rw [List.eq_of_mem_replicate hb]
        omega))
      rfl
  · exact ⟨_, h.1, h.2⟩

/-! ## Claim C5 -/

theorem leByte_mod_eq (v : Int) (n j : Nat) (h1 : 1 ≤ n) (hn : n ≤ 8) (hj : j < n) :
    leByte ((v % (2 ^ 64 : Int)).toNat) j =
      ((v % (2 ^ (8 * n) : Int)).toNat) / 2 ^ (8 * j) % 256 := by
  unfold leByte
  interval_cases n <;> interval_cases j <;> omega

/-- C5: `encodeInteger(v, t)` emits exactly `1 + n` bytes where `n` is
the smallest byte count in 1..8 whose signed two's-complement range
contains `v`; the tag byte's high nibble is `n - 1`, its low nibble is
`t`, and the `n` value bytes hold `v` in little-endian two's-complement
form. -/
theorem C5_encodeInteger_minimal (v : Int) (t : Nat)
    (hv : -(2 ^ 63) ≤ v ∧ v < 2 ^ 63) (ht : t < 16) :
    (encodeInteger v t).length = 1 + intByteCount v ∧
    (1 ≤ intByteCount v ∧ intByteCount v ≤ 8) ∧
    (-(2 ^ (8 * intByteCount v - 1) : Int) ≤ v ∧ v < 2 ^ (8 * intByteCount v - 1)) ∧
    (∀ m, 1 ≤ m → m < intByteCount v →
      ¬ (-(2 ^ (8 * m - 1) : Int) ≤ v ∧ v < 2 ^ (8 * m - 1))) ∧
    (encodeInteger v t).head? = some (16 * (intByteCount v - 1) + t) ∧
    (16 * (intByteCount v - 1) + t) / 16 = intByteCount v - 1 ∧
    (16 * (intByteCount v - 1) + t) % 16 = t ∧
    (∀ j, j < intByteCount v → (encodeInteger v t)[1 + j]? =
      some (((v % (2 ^ (8 * intByteCount v) : Int)).toNat) / 2 ^ (8 * j) % 256)) := by
  have hpos := intByteCount_pos v
  have hle8 := intByteCount_le8 v
  refine ⟨encodeInteger_length v t, ⟨hpos, hle8⟩, intByteCount_contains v hv,
    intByteCount_min v, ?_, by omega, by omega, ?_⟩
  · rw [encodeInteger_head]
    congr 2
    omega
  · intro j hj
    simp only [encodeInteger]
    rw [show (1 + j : Nat) = j + 1 from by omega, List.getElem?_cons_succ,
      List.getElem?_map, List.getElem?_range hj]
    simp only [Option.map_some']
    rw [leByte_mod_eq v (intByteCount v) j hpos hle8 hj]

/-- Witness for C5 at `v = 32768`, `t = 2` (a three-byte integer). -/
theorem C5_encodeInteger_minimal_witness :
    (-(2 ^ 63) ≤ (32768 : Int) ∧ (32768 : Int) < 2 ^ 63) ∧ (2 : Nat) < 16 ∧
    ((encodeInteger 32768 2).length = 1 + intByteCount 32768 ∧
    (1 ≤ intByteCount 32768 ∧ intByteCount 32768 ≤ 8) ∧
    (-(2 ^ (8 * intByteCount 32768 - 1) : Int) ≤ 32768 ∧
      (32768 : Int) < 2 ^ (8 * intByteCount 32768 - 1)) ∧
    (∀ m, 1 ≤ m → m < intByteCount 32768 →
      ¬ (-(2 ^ (8 * m - 1) : Int) ≤ 32768 ∧ (32768 : Int) < 2 ^ (8 * m - 1))) ∧
    (encodeInteger 32768 2).head? = some (16 * (intByteCount 32768 - 1) + 2) ∧
    (16 * (intByteCount 32768 - 1) + 2) / 16 = intByteCount 32768 - 1 ∧
    (16 * (intByteCount 32768 - 1) + 2) % 16 = 2 ∧
    (∀ j, j < intByteCount 32768 → (encodeInteger 32768 2)[1 + j]? =
      some ((((32768 : Int) % (2 ^ (8 * intByteCount 32768) : Int)).toNat) /
        2 ^ (8 * j) % 256))) :=
  ⟨⟨by decide, by decide⟩, by decide,
    C5_encodeInteger_minimal 32768 2 ⟨by decide, by decide⟩ (by decide)⟩

/-! ## Claim C6 -/

/-- C6: `decodeInteger` fails with the too-big error when the size
nibble indicates more than `max_size` bytes, fails with the bounds error
when the indicated bytes are not fully present, and otherwise — with no
minimality check of any kind, so over-wide encodings included — returns
the sign-extended value of the indicated bytes (the unsigned
little-endian value, made negative by replicating the top bit of the
last payload byte) together with the offset immediately after the
consumed bytes. -/
theorem C6_decodeInteger_spec (blob : List Nat) (offset : Int) (maxSize : Nat)
    (hB : Bytes blob) (hms : maxSize = 4 ∨ maxSize = 8) :
    ((offset < 0 ∨ (blob.length : Int) ≤ offset) →
      decodeInteger blob offset maxSize = .err .intExceeds) ∧
    (0 ≤ offset → offset < (blob.length : Int) →
      ((maxSize < byteAt blob offset / 16 + 1 →
          decodeInteger blob offset maxSize = .err .intTooBig) ∧
        (byteAt blob offset / 16 + 1 ≤ maxSize →
          (blob.length : Int) < offset + 1 + ((byteAt blob offset / 16 + 1 : Nat) : Int) →
            decodeInteger blob offset maxSize = .err .intOutOfBounds) ∧
        (byteAt blob offset / 16 + 1 ≤ maxSize →
          offset + 1 + ((byteAt blob offset / 16 + 1 : Nat) : Int) ≤ (blob.length : Int) →
            decodeInteger blob offset maxSize =
              .ok (sextAt blob (offset + 1) (byteAt blob offset / 16 + 1),
                offset + 1 + ((byteAt blob offset / 16 + 1 : Nat) : Int))))) := by
  constructor
  · intro h
    unfold decodeInteger
    rw [if_pos h]
  · intro h0 hlt
    exact decodeInteger_spec blob offset maxSize hB h0 hlt (by rcases hms with h | h <;> omega)

/-- Witness for C6 on the buffer `[0x12, 0x05, 0x80]` (a two-byte
integer field whose top bit is set) with `max_size = 8`. -/
theorem C6_decodeInteger_spec_witness :
    Bytes [0x12, 0x05, 0x80] ∧
    decodeInteger [0x12, 0x05, 0x80] 0 8 = .ok (-32763, 3) ∧
    sextAt [0x12, 0x05, 0x80] 1 2 = -32763 := by
  have hB : Bytes [0x12, 0x05, 0x80] := by
    intro b hb
    simp only [List.mem_cons, List.not_mem_nil, or_false] at hb
    rcases hb with rfl | rfl | rfl <;> omega
  have h := (C6_decodeInteger_spec [0x12, 0x05, 0x80] 0 8 hB (Or.inr rfl)).2
    (by omega) (by decide)
  have h3 := h.2.2 (by decide) (by decide)
  refine ⟨hB, ?_, by decide⟩
  rw [h3]
  decide

/-! ## Claim C9 -/

theorem slice_length (blob : List Nat) (a b : Int) (h0 : 0 ≤ a) (hab : a ≤ b)
    (hb : b ≤ (blob.length : Int)) :
    ((slice blob a b).length : Int) = b - a := by
  unfold slice
  rw [List.length_drop, List.length_take]
  omega

/-- C9, amended: the length field read by `decodeBlob` — the path taken
for Blob, String, and Array payloads — is decoded as a signed
two's-complement value `L`.  When the length-field bytes are present, a
negative `L` (top bit of the last length byte set — e.g. a one-byte
length field `0xFF`) is rejected with the negative-length error; a
non-negative `L` equals the unsigned little-endian value of the length
bytes, and exactly `L` following payload bytes are consumed (failing
when they exceed the buffer).  A nested tree's size field, by contrast,
is decoded signed but unchecked: with a negative decoded size the pair
loop does not run at all and `decodeTree` succeeds with the empty
subtree, resuming at the backward offset `index + size`. -/
theorem C9_decodeBlob_amended (blob : List Nat) (offset : Int) (hB : Bytes blob)
    (h0 : 0 ≤ offset) (hlt : offset < (blob.length : Int))
    (hn4 : byteAt blob offset / 16 + 1 ≤ 4)
    (hpresent : offset + 1 + ((byteAt blob offset / 16 + 1 : Nat) : Int) ≤
      (blob.length : Int)) :
    (128 ≤ byteAt blob (offset + ((byteAt blob offset / 16 + 1 : Nat) : Int)) →
      sextAt blob (offset + 1) (byteAt blob offset / 16 + 1) < 0 ∧
      decodeBlob blob offset = .err .negativeBlobLength) ∧
    (¬ 128 ≤ byteAt blob (offset + ((byteAt blob offset / 16 + 1 : Nat) : Int)) →
      sextAt blob (offset + 1) (byteAt blob offset / 16 + 1) =
        (leValAt blob (offset + 1) (byteAt blob offset / 16 + 1) : Int) ∧
      (((blob.length : Int) < offset + 1 + ((byteAt blob offset / 16 + 1 : Nat) : Int) +
          (leValAt blob (offset + 1) (byteAt blob offset / 16 + 1) : Int) →
        decodeBlob blob offset = .err .blobLengthExceeds) ∧
      (offset + 1 + ((byteAt blob offset / 16 + 1 : Nat) : Int) +
          (leValAt blob (offset + 1) (byteAt blob offset / 16 + 1) : Int) ≤
            (blob.length : Int) →
        ∃ payload,
          decodeBlob blob offset =
            .ok (payload, offset + 1 + ((byteAt blob offset / 16 + 1 : Nat) : Int) +
              (leValAt blob (offset + 1) (byteAt blob offset / 16 + 1) : Int)) ∧
          (payload.length : Int) =
            (leValAt blob (offset + 1) (byteAt blob offset / 16 + 1) : Int)))) ∧
    (∀ (blob2 : List Nat) (off2 sz idx : Int) (fuel : Nat),
      decodeInteger blob2 off2 4 = .ok (sz, idx) → sz < 0 →
      idx ≤ (blob2.length : Int) →
      decodeTree (fuel + 1) blob2 off2 true = .ok (.nil, idx + sz)) := by
  have hspec := (decodeInteger_spec blob offset 4 hB h0 hlt (by omega)).2.2 hn4 hpresent
  have hsign : offset + 1 + ((byteAt blob offset / 16 + 1 : Nat) : Int) - 1 =
      offset + ((byteAt blob offset / 16 + 1 : Nat) : Int) := by omega
  refine ⟨?_, ?_, ?_⟩
  · intro hs
    have hneg : sextAt blob (offset + 1) (byteAt blob offset / 16 + 1) < 0 := by
      unfold sextAt
      rw [hsign, if_pos hs]
      have hub : leValAt blob (offset + 1) (byteAt blob offset / 16 + 1) <
          2 ^ (8 * (byteAt blob offset / 16 + 1)) := by
        have : ∀ (a : Int) (n : Nat), (∀ j : Nat, byteAt blob (a + (j : Int)) < 256) →
            leValAt blob a n < 2 ^ (8 * n) := by
          intro a n hbnd
          induction n with
          | zero => simp [leValAt]
          | succ m ih =>
              simp only [leValAt]
              have h1 := hbnd m
              have h2 : 2 ^ (8 * (m + 1)) = 2 ^ (8 * m) * 256 := by ring
              rw [h2]
              have := ih
              nlinarith [ih]
        exact this (offset + 1) _ (fun j => byteAt_lt blob hB _)
      have h2 : ((2 : Int)) ^ (8 * (byteAt blob offset / 16 + 1)) =
          ((2 ^ (8 * (byteAt blob offset / 16 + 1)) : Nat) : Int) := by
        push_cast
        ring
      rw [h2]
      omega
    refine ⟨hneg, ?_⟩
    unfold decodeBlob
    rw [hspec]
    simp only [DR.monad_bind_eq_bind, DR.bind_ok]
    rw [if_pos hneg]
  · intro hs
    have heq : sextAt blob (offset + 1) (byteAt blob offset / 16 + 1) =
        (leValAt blob (offset + 1) (byteAt blob offset / 16 + 1) : Int) := by
      unfold sextAt
      rw [hsign, if_neg hs]
    refine ⟨heq, ?_, ?_⟩
    · intro hoob
      unfold decodeBlob
      rw [hspec]
      simp only [DR.monad_bind_eq_bind, DR.bind_ok]
      rw [heq, if_neg (by omega), if_pos (by omega)]
    · intro hok
      unfold decodeBlob
      rw [hspec]
      simp only [DR.monad_bind_eq_bind, DR.bind_ok]
      rw [heq, if_neg (by omega), if_neg (by omega)]
      refine ⟨_, rfl, ?_⟩
      rw [slice_length blob _ _ (by omega) (by omega) (by omega)]
      omega
  · intro blob2 off2 sz idx fuel hint hneg hle
    unfold decodeTree
    rw [if_pos rfl, hint]
    simp only [DR.monad_bind_eq_bind, DR.bind_ok]
    have hloop : decodeTreeLoop fuel blob2 idx (idx + sz) [] .nil = .ok (.nil, idx) := by
      unfold decodeTreeLoop
      rw [if_neg (by omega)]
    rw [hloop]
    simp only [DR.bind_ok]
    rw [if_neg (by omega)]

/-- Witness for C9's amended theorem on the buffer `[0x03, 0x02, 9, 9]`
(a blob with a one-byte length field `2` and two payload bytes), and on
the nested-tree size field `0xFE` (sign-extended to `-2`, accepted: the
pair loop is skipped and the decoder resumes two bytes back). -/
theorem C9_decodeBlob_amended_witness :
    Bytes [0x03, 0x02, 9, 9] ∧
    decodeBlob [0x03, 0x02, 9, 9] 0 = .ok ([9, 9], 4) ∧
    decodeTree 1 [6, 254] 0 true = .ok (.nil, 0) := by
  have hB : Bytes [0x03, 0x02, 9, 9] := by
    intro b hb
    simp only [List.mem_cons, List.not_mem_nil, or_false] at hb
    rcases hb with rfl | rfl | rfl | rfl <;> omega
  have hthm := C9_decodeBlob_amended [0x03, 0x02, 9, 9] 0 hB (by omega) (by decide)
    (by decide) (by decide)
  have h := hthm.2.1 (by decide)
  obtain ⟨payload, hdec, hlen⟩ := h.2.2 (by decide)
  refine ⟨hB, hdec.trans (by rw [← hdec]; decide), ?_⟩
  have ht := hthm.2.2 [6, 254] 0 (-2) 2 0 (by rfl) (by decide) (by decide)
  simpa using ht

set_option maxRecDepth 10000 in
/-- C9, counterexample: a one-byte length field `0xFF` does not denote
255 payload bytes (as the claim's unsigned reading would imply, all 255
payload bytes being present); it is sign-extended to `-1` and rejected
as a negative blob length. -/
theorem C9_counterexample :
    ([0x03, 0xFF] ++ List.replicate 255 7).length = 2 + 255 ∧
    decodeBlob ([0x03, 0xFF] ++ List.replicate 255 7) 0 = .err .negativeBlobLength := by
  constructor
  · rw [List.length_append, List.length_replicate]
    rfl
  · decide

/-! ## Claim C2 -/

theorem lookup_isSome_iff_mem : ∀ (e : Entries) (k : List Nat),
    (e.lookup k).isSome ↔ k ∈ e.keys
  | .nil, k => by simp [Entries.lookup, Entries.keys]
  | .cons k' v r, k => by
      simp only [Entries.lookup, Entries.keys, List.mem_cons]
      by_cases h : k' = k
      · rw [if_pos h]
        simp [h.symm]
      · rw [if_neg h]
        rw [lookup_isSome_iff_mem r k]
        constructor
        · exact Or.inr
        · intro hc
          rcases hc with hc | hc
          · exact absurd hc.symm h
          · exact hc

theorem EChain_mem : ∀ (e : Entries) (low : List Nat), EChain low e →
    ∀ k ∈ e.keys, keyCompare low k = true
  | .nil, _, _, k, hk => by cases hk
  | .cons k' v r, low, hch, k, hk => by
      simp only [EChain] at hch
      rcases List.mem_cons.mp hk with h | h
      · subst h
        exact hch.1
      · exact keyCompare_trans low k' k hch.1 (EChain_mem r k' hch.2 k h)

theorem EChain_not_mem_self (e : Entries) (low : List Nat) (hch : EChain low e) :
    low ∉ e.keys := by
  intro hmem
  have := EChain_mem e low hch low hmem
  rw [keyCompare_irrefl] at this
  cases this

/-- Two canonically-chained pair lists with the same key set and
pointwise equal value encodings encode identically. -/
theorem encodeEntries_chain_congr : ∀ (e1 e2 : Entries) (low : List Nat),
    EChain low e1 → EChain low e2 →
    (∀ k, (e1.lookup k).isSome ↔ (e2.lookup k).isSome) →
    (∀ k v1 v2, e1.lookup k = some v1 → e2.lookup k = some v2 →
      encodeValue v1 = encodeValue v2) →
    encodeEntries e1 = encodeEntries e2
  | .nil, .nil, _, _, _, _, _ => rfl
  | .nil, .cons k2 v2 r2, low, _, _, hkeys, _ => by
      have h2 : ((Entries.cons k2 v2 r2).lookup k2).isSome := by
        simp [Entries.lookup]
      have h1 := (hkeys k2).mpr h2
      simp [Entries.lookup] at h1
  | .cons k1 v1 r1, .nil, low, _, _, hkeys, _ => by
      have h1 : ((Entries.cons k1 v1 r1).lookup k1).isSome := by
        simp [Entries.lookup]
      have h2 := (hkeys k1).mp h1
      simp [Entries.lookup] at h2
  | .cons k1 v1 r1, .cons k2 v2 r2, low, hch1, hch2, hkeys, hvals => by
      simp only [EChain] at hch1 hch2
      have hkk : k1 = k2 := by
        by_contra hne
        have hm1 : k1 ∈ (Entries.cons k2 v2 r2).keys := by
          rw [← lookup_isSome_iff_mem]
          refine (hkeys k1).mp ?_
          simp [Entries.lookup]
        have hm2 : k2 ∈ (Entries.cons k1 v1 r1).keys := by
          rw [← lookup_isSome_iff_mem]
          refine (hkeys k2).mpr ?_
          simp [Entries.lookup]
        have hm1' : k1 ∈ r2.keys := by
          rcases List.mem_cons.mp hm1 with h | h
          · exact absurd h hne
          · exact h
        have hm2' : k2 ∈ r1.keys := by
          rcases List.mem_cons.mp hm2 with h | h
          · exact absurd h.symm hne
          · exact h
        have hc1 := EChain_mem r2 k2 hch2.2 k1 hm1'
        have hc2 := EChain_mem r1 k1 hch1.2 k2 hm2'
        rw [keyCompare_asymm k2 k1 hc1] at hc2
        cases hc2
      subst hkk
      have hv : encodeValue v1 = encodeValue v2 := by
        refine hvals k1 v1 v2 ?_ ?_ <;> simp [Entries.lookup]
      have hn1 : k1 ∉ r1.keys := EChain_not_mem_self r1 k1 hch1.2
      have hn2 : k1 ∉ r2.keys := EChain_not_mem_self r2 k1 hch2.2
      have hrest := encodeEntries_chain_congr r1 r2 k1 hch1.2 hch2.2
        (by
          intro k
          by_cases hk : k = k1
          · subst hk
            rw [Option.isSome_iff_exists, Option.isSome_iff_exists]
            constructor
            · rintro ⟨w, hw⟩
              rw [(lookup_eq_none_iff r1 k).mpr hn1] at hw
              cases hw
            · rintro ⟨w, hw⟩
              rw [(lookup_eq_none_iff r2 k).mpr hn2] at hw
              cases hw
          · have := hkeys k
            simp only [Entries.lookup, if_neg (fun hc : k1 = k => hk hc.symm)] at this
            exact this)
        (by
          intro k w1 w2 hw1 hw2
          have hk : k ≠ k1 := by
            intro hc
            subst hc
            rw [(lookup_eq_none_iff r1 k).mpr hn1] at hw1
            cases hw1
          refine hvals k w1 w2 ?_ ?_ <;>
            simp only [Entries.lookup, if_neg (fun hc : k1 = k => hk hc.symm)] <;>
            assumption)
      simp only [encodeEntries, hv, hrest]

theorem encodeList_congr : ∀ a b : ValList, a.toList.length = b.toList.length →
    (∀ (i : Nat) v1 v2, a.toList[i]? = some v1 → b.toList[i]? = some v2 →
      encodeValue v1 = encodeValue v2) →
    encodeList a = encodeList b
  | .nil, .nil, _, _ => rfl
  | .nil, .cons _ _, hlen, _ => by simp [ValList.toList] at hlen
  | .cons _ _, .nil, hlen, _ => by simp [ValList.toList] at hlen
  | .cons w1 r1, .cons w2 r2, hlen, hpt => by
      simp only [ValList.toList, List.length_cons] at hlen
      have hv : encodeValue w1 = encodeValue w2 :=
        hpt 0 w1 w2 (by simp [ValList.toList]) (by simp [ValList.toList])
      have hrest := encodeList_congr r1 r2 (by omega)
        (fun i v1 v2 h1 h2 => hpt (i + 1) v1 v2
          (by simpa [ValList.toList] using h1)
          (by simpa [ValList.toList] using h2))
      simp only [encodeList, hv, hrest]

theorem ValidList_getElem (a : ValList) (hval : ValidList a) (i : Nat) (v : Val)
    (h : a.toList[i]? = some v) : ValidVal v := by
  obtain ⟨hlt, hv⟩ := List.getElem?_eq_some.mp h
  exact ValidList_mem a hval v (hv ▸ List.getElem_mem hlt)

/-- Structurally equal valid documents have identical encodings. -/
theorem equiv_encode {v1 v2 : Val} (h : EquivVal v1 v2) :
    ValidVal v1 → ValidVal v2 → encodeValue v1 = encodeValue v2 := by
  induction h with
  | null => intro _ _; rfl
  | bool b => intro _ _; rfl
  | int i => intro _ _; rfl
  | blob bs => intro _ _; rfl
  | str bs => intro _ _; rfl
  | arr a b hlen hpt ih =>
      intro hv1 hv2
      simp only [ValidVal] at hv1 hv2
      have hl : encodeList a = encodeList b :=
        encodeList_congr a b hlen (fun i w1 w2 h1 h2 =>
          ih i w1 w2 h1 h2 (ValidList_getElem a hv1 i w1 h1)
            (ValidList_getElem b hv2 i w2 h2))
      simp only [encodeValue, hl]
  | tree a b hkeys hlook ih =>
      intro hv1 hv2
      simp only [ValidVal] at hv1 hv2
      have hnd1 := ValidEntries_nodup a hv1
      have hnd2 := ValidEntries_nodup b hv2
      have he : encodeEntries (sortEntries a) = encodeEntries (sortEntries b) := by
        refine encodeEntries_chain_congr (sortEntries a) (sortEntries b) []
          (EChain_sortEntries a hv1) (EChain_sortEntries b hv2) ?_ ?_
        · intro k
          rw [lookup_sortEntries a hnd1 k, lookup_sortEntries b hnd2 k]
          exact hkeys k
        · intro k w1 w2 h1 h2
          rw [lookup_sortEntries a hnd1 k] at h1
          rw [lookup_sortEntries b hnd2 k] at h2
          exact ih k w1 w2 h1 h2 (lookup_valid a hv1 k w1 h1)
            (lookup_valid b hv2 k w2 h2)
      simp only [encodeValue, encodeTree, he]

theorem EChain_pairwise : ∀ (e : Entries) (low : List Nat), EChain low e →
    List.Pairwise (fun k k' => keyCompare k k' = true) e.keys
  | .nil, _, _ => List.Pairwise.nil
  | .cons k v r, low, hch => by
      simp only [EChain] at hch
      simp only [Entries.keys, List.pairwise_cons]
      exact ⟨EChain_mem r k hch.2, EChain_pairwise r k hch.2⟩

/-- `keyCompare` is precisely the specification's order: ascending key
length first, byte-lexicographic on equal lengths. -/
theorem keyCompare_iff (k k' : List Nat) :
    keyCompare k k' = true ↔
      (k.length < k'.length ∨ (k.length = k'.length ∧ lexLt k k' = true)) := by
  unfold keyCompare
  by_cases h : k.length = k'.length
  · rw [if_pos h]
    constructor
    · exact fun hl => Or.inr ⟨h, hl⟩
    · intro hc
      rcases hc with hc | hc
      · omega
      · exact hc.2
  · rw [if_neg h]
    simp only [decide_eq_true_eq]
    constructor
    · exact Or.inl
    · intro hc
      rcases hc with hc | hc
      · exact hc
      · exact absurd hc.1 h

theorem encodeInteger_cons (v : Int) (t : Nat) :
    encodeInteger v t = (16 * (intByteCount v - 1) + t % 16) ::
      (List.range (intByteCount v)).map (leByte ((v % (2 ^ 64 : Int)).toNat)) := rfl

/-- `encodeBlob` with a fixed type nibble is injective in the payload. -/
theorem encodeBlob_inj (p1 p2 : List Nat) (t : Nat)
    (h : encodeBlob p1 t = encodeBlob p2 t) : p1 = p2 := by
  have h' := h
  simp only [encodeBlob, encodeInteger_cons, List.cons_append, List.cons.injEq] at h'
  obtain ⟨hhd, htl⟩ := h'
  have hc1 := intByteCount_pos ((p1.length : Nat) : Int)
  have hc2 := intByteCount_pos ((p2.length : Nat) : Int)
  have hcc : intByteCount ((p1.length : Nat) : Int) =
      intByteCount ((p2.length : Nat) : Int) := by omega
  refine List.append_inj_right htl ?_
  simp [hcc]

/-- C2: two structurally equal valid documents serialize to identical
bytes, whatever the order their trees' pairs are held in, and within
every encoded tree the pairs are laid out sorted by ascending encoded
key length and, on equal lengths, ascending byte-lexicographic order:
the emitted payload is exactly the pair sequence of `sortEntries`, a
permutation of the tree's pairs whose keys are pairwise in the
specification's order. -/
theorem C2_canonical_unique (t1 t2 : Entries)
    (h1 : Built (.vtree t1)) (h2 : Built (.vtree t2))
    (heq : EquivVal (.vtree t1) (.vtree t2)) :
    ToByteArray (.vtree t1) = ToByteArray (.vtree t2) ∧
    ToByteArray (.vtree t1) = encodeEntries (sortEntries t1) ∧
    (sortEntries t1).toList.Perm t1.toList ∧
    List.Pairwise (fun k k' => k.length < k'.length ∨
      (k.length = k'.length ∧ lexLt k k' = true)) (sortEntries t1).keys := by
  have hv1 : ValidEntries t1 := by simpa [ValidVal] using Built_valid h1
  have hv2 : ValidEntries t2 := by simpa [ValidVal] using Built_valid h2
  refine ⟨?_, ?_, toList_sortEntries t1, ?_⟩
  · have he : encodeValue (.vtree t1) = encodeValue (.vtree t2) :=
      equiv_encode heq (by simpa [ValidVal] using hv1) (by simpa [ValidVal] using hv2)
    simp only [encodeValue, encodeTree, Option.bind_eq_bind] at he
    simp only [ToByteArray, encodeTree, Option.bind_eq_bind]
    cases hp1 : encodeEntries (sortEntries t1) with
    | none =>
        rw [hp1] at he
        cases hp2 : encodeEntries (sortEntries t2) with
        | none => simp [hp1, hp2]
        | some p2 =>
            rw [hp2] at he
            simp at he
    | some p1 =>
        rw [hp1] at he
        cases hp2 : encodeEntries (sortEntries t2) with
        | none =>
            rw [hp2] at he
            simp at he
        | some p2 =>
            rw [hp2] at he
            simp only [Option.some_bind, if_true, Option.some.injEq] at he
            have hpp : p1 = p2 := encodeBlob_inj p1 p2 0b0110 he
            simp [hp1, hp2, hpp]
  · simp [ToByteArray, encodeTree]
  · have := EChain_pairwise (sortEntries t1) [] (EChain_sortEntries t1 hv1)
    exact this.imp (fun h => (keyCompare_iff _ _).mp h)

/-- Witness for C2: the same two-pair document written with its pairs in
the two possible orders encodes identically, with the emitted pairs in
canonical order. -/
theorem C2_canonical_unique_witness :
    ToByteArray (.vtree (.cons [98, 98] (.vstr [104]) (.cons [97] (.vint 5) .nil))) =
      ToByteArray (.vtree (.cons [97] (.vint 5) (.cons [98, 98] (.vstr [104]) .nil))) ∧
    ToByteArray (.vtree (.cons [98, 98] (.vstr [104]) (.cons [97] (.vint 5) .nil))) =
      encodeEntries (sortEntries
        (.cons [98, 98] (.vstr [104]) (.cons [97] (.vint 5) .nil))) := by
  have hb1 : Built (.vtree (.cons [98, 98] (.vstr [104]) (.cons [97] (.vint 5) .nil))) := by
    refine Built.put (.cons [98, 98] (.vstr [104]) .nil) [97] (.vint 5) _
      ?_ (Bytes_cons 97 [] (by omega) Bytes_nil) (Built.int 5 (by constructor <;> decide)) ?_
    · exact Built.put .nil [98, 98] (.vstr [104]) _ Built.emptyTree
        (Bytes_cons 98 [98] (by omega) (Bytes_cons 98 [] (by omega) Bytes_nil))
        (Built.str [104] (Bytes_cons 104 [] (by omega) Bytes_nil)) rfl
    · rfl
  have hb2 : Built (.vtree (.cons [97] (.vint 5) (.cons [98, 98] (.vstr [104]) .nil))) := by
    refine Built.put (.cons [97] (.vint 5) .nil) [98, 98] (.vstr [104]) _
      ?_ (Bytes_cons 98 [98] (by omega) (Bytes_cons 98 [] (by omega) Bytes_nil))
      (Built.str [104] (Bytes_cons 104 [] (by omega) Bytes_nil)) ?_
    · exact Built.put .nil [97] (.vint 5) _ Built.emptyTree
        (Bytes_cons 97 [] (by omega) Bytes_nil)
        (Built.int 5 (by constructor <;> decide)) rfl
    · rfl
  have heq : EquivVal
      (.vtree (.cons [98, 98] (.vstr [104]) (.cons [97] (.vint 5) .nil)))
      (.vtree (.cons [97] (.vint 5) (.cons [98, 98] (.vstr [104]) .nil))) := by
    refine EquivVal.tree _ _ ?_ ?_
    · intro k
      simp only [Entries.lookup]
      by_cases h1 : k = [98, 98]
      · subst h1
        decide
      · by_cases h2 : k = [97]
        · subst h2
          decide
        · rw [if_neg (fun hc => h1 hc.symm), if_neg (fun hc => h2 hc.symm),
            if_neg (fun hc => h2 hc.symm), if_neg (fun hc => h1 hc.symm)]
    · intro k v1 v2 hl1 hl2
      simp only [Entries.lookup] at hl1 hl2
      by_cases h1 : k = [98, 98]
      · subst h1
        rw [if_pos rfl] at hl1
        rw [if_neg (by decide), if_pos rfl] at hl2
        injection hl1 with hl1
        injection hl2 with hl2
        rw [← hl1, ← hl2]
        exact EquivVal.str [104]
      · by_cases h2 : k = [97]
        · subst h2
          rw [if_neg (by decide), if_pos rfl] at hl1
          rw [if_pos rfl] at hl2
          injection hl1 with hl1
          injection hl2 with hl2
          rw [← hl1, ← hl2]
          exact EquivVal.int 5
        · rw [if_neg (fun hc => h1 hc.symm), if_neg (fun hc => h2 hc.symm)] at hl1
          simp [Entries.lookup] at hl1
  have h := C2_canonical_unique _ _ hb1 hb2 heq
  exact ⟨h.1, h.2.1⟩

/-! ## Claim C3 -/

/-- A decoded key that is not canonically strictly greater than the
preceding key at its nesting level aborts the pair loop with the
key-order error (this covers duplicate keys, since the order is
irreflexive). -/
theorem decodeTreeLoop_order_err (blob : List Nat) (index endOffset : Int)
    (lastKey : List Nat) (acc : Entries) (fuel : Nat) (k2 : List Nat) (idx2 : Int)
    (hin : index < endOffset) (hfuel : 1 ≤ fuel)
    (hk : decodeKey blob index = .ok (k2, idx2))
    (hord : keyCompare lastKey k2 = false) :
    decodeTreeLoop fuel blob index endOffset lastKey acc = .err .invalidKeyOrder := by
  obtain ⟨f, rfl⟩ : ∃ f, fuel = f + 1 := ⟨fuel - 1, by omega⟩
  unfold decodeTreeLoop
  rw [if_pos hin, hk]
  simp only [DR.monad_bind_eq_bind, DR.bind_ok]
  rw [if_pos hord]

/-- C3: a top-level document whose first pair carries key `k1` (any
valid, in-range value `v1`) and whose second key `k2` is not canonically
strictly greater than `k1` — shorter first, byte-lexicographic on equal
lengths, so equal or misordered keys included — is rejected with the
invalid-key-order error, whatever bytes follow. -/
theorem C3_invalid_key_order (k1 : List Nat) (v1 : Val) (ev1 : List Nat)
    (k2 : List Nat) (rest : List Nat)
    (hk11 : 1 ≤ k1.length) (hk12 : k1.length ≤ 256)
    (hk21 : 1 ≤ k2.length) (hk22 : k2.length ≤ 256)
    (hv : ValidVal v1) (hs : SmallVal v1)
    (hev : encodeValue v1 = some ev1)
    (hB : Bytes (((k1.length - 1) :: k1) ++
      (ev1 ++ (((k2.length - 1) :: k2) ++ rest))))
    (hord : keyCompare k1 k2 = false) :
    NewABITObject (((k1.length - 1) :: k1) ++
        (ev1 ++ (((k2.length - 1) :: k2) ++ rest))) =
      .err .invalidKeyOrder := by
  set e : List Nat := ((k1.length - 1) :: k1) ++
    (ev1 ++ (((k2.length - 1) :: k2) ++ rest)) with hedef
  have hev1pos : 1 ≤ ev1.length := by
    obtain ⟨e', he', hlen', _⟩ := encodeValue_props v1 hv
    rw [hev] at he'
    injection he' with he'
    subst he'
    rw [hlen']
    exact encLenV_pos v1
  have hek1 : ((k1.length - 1) :: k1).length = 1 + k1.length := by
    simp [Nat.add_comm]
  have hel : e.length = (1 + k1.length) + ev1.length + ((1 + k2.length) + rest.length) := by
    simp [hedef]
    omega
  unfold NewABITObject
  rw [if_pos (by omega)]
  obtain ⟨F, hF⟩ : ∃ F, newFuel e = F + 1 := ⟨newFuel e - 1, by unfold newFuel; omega⟩
  rw [hF]
  unfold decodeTree
  rw [if_neg (by simp)]
  obtain ⟨G, hG⟩ : ∃ G, F = G + 1 := ⟨F - 1, by unfold newFuel at hF; omega⟩
  rw [hG]
  have hkey1 : decodeKey e 0 = .ok (k1, ((((k1.length - 1) :: k1).length : Nat) : Int)) := by
    have h := decodeKey_encodeKey [] k1 (ev1 ++ (((k2.length - 1) :: k2) ++ rest)) hk11 hk12
    simp only [List.nil_append, List.length_nil, Nat.cast_zero, zero_add] at h
    rw [hedef]
    rw [h]
    rw [hek1]
  have hloop : decodeTreeLoop (G + 1) e 0 (e.length : Int) [] .nil =
      .err .invalidKeyOrder := by
    unfold decodeTreeLoop
    rw [if_pos (by omega)]
    rw [hkey1]
    simp only [DR.monad_bind_eq_bind, DR.bind_ok]
    rw [if_neg (by rw [keyCompare_nil_left k1 hk11]; simp)]
    obtain ⟨b, brest, hbrest, hbtag⟩ := encodeValue_head v1 ev1 hev
    rw [decodeType_at e ((((k1.length - 1) :: k1).length : Nat) : Int) (by omega)
      (by rw [hel, hek1]; push_cast; omega)]
    rw [show byteAt e ((((k1.length - 1) :: k1).length : Nat) : Int) = b from by
      rw [hedef, hbrest, List.cons_append]
      exact byteAt_head ((k1.length - 1) :: k1) b _]
    rw [hbtag]
    simp only [DR.bind_ok]
    have hdv := decode_encodeValue v1 ev1 hv hs hev ((k1.length - 1) :: k1)
      (((k2.length - 1) :: k2) ++ rest) G (by rw [← hedef]; exact hB)
      (by unfold newFuel at hF; rw [hel] at hF; omega)
    rw [← hedef] at hdv
    rw [hdv]
    simp only [DR.bind_ok]
    have hkey2 := decodeKey_encodeKey (((k1.length - 1) :: k1) ++ ev1) k2 rest hk21 hk22
    rw [List.append_assoc] at hkey2
    rw [← hedef] at hkey2
    rw [show (((((k1.length - 1) :: k1) ++ ev1).length : Nat) : Int) =
        ((((k1.length - 1) :: k1).length : Nat) : Int) + ((ev1.length : Nat) : Int) from by
      simp only [List.length_append, List.length_cons]
      push_cast
      omega] at hkey2
    exact decodeTreeLoop_order_err e _ _ k1 _ G k2 _
      (by rw [hel, hek1]; push_cast; omega)
      (by unfold newFuel at hF; omega) hkey2 hord
  rw [hloop]
  rfl

/-- Witness for C3 on the buffer `[1, 98, 98, 0, 0, 97, 0]`: key `"bb"`
with a null value followed by key `"a"`, which sorts before `"bb"`. -/
theorem C3_invalid_key_order_witness :
    NewABITObject [1, 98, 98, 0, 0, 97, 0] = .err .invalidKeyOrder := by
  have h := C3_invalid_key_order [98, 98] .vnull [0] [97] [0]
    (by decide) (by decide) (by decide) (by decide) trivial trivial
    (by simp [encodeValue, encodeNull]) (by unfold Bytes; decide) (by decide)
  have heq : ((([98, 98] : List Nat).length - 1) :: [98, 98]) ++
      ([0] ++ (((([97] : List Nat).length - 1) :: [97]) ++ [0])) =
      [1, 98, 98, 0, 0, 97, 0] := by decide
  rw [heq] at h
  exact h

/-! ## Claim C8 -/

/-- The array element loop only ever returns at or past the end of its
payload buffer. -/
theorem decodeArrayLoop_ok_ge : ∀ (fuel : Nat) (arrBlob : List Nat) (index : Int)
    (acc elems : ValList) (idx : Int),
    decodeArrayLoop fuel arrBlob index acc = .ok (elems, idx) →
    (arrBlob.length : Int) ≤ idx
  | 0, arrBlob, index, acc, elems, idx => by
      intro h
      unfold decodeArrayLoop at h
      by_cases hc : index < (arrBlob.length : Int)
      · rw [if_pos hc] at h
        cases h
      · rw [if_neg hc] at h
        injection h with h
        rw [Prod.mk.injEq] at h
        omega
  | f + 1, arrBlob, index, acc, elems, idx => by
      intro h
      unfold decodeArrayLoop at h
      by_cases hc : index < (arrBlob.length : Int)
      · rw [if_pos hc] at h
        cases ht : decodeType arrBlob index with
        | err e => rw [ht] at h; simp at h
        | diverge => rw [ht] at h; simp at h
        | ok typ =>
            rw [ht] at h
            simp only [DR.monad_bind_eq_bind, DR.bind_ok] at h
            cases hv : decodeValueAt f arrBlob index typ with
            | err e => rw [hv] at h; simp at h
            | diverge => rw [hv] at h; simp at h
            | ok p =>
                obtain ⟨v, index'⟩ := p
                rw [hv] at h
                simp only [DR.bind_ok] at h
                exact decodeArrayLoop_ok_ge f arrBlob index' (acc.push v) elems idx h
      · rw [if_neg hc] at h
        injection h with h
        rw [Prod.mk.injEq] at h
        omega

/-- The tree pair loop only ever returns at or past its declared end
offset. -/
theorem decodeTreeLoop_ok_ge : ∀ (fuel : Nat) (blob : List Nat) (index endOffset : Int)
    (lastKey : List Nat) (acc t : Entries) (finalIndex : Int),
    decodeTreeLoop fuel blob index endOffset lastKey acc = .ok (t, finalIndex) →
    endOffset ≤ finalIndex
  | 0, blob, index, endOffset, lastKey, acc, t, finalIndex => by
      intro h
      unfold decodeTreeLoop at h
      by_cases hc : index < endOffset
      · rw [if_pos hc] at h
        cases h
      · rw [if_neg hc] at h
        injection h with h
        rw [Prod.mk.injEq] at h
        omega
  | f + 1, blob, index, endOffset, lastKey, acc, t, finalIndex => by
      intro h
      unfold decodeTreeLoop at h
      by_cases hc : index < endOffset
      · rw [if_pos hc] at h
        cases hk : decodeKey blob index with
        | err e => rw [hk] at h; simp at h
        | diverge => rw [hk] at h; simp at h
        | ok p =>
            obtain ⟨key, index1⟩ := p
            rw [hk] at h
            simp only [DR.monad_bind_eq_bind, DR.bind_ok] at h
            by_cases ho : keyCompare lastKey key = false
            · rw [if_pos ho] at h
              cases h
            · rw [if_neg ho] at h
              cases ht : decodeType blob index1 with
              | err e => rw [ht] at h; simp at h
              | diverge => rw [ht] at h; simp at h
              | ok typ =>
                  rw [ht] at h
                  simp only [DR.bind_ok] at h
                  cases hv : decodeValueAt f blob index1 typ with
                  | err e => rw [hv] at h; simp at h
                  | diverge => rw [hv] at h; simp at h
                  | ok q =>
                      obtain ⟨v, index2⟩ := q
                      rw [hv] at h
                      simp only [DR.bind_ok] at h
                      exact decodeTreeLoop_ok_ge f blob index2 endOffset key
                        (acc.push key v) t finalIndex h
      · rw [if_neg hc] at h
        injection h with h
        rw [Prod.mk.injEq] at h
        omega

/-- C8, amended: the two container decoders treat their declared payload
ends differently.  An array decode extracts its declared payload and
succeeds only when the element loop lands on the payload end exactly; a
final element overrunning the declared payload end fails with the
corrupt-array error.  A nested tree decode, however, checks the loop's
final index only against the whole buffer: a final pair may overrun the
declared payload end (`endOff < finalIndex`) and be accepted as long as
it stays inside the buffer, the decoder resuming at the declared end. -/
theorem C8_containers_amended :
    (∀ (fuel : Nat) (arrBlob : List Nat) (index : Int) (acc elems : ValList) (idx : Int),
        decodeArrayLoop fuel arrBlob index acc = .ok (elems, idx) →
        (arrBlob.length : Int) ≤ idx) ∧
    (∀ (fuel : Nat) (blob : List Nat) (index endOffset : Int) (lastKey : List Nat)
        (acc t : Entries) (finalIndex : Int),
        decodeTreeLoop fuel blob index endOffset lastKey acc = .ok (t, finalIndex) →
        endOffset ≤ finalIndex) ∧
    (∀ (fuel : Nat) (blob : List Nat) (offset : Int) (v : Val) (off' : Int),
        decodeArray (fuel + 1) blob offset = .ok (v, off') →
        ∃ arrBlob elems,
          decodeBlob blob offset = .ok (arrBlob, off') ∧
          decodeArrayLoop fuel arrBlob 0 .nil = .ok (elems, (arrBlob.length : Int)) ∧
          v = .varr elems) ∧
    (∀ (fuel : Nat) (blob : List Nat) (offset : Int) (arrBlob : List Nat) (off idx : Int)
        (elems : ValList),
        decodeBlob blob offset = .ok (arrBlob, off) →
        decodeArrayLoop fuel arrBlob 0 .nil = .ok (elems, idx) →
        (arrBlob.length : Int) < idx →
        decodeArray (fuel + 1) blob offset = .err .corruptArray) ∧
    (∀ (fuel : Nat) (blob : List Nat) (offset : Int) (t : Entries) (endOff : Int),
        decodeTree (fuel + 1) blob offset true = .ok (t, endOff) →
        ∃ (treeSize index finalIndex : Int),
          decodeInteger blob offset 4 = .ok (treeSize, index) ∧
          endOff = index + treeSize ∧
          decodeTreeLoop fuel blob index (index + treeSize) [] .nil = .ok (t, finalIndex) ∧
          index + treeSize ≤ finalIndex ∧ finalIndex ≤ (blob.length : Int)) := by
  refine ⟨decodeArrayLoop_ok_ge, decodeTreeLoop_ok_ge, ?_, ?_, ?_⟩
  · intro fuel blob offset v off' h
    unfold decodeArray at h
    cases hb : decodeBlob blob offset with
    | err e => rw [hb] at h; simp at h
    | diverge => rw [hb] at h; simp at h
    | ok p =>
        obtain ⟨arrBlob, off⟩ := p
        rw [hb] at h
        simp only [DR.monad_bind_eq_bind, DR.bind_ok] at h
        cases hl : decodeArrayLoop fuel arrBlob 0 .nil with
        | err e => rw [hl] at h; simp at h
        | diverge => rw [hl] at h; simp at h
        | ok q =>
            obtain ⟨elems, idx⟩ := q
            rw [hl] at h
            simp only [DR.bind_ok] at h
            by_cases hc : (arrBlob.length : Int) < idx
            · rw [if_pos hc] at h
              cases h
            · rw [if_neg hc] at h
              injection h with h
              rw [Prod.mk.injEq] at h
              obtain ⟨h1, h2⟩ := h
              have hge := decodeArrayLoop_ok_ge fuel arrBlob 0 .nil elems idx hl
              have hidx : idx = (arrBlob.length : Int) := by omega
              refine ⟨arrBlob, elems, ?_, ?_, h1.symm⟩
              · rw [h2]
              · rw [← hidx]
                exact hl
  · intro fuel blob offset arrBlob off idx elems hb hl hc
    unfold decodeArray
    rw [hb]
    simp only [DR.monad_bind_eq_bind, DR.bind_ok]
    rw [hl]
    simp only [DR.bind_ok]
    rw [if_pos hc]
  · intro fuel blob offset t endOff h
    unfold decodeTree at h
    cases hi : decodeInteger blob offset 4 with
    | err e => rw [hi] at h; simp at h
    | diverge => rw [hi] at h; simp at h
    | ok p =>
        obtain ⟨treeSize, index⟩ := p
        rw [hi] at h
        simp only [DR.monad_bind_eq_bind, DR.bind_ok] at h
        cases hl : decodeTreeLoop fuel blob index (index + treeSize) [] .nil with
        | err e => rw [hl] at h; simp at h
        | diverge => rw [hl] at h; simp at h
        | ok q =>
            obtain ⟨t', finalIndex⟩ := q
            rw [hl] at h
            simp only [DR.bind_ok] at h
            by_cases hc : (blob.length : Int) < finalIndex
            · rw [if_pos hc] at h
              cases h
            · rw [if_neg hc] at h
              injection h with h
              rw [Prod.mk.injEq] at h
              obtain ⟨h1, h2⟩ := h
              have hge := decodeTreeLoop_ok_ge fuel blob index (index + treeSize) [] .nil
                t' finalIndex hl
              exact ⟨treeSize, index, finalIndex, rfl, h2.symm, h1 ▸ hl, hge, by omega⟩

/-- Witness for C8's amended theorem: the encoded one-element array
`[0x05, 0x01, 0x00]` (a null in a one-byte payload) decodes with its
element loop ending exactly at the payload end. -/
theorem C8_containers_amended_witness :
    decodeArray 21 [5, 1, 0] 0 = .ok (.varr (ValList.cons .vnull .nil), 3) ∧
    ∃ arrBlob elems,
      decodeBlob [5, 1, 0] 0 = .ok (arrBlob, 3) ∧
      decodeArrayLoop 20 arrBlob 0 .nil = .ok (elems, (arrBlob.length : Int)) ∧
      Val.varr (ValList.cons .vnull .nil) = .varr elems :=
  ⟨rfl, C8_containers_amended.2.2.1 20 [5, 1, 0] 0
    (.varr (ValList.cons .vnull .nil)) 3 rfl⟩

/-- C8, counterexample: in the buffer
`[0x00, 0x61, 0x06, 0x02, 0x00, 0x62, 0x00, 0x62, 0x00]` the nested tree
at offset 2 declares a 2-byte payload (bytes 4–5, declared end 6), but
its single pair spans bytes 4–6 — the pair loop returns final index 7,
one past the declared end.  Decoding nevertheless succeeds: the final
check is against the whole 9-byte buffer, the nested tree is accepted,
and the outer loop resumes at the declared end 6, consuming byte 6 a
second time. -/
theorem C8_counterexample :
    decodeInteger [0, 97, 6, 2, 0, 98, 0, 98, 0] 2 4 = .ok (2, 4) ∧
    decodeTreeLoop 20 [0, 97, 6, 2, 0, 98, 0, 98, 0] 4 6 [] .nil =
      .ok (.cons [98] .vnull .nil, 7) ∧
    decodeTree 21 [0, 97, 6, 2, 0, 98, 0, 98, 0] 2 true =
      .ok (.cons [98] .vnull .nil, 6) ∧
    NewABITObject [0, 97, 6, 2, 0, 98, 0, 98, 0] =
      .ok (.vtree (.cons [97] (.vtree (.cons [98] .vnull .nil))
        (.cons [98] .vnull .nil))) :=
  ⟨rfl, rfl, rfl, rfl⟩

/-! ## Claim C10 -/

/-- The signed reinterpretation of 64 bits is an int64. -/
theorem toInt64_range (u : Nat) : -(2 ^ 63) ≤ toInt64 u ∧ toInt64 u < 2 ^ 63 := by
  unfold toInt64
  have h : u % 2 ^ 64 < 2 ^ 64 := Nat.mod_lt _ (by norm_num)
  split_ifs with hc <;> constructor <;> omega

/-- Generic bound on the little-endian value of `n` bytes. -/
theorem leValAt_lt (blob : List Nat) (hB : Bytes blob) (a : Int) :
    ∀ n : Nat, leValAt blob a n < 2 ^ (8 * n)
  | 0 => by simp [leValAt]
  | m + 1 => by
      have h1 := byteAt_lt blob hB (a + (m : Int))
      have ih := leValAt_lt blob hB a m
      simp only [leValAt]
      have h2 : 2 ^ (8 * (m + 1)) = 2 ^ (8 * m) * 256 := by ring
      rw [h2]
      nlinarith [ih, h1]

/-- A sign-extended field of at most 8 bytes is an int64. -/
theorem sextAt_range (blob : List Nat) (a : Int) (n : Nat) (hB : Bytes blob)
    (hn1 : 1 ≤ n) (hn8 : n ≤ 8) :
    -(2 ^ 63) ≤ sextAt blob a n ∧ sextAt blob a n < 2 ^ 63 := by
  obtain ⟨m, rfl⟩ : ∃ m, n = m + 1 := ⟨n - 1, by omega⟩
  have htop := byteAt_lt blob hB (a + (m : Int))
  have ihm := leValAt_lt blob hB a m
  have hlow : byteAt blob (a + (m : Int)) * 2 ^ (8 * m) ≤ leValAt blob a (m + 1) := by
    simp only [leValAt]
    exact Nat.le_add_left _ _
  have hl256 : leValAt blob a (m + 1) < 256 * 2 ^ (8 * m) := by
    have hpe : (2 : Nat) ^ (8 * (m + 1)) = 256 * 2 ^ (8 * m) := by ring
    have := leValAt_lt blob hB a (m + 1)
    omega
  have hpow : (2 : Nat) ^ (8 * m) ≤ 2 ^ 56 :=
    Nat.pow_le_pow_right (by norm_num) (by omega)
  have hip : ((2 : Int)) ^ (8 * (m + 1)) = ((256 * 2 ^ (8 * m) : Nat) : Int) := by
    push_cast
    ring
  unfold sextAt
  rw [show a + ((m + 1 : Nat) : Int) - 1 = a + (m : Int) by push_cast; ring]
  split_ifs with hs
  · have h128 : 128 * 2 ^ (8 * m) ≤ leValAt blob a (m + 1) :=
      le_trans (Nat.mul_le_mul_right _ hs) hlow
    rw [hip]
    constructor <;> omega
  · have hb127 : byteAt blob (a + (m : Int)) * 2 ^ (8 * m) ≤ 127 * 2 ^ (8 * m) :=
      Nat.mul_le_mul_right _ (by omega)
    have hup : leValAt blob a (m + 1) < 128 * 2 ^ (8 * m) := by
      simp only [leValAt]
      omega
    constructor <;> omega

theorem decodeInteger_ok_range (blob : List Nat) (offset : Int) (maxSize : Nat)
    (hB : Bytes blob) (hms8 : maxSize ≤ 8)
    (i off : Int) (h : decodeInteger blob offset maxSize = .ok (i, off)) :
    -(2 ^ 63) ≤ i ∧ i < 2 ^ 63 := by
  by_cases hg : offset < 0 ∨ (blob.length : Int) ≤ offset
  · have he : decodeInteger blob offset maxSize = .err .intExceeds := by
      unfold decodeInteger
      rw [if_pos hg]
    rw [he] at h
    cases h
  · have h0 : 0 ≤ offset := by omega
    have hlt : offset < (blob.length : Int) := by omega
    have hspec := decodeInteger_spec blob offset maxSize hB h0 hlt hms8
    by_cases hsz : maxSize < byteAt blob offset / 16 + 1
    · rw [hspec.1 hsz] at h
      cases h
    · by_cases hoob : (blob.length : Int) <
          offset + 1 + ((byteAt blob offset / 16 + 1 : Nat) : Int)
      · rw [hspec.2.1 (by omega) hoob] at h
        cases h
      · rw [hspec.2.2 (by omega) (by omega)] at h
        injection h with h
        rw [Prod.mk.injEq] at h
        rw [← h.1]
        exact sextAt_range blob (offset + 1) _ hB (by omega) (by omega)

theorem decodeBlob_ok_bytes (blob : List Nat) (offset : Int) (hB : Bytes blob)
    (bs : List Nat) (off : Int) (h : decodeBlob blob offset = .ok (bs, off)) :
    Bytes bs := by
  unfold decodeBlob at h
  cases hi : decodeInteger blob offset 4 with
  | err e => rw [hi] at h; simp at h
  | diverge => rw [hi] at h; simp at h
  | ok p =>
      obtain ⟨L, o⟩ := p
      rw [hi] at h
      simp only [DR.monad_bind_eq_bind, DR.bind_ok] at h
      split_ifs at h
      injection h with h
      rw [Prod.mk.injEq] at h
      obtain ⟨h1, -⟩ := h
      rw [← h1]
      exact Bytes_slice blob hB _ _

theorem decodeKey_ok_props (blob : List Nat) (offset : Int) (hB : Bytes blob)
    (key : List Nat) (off : Int) (h : decodeKey blob offset = .ok (key, off)) :
    (1 ≤ key.length ∧ key.length ≤ 256) ∧ Bytes key := by
  unfold decodeKey at h
  dsimp only [] at h
  split_ifs at h with h1 h2
  cases h
  have hby := byteAt_lt blob hB offset
  have hsl := slice_length blob (offset + 1)
    (offset + 1 + ((byteAt blob offset : Int) + 1))
    (by omega) (by omega) (by omega)
  exact ⟨⟨by omega, by omega⟩, Bytes_slice blob hB _ _⟩

theorem Entries.keys_push : ∀ (e : Entries) (k : List Nat) (v : Val),
    (e.push k v).keys = e.keys ++ [k]
  | .nil, k, v => rfl
  | .cons k' v' r, k, v => by
      simp only [Entries.push, Entries.keys, Entries.keys_push r k v, List.cons_append]

theorem lookup_push_none : ∀ (e : Entries) (k k' : List Nat) (v : Val),
    e.lookup k' = none → k ≠ k' → (e.push k v).lookup k' = none
  | .nil, k, k', v, _, hne => by
      simp only [Entries.push, Entries.lookup]
      rw [if_neg hne]
  | .cons k0 v0 r, k, k', v, hl, hne => by
      simp only [Entries.lookup] at hl
      by_cases h0 : k0 = k'
      · rw [if_pos h0] at hl
        cases hl
      · rw [if_neg h0] at hl
        simp only [Entries.push, Entries.lookup]
        rw [if_neg h0]
        exact lookup_push_none r k k' v hl hne

theorem ValidEntries_push : ∀ (acc : Entries) (k : List Nat) (v : Val),
    ValidEntries acc → (1 ≤ k.length ∧ k.length ≤ 256) → Bytes k → ValidVal v →
    acc.lookup k = none → ValidEntries (acc.push k v)
  | .nil, k, v, _, hk, hkB, hv, _ => by
      show ValidEntries (.cons k v .nil)
      simp only [ValidEntries]
      exact ⟨hk, hkB, rfl, hv, trivial⟩
  | .cons k0 v0 r, k, v, hacc, hk, hkB, hv, hlk => by
      simp only [ValidEntries] at hacc
      simp only [Entries.lookup] at hlk
      by_cases h0 : k0 = k
      · rw [if_pos h0] at hlk
        cases hlk
      · rw [if_neg h0] at hlk
        show ValidEntries (.cons k0 v0 (r.push k v))
        simp only [ValidEntries]
        exact ⟨hacc.1, hacc.2.1, lookup_push_none r k k0 v hacc.2.2.1 (fun hc => h0 hc.symm),
          hacc.2.2.2.1, ValidEntries_push r k v hacc.2.2.2.2 hk hkB hv hlk⟩

mutual

/-- Every value the decoder's `switch` returns is valid: in-range
integers, byte payloads, valid containers. -/
theorem decodeValueAt_valid : ∀ (fuel : Nat) (blob : List Nat) (offset : Int) (typ : Nat)
    (v : Val) (off : Int), Bytes blob →
    decodeValueAt fuel blob offset typ = .ok (v, off) → ValidVal v
  | 0, blob, offset, typ, v, off => by
      intro hB h
      unfold decodeValueAt at h
      cases h
  | f + 1, blob, offset, 0, v, off => by
      intro hB h
      unfold decodeValueAt at h
      cases hn : decodeNull blob offset with
      | err e => rw [hn] at h; simp at h
      | diverge => rw [hn] at h; simp at h
      | ok o =>
          rw [hn] at h
          simp only [DR.monad_bind_eq_bind, DR.bind_ok] at h
          injection h with h
          rw [Prod.mk.injEq] at h
          rw [← h.1]
          trivial
  | f + 1, blob, offset, 1, v, off => by
      intro hB h
      unfold decodeValueAt at h
      cases hn : decodeBoolean blob offset with
      | err e => rw [hn] at h; simp at h
      | diverge => rw [hn] at h; simp at h
      | ok p =>
          obtain ⟨b, o⟩ := p
          rw [hn] at h
          simp only [DR.monad_bind_eq_bind, DR.bind_ok] at h
          injection h with h
          rw [Prod.mk.injEq] at h
          rw [← h.1]
          trivial
  | f + 1, blob, offset, 2, v, off => by
      intro hB h
      unfold decodeValueAt at h
      cases hn : decodeInteger blob offset 8 with
      | err e => rw [hn] at h; simp at h
      | diverge => rw [hn] at h; simp at h
      | ok p =>
          obtain ⟨i, o⟩ := p
          rw [hn] at h
          simp only [DR.monad_bind_eq_bind, DR.bind_ok] at h
          injection h with h
          rw [Prod.mk.injEq] at h
          rw [← h.1]
          simp only [ValidVal]
          exact decodeInteger_ok_range blob offset 8 hB (by omega) i o hn
  | f + 1, blob, offset, 3, v, off => by
      intro hB h
      unfold decodeValueAt at h
      cases hn : decodeBlob blob offset with
      | err e => rw [hn] at h; simp at h
      | diverge => rw [hn] at h; simp at h
      | ok p =>
          obtain ⟨bs, o⟩ := p
          rw [hn] at h
          simp only [DR.monad_bind_eq_bind, DR.bind_ok] at h
          injection h with h
          rw [Prod.mk.injEq] at h
          rw [← h.1]
          simp only [ValidVal]
          exact decodeBlob_ok_bytes blob offset hB bs o hn
  | f + 1, blob, offset, 4, v, off => by
      intro hB h
      unfold decodeValueAt at h
      cases hn : decodeString blob offset with
      | err e => rw [hn] at h; simp at h
      | diverge => rw [hn] at h; simp at h
      | ok p =>
          obtain ⟨bs, o⟩ := p
          rw [hn] at h
          simp only [DR.monad_bind_eq_bind, DR.bind_ok] at h
          injection h with h
          rw [Prod.mk.injEq] at h
          rw [← h.1]
          simp only [ValidVal]
          exact decodeBlob_ok_bytes blob offset hB bs o hn
  | f + 1, blob, offset, 5, v, off => by
      intro hB h
      unfold decodeValueAt at h
      exact decodeArray_valid f blob offset v off hB h
  | f + 1, blob, offset, 6, v, off => by
      intro hB h
      unfold decodeValueAt at h
      cases hn : decodeTree f blob offset true with
      | err e => rw [hn] at h; simp at h
      | diverge => rw [hn] at h; simp at h
      | ok p =>
          obtain ⟨t, o⟩ := p
          rw [hn] at h
          simp only [DR.monad_bind_eq_bind, DR.bind_ok] at h
          injection h with h
          rw [Prod.mk.injEq] at h
          rw [← h.1]
          simp only [ValidVal]
          exact decodeTree_valid f blob offset true t o hB hn
  | f + 1, blob, offset, n + 7, v, off => by
      intro hB h
      unfold decodeValueAt at h
      cases h

theorem decodeArray_valid : ∀ (fuel : Nat) (blob : List Nat) (offset : Int)
    (v : Val) (off : Int), Bytes blob →
    decodeArray fuel blob offset = .ok (v, off) → ValidVal v
  | 0, blob, offset, v, off => by
      intro hB h
      unfold decodeArray at h
      cases h
  | f + 1, blob, offset, v, off => by
      intro hB h
      unfold decodeArray at h
      cases hb : decodeBlob blob offset with
      | err e => rw [hb] at h; simp at h
      | diverge => rw [hb] at h; simp at h
      | ok p =>
          obtain ⟨arrBlob, o⟩ := p
          rw [hb] at h
          simp only [DR.monad_bind_eq_bind, DR.bind_ok] at h
          cases hl : decodeArrayLoop f arrBlob 0 .nil with
          | err e => rw [hl] at h; simp at h
          | diverge => rw [hl] at h; simp at h
          | ok q =>
              obtain ⟨elems, idx⟩ := q
              rw [hl] at h
              simp only [DR.bind_ok] at h
              by_cases hc : (arrBlob.length : Int) < idx
              · rw [if_pos hc] at h
                cases h
              · rw [if_neg hc] at h
                injection h with h
                rw [Prod.mk.injEq] at h
                rw [← h.1]
                simp only [ValidVal]
                exact decodeArrayLoop_valid f arrBlob 0 .nil elems idx
                  (decodeBlob_ok_bytes blob offset hB arrBlob o hb) trivial hl

theorem decodeArrayLoop_valid : ∀ (fuel : Nat) (arrBlob : List Nat) (index : Int)
    (acc elems : ValList) (idx : Int), Bytes arrBlob → ValidList acc →
    decodeArrayLoop fuel arrBlob index acc = .ok (elems, idx) → ValidList elems
  | 0, arrBlob, index, acc, elems, idx => by
      intro hB hacc h
      unfold decodeArrayLoop at h
      by_cases hc : index < (arrBlob.length : Int)
      · rw [if_pos hc] at h
        cases h
      · rw [if_neg hc] at h
        injection h with h
        rw [Prod.mk.injEq] at h
        rw [← h.1]
        exact hacc
  | f + 1, arrBlob, index, acc, elems, idx => by
      intro hB hacc h
      unfold decodeArrayLoop at h
      by_cases hc : index < (arrBlob.length : Int)
      · rw [if_pos hc] at h
        cases ht : decodeType arrBlob index with
        | err e => rw [ht] at h; simp at h
        | diverge => rw [ht] at h; simp at h
        | ok typ =>
            rw [ht] at h
            simp only [DR.monad_bind_eq_bind, DR.bind_ok] at h
            cases hv : decodeValueAt f arrBlob index typ with
            | err e => rw [hv] at h; simp at h
            | diverge => rw [hv] at h; simp at h
            | ok p =>
                obtain ⟨v, index'⟩ := p
                rw [hv] at h
                simp only [DR.bind_ok] at h
                exact decodeArrayLoop_valid f arrBlob index' (acc.push v) elems idx hB
                  (ValidList_push v (decodeValueAt_valid f arrBlob index typ v index' hB hv)
                    acc hacc) h
      · rw [if_neg hc] at h
        injection h with h
        rw [Prod.mk.injEq] at h
        rw [← h.1]
        exact hacc

theorem decodeTree_valid : ∀ (fuel : Nat) (blob : List Nat) (offset : Int) (nested : Bool)
    (t : Entries) (off : Int), Bytes blob →
    decodeTree fuel blob offset nested = .ok (t, off) → ValidEntries t
  | 0, blob, offset, nested, t, off => by
      intro hB h
      unfold decodeTree at h
      cases h
  | f + 1, blob, offset, true, t, off => by
      intro hB h
      unfold decodeTree at h
      cases hi : decodeInteger blob offset 4 with
      | err e => rw [hi] at h; simp at h
      | diverge => rw [hi] at h; simp at h
      | ok p =>
          obtain ⟨treeSize, index⟩ := p
          rw [hi] at h
          simp only [DR.monad_bind_eq_bind, DR.bind_ok] at h
          cases hl : decodeTreeLoop f blob index (index + treeSize) [] .nil with
          | err e => rw [hl] at h; simp at h
          | diverge => rw [hl] at h; simp at h
          | ok q =>
              obtain ⟨t', finalIndex⟩ := q
              rw [hl] at h
              simp only [DR.bind_ok] at h
              by_cases hc : (blob.length : Int) < finalIndex
              · rw [if_pos hc] at h
                cases h
              · rw [if_neg hc] at h
                injection h with h
                rw [Prod.mk.injEq] at h
                rw [← h.1]
                exact decodeTreeLoop_valid f blob index (index + treeSize) [] .nil t'
                  finalIndex hB trivial (by intro k hk; cases hk) hl
  | f + 1, blob, offset, false, t, off => by
      intro hB h
      unfold decodeTree at h
      cases hl : decodeTreeLoop f blob 0 (blob.length : Int) [] .nil with
      | err e => rw [hl] at h; simp at h
      | diverge => rw [hl] at h; simp at h
      | ok q =>
          obtain ⟨t', finalIndex⟩ := q
          rw [hl] at h
          simp only [DR.monad_bind_eq_bind, DR.bind_ok] at h
          by_cases hc : (blob.length : Int) < finalIndex
          · rw [if_pos hc] at h
            cases h
          · rw [if_neg hc] at h
            injection h with h
            rw [Prod.mk.injEq] at h
            rw [← h.1]
            exact decodeTreeLoop_valid f blob 0 (blob.length : Int) [] .nil t'
              finalIndex hB trivial (by intro k hk; cases hk) hl

/-- The pair loop preserves validity: every decoded key is in range and
unique (the enforced strict ascending order makes reoccurrence
impossible), every decoded value valid. -/
theorem decodeTreeLoop_valid : ∀ (fuel : Nat) (blob : List Nat) (index endOffset : Int)
    (lastKey : List Nat) (acc t : Entries) (finalIndex : Int), Bytes blob →
    ValidEntries acc → (∀ k ∈ acc.keys, keyCompare k lastKey = true ∨ k = lastKey) →
    decodeTreeLoop fuel blob index endOffset lastKey acc = .ok (t, finalIndex) →
    ValidEntries t
  | 0, blob, index, endOffset, lastKey, acc, t, finalIndex => by
      intro hB hacc hprev h
      unfold decodeTreeLoop at h
      by_cases hc : index < endOffset
      · rw [if_pos hc] at h
        cases h
      · rw [if_neg hc] at h
        injection h with h
        rw [Prod.mk.injEq] at h
        rw [← h.1]
        exact hacc
  | f + 1, blob, index, endOffset, lastKey, acc, t, finalIndex => by
      intro hB hacc hprev h
      unfold decodeTreeLoop at h
      by_cases hc : index < endOffset
      · rw [if_pos hc] at h
        cases hk : decodeKey blob index with
        | err e => rw [hk] at h; simp at h
        | diverge => rw [hk] at h; simp at h
        | ok p =>
            obtain ⟨key, index1⟩ := p
            rw [hk] at h
            simp only [DR.monad_bind_eq_bind, DR.bind_ok] at h
            by_cases ho : keyCompare lastKey key = false
            · rw [if_pos ho] at h
              cases h
            · rw [if_neg ho] at h
              have hkc : keyCompare lastKey key = true := by
                cases hkcb : keyCompare lastKey key with
                | false => exact absurd hkcb ho
                | true => rfl
              cases ht : decodeType blob index1 with
              | err e => rw [ht] at h; simp at h
              | diverge => rw [ht] at h; simp at h
              | ok typ =>
                  rw [ht] at h
                  simp only [DR.bind_ok] at h
                  cases hv : decodeValueAt f blob index1 typ with
                  | err e => rw [hv] at h; simp at h
                  | diverge => rw [hv] at h; simp at h
                  | ok q =>
                      obtain ⟨v, index2⟩ := q
                      rw [hv] at h
                      simp only [DR.bind_ok] at h
                      obtain ⟨hkrange, hkB⟩ := decodeKey_ok_props blob index hB key index1 hk
                      have hnotmem : acc.lookup key = none := by
                        rw [lookup_eq_none_iff]
                        intro hmem
                        rcases hprev key hmem with hlt | heq
                        · rw [keyCompare_asymm lastKey key hkc] at hlt
                          cases hlt
                        · rw [heq] at hkc
                          rw [keyCompare_irrefl] at hkc
                          cases hkc
                      refine decodeTreeLoop_valid f blob index2 endOffset key
                        (acc.push key v) t finalIndex hB ?_ ?_ h
                      · exact ValidEntries_push acc key v hacc hkrange hkB
                          (decodeValueAt_valid f blob index1 typ v index2 hB hv) hnotmem
                      · intro k hkmem
                        rw [Entries.keys_push] at hkmem
                        rcases List.mem_append.mp hkmem with hm | hm
                        · rcases hprev k hm with hlt | heq
                          · exact Or.inl (keyCompare_trans k lastKey key hlt hkc)
                          · rw [heq]
                            exact Or.inl hkc
                        · simp only [List.mem_singleton] at hm
                          exact Or.inr hm
      · rw [if_neg hc] at h
        injection h with h
        rw [Prod.mk.injEq] at h
        rw [← h.1]
        exact hacc

end

/-- C10: whenever `NewABITObject` succeeds, the resulting document is
valid — every tree key has encoded byte length in 1–256 and occurs once,
every node carries one of the seven variants with an in-range payload —
and `ToByteArray` therefore succeeds on it. -/
theorem C10_decode_reencode (document : List Nat) (hB : Bytes document) (v : Val)
    (h : NewABITObject document = .ok v) :
    ValidVal v ∧ ∃ e, ToByteArray v = some e := by
  unfold NewABITObject at h
  by_cases hlen : 0 < document.length
  · rw [if_pos hlen] at h
    cases hd : decodeTree (newFuel document) document 0 false with
    | err e => rw [hd] at h; cases h
    | diverge => rw [hd] at h; cases h
    | ok p =>
        obtain ⟨t, off⟩ := p
        rw [hd] at h
        injection h with h
        have hval : ValidEntries t :=
          decodeTree_valid (newFuel document) document 0 false t off hB hd
        rw [← h]
        obtain ⟨e, he, -, -⟩ := ToByteArray_ok t hval
        refine ⟨?_, e, he⟩
        simp only [ValidVal]
        exact hval
  · rw [if_neg hlen] at h
    injection h with h
    rw [← h]
    obtain ⟨e, he, -, -⟩ := ToByteArray_ok .nil (by simp [ValidEntries])
    refine ⟨?_, e, he⟩
    simp [ValidVal, ValidEntries]

/-- Witness for C10 on the document `[0x00, 0x61, 0x00]`
(`{ "a" : null }`). -/
theorem C10_decode_reencode_witness :
    Bytes [0, 97, 0] ∧
    NewABITObject [0, 97, 0] = .ok (.vtree (.cons [97] .vnull .nil)) ∧
    ValidVal (.vtree (.cons [97] .vnull .nil)) ∧
    ∃ e, ToByteArray (.vtree (.cons [97] .vnull .nil)) = some e := by
  have hB : Bytes [0, 97, 0] := by unfold Bytes; decide
  have hd : NewABITObject [0, 97, 0] = .ok (.vtree (.cons [97] .vnull .nil)) := rfl
  have h := C10_decode_reencode [0, 97, 0] hB _ hd
  exact ⟨hB, hd, h.1, h.2⟩

/-! ## Claim C7 -/

theorem mem_toList_key : ∀ (a : Entries) (k : List Nat) (v : Val),
    (k, v) ∈ a.toList → k ∈ a.keys
  | .cons k0 v0 r, k, v, hm => by
      simp only [Entries.toList, List.mem_cons] at hm
      simp only [Entries.keys, List.mem_cons]
      rcases hm with hm | hm
      · rw [Prod.mk.injEq] at hm
        exact Or.inl hm.1
      · exact Or.inr (mem_toList_key r k v hm)

/-- With unique keys, pair membership is exactly a successful lookup. -/
theorem mem_toList_lookup : ∀ (a : Entries), a.keys.Nodup →
    ∀ (k : List Nat) (v : Val), ((k, v) ∈ a.toList ↔ a.lookup k = some v)
  | .nil, _, k, v => by simp [Entries.toList, Entries.lookup]
  | .cons k0 v0 r, hnd, k, v => by
      simp only [Entries.keys] at hnd
      rw [List.nodup_cons] at hnd
      simp only [Entries.toList, List.mem_cons, Entries.lookup]
      by_cases hk : k0 = k
      · subst hk
        rw [if_pos rfl]
        constructor
        · intro h
          rcases h with h | h
          · rw [Prod.mk.injEq] at h
            rw [h.2]
          · exact absurd (mem_toList_key r k0 v h) hnd.1
        · intro h
          injection h with h
          exact Or.inl (by rw [h])
      · rw [if_neg hk]
        constructor
        · intro h
          rcases h with h | h
          · rw [Prod.mk.injEq] at h
            exact absurd h.1.symm hk
          · exact (mem_toList_lookup r hnd.2 k v).mp h
        · intro h
          exact Or.inr ((mem_toList_lookup r hnd.2 k v).mpr h)

/-- Two canonically-chained key lists with the same members are equal. -/
theorem EChain_keys_eq : ∀ (e1 e2 : Entries) (low : List Nat),
    EChain low e1 → EChain low e2 →
    (∀ k, k ∈ e1.keys ↔ k ∈ e2.keys) → e1.keys = e2.keys
  | .nil, .nil, _, _, _, _ => rfl
  | .nil, .cons k2 v2 r2, _, _, _, hmem => by
      have := (hmem k2).mpr (by simp [Entries.keys])
      simp [Entries.keys] at this
  | .cons k1 v1 r1, .nil, _, _, _, hmem => by
      have := (hmem k1).mp (by simp [Entries.keys])
      simp [Entries.keys] at this
  | .cons k1 v1 r1, .cons k2 v2 r2, low, hch1, hch2, hmem => by
      simp only [EChain] at hch1 hch2
      have hkk : k1 = k2 := by
        by_contra hne
        have hm1 : k1 ∈ (Entries.cons k2 v2 r2).keys := (hmem k1).mp (by simp [Entries.keys])
        have hm2 : k2 ∈ (Entries.cons k1 v1 r1).keys := (hmem k2).mpr (by simp [Entries.keys])
        have hm1' : k1 ∈ r2.keys := by
          rcases List.mem_cons.mp hm1 with h | h
          · exact absurd h hne
          · exact h
        have hm2' : k2 ∈ r1.keys := by
          rcases List.mem_cons.mp hm2 with h | h
          · exact absurd h.symm hne
          · exact h
        have hc1 := EChain_mem r2 k2 hch2.2 k1 hm1'
        have hc2 := EChain_mem r1 k1 hch1.2 k2 hm2'
        rw [keyCompare_asymm k2 k1 hc1] at hc2
        cases hc2
      subst hkk
      have hrest : r1.keys = r2.keys := by
        refine EChain_keys_eq r1 r2 k1 hch1.2 hch2.2 ?_
        intro k
        constructor
        · intro hk
          have := (hmem k).mp (by simp [Entries.keys, hk])
          rcases List.mem_cons.mp this with h | h
          · subst h
            exact absurd hk (EChain_not_mem_self r1 k hch1.2)
          · exact h
        · intro hk
          have := (hmem k).mpr (by simp [Entries.keys, hk])
          rcases List.mem_cons.mp this with h | h
          · subst h
            exact absurd hk (EChain_not_mem_self r2 k hch2.2)
          · exact h
      simp only [Entries.keys, hrest]

mutual

/-- The Go match dispatch agrees with the specification's match
relation on valid documents: containers recurse, scalars by tag only. -/
theorem matchV_iff : ∀ (v1 v2 : Val), ValidVal v1 → ValidVal v2 →
    (matchV v1 v2 = true ↔ SpecMatch v1 v2)
  | .vnull, v2, _, _ => by
      cases v2 <;> simp [matchV, Val.tag] <;>
        first
        | exact SpecMatch.null
        | exact fun h => nomatch h
  | .vbool b1, v2, _, _ => by
      cases v2 <;> simp [matchV, Val.tag] <;>
        first
        | exact SpecMatch.bool _ _
        | exact fun h => nomatch h
  | .vint i1, v2, _, _ => by
      cases v2 <;> simp [matchV, Val.tag] <;>
        first
        | exact SpecMatch.int _ _
        | exact fun h => nomatch h
  | .vblob b1, v2, _, _ => by
      cases v2 <;> simp [matchV, Val.tag] <;>
        first
        | exact SpecMatch.blob _ _
        | exact fun h => nomatch h
  | .vstr b1, v2, _, _ => by
      cases v2 <;> simp [matchV, Val.tag] <;>
        first
        | exact SpecMatch.str _ _
        | exact fun h => nomatch h
  | .varr a, v2, h1, h2 => by
      cases v2 with
      | varr b =>
          simp only [ValidVal] at h1 h2
          simp only [matchV]
          rw [matchArrayL_iff a b h1 h2]
          constructor
          · rintro ⟨hlen, hpt⟩
            exact SpecMatch.arr a b hlen hpt
          · intro h
            cases h with
            | arr _ _ hlen hpt => exact ⟨hlen, hpt⟩
      | vnull => simp [matchV, Val.tag]; exact fun h => nomatch h
      | vbool b => simp [matchV, Val.tag]; exact fun h => nomatch h
      | vint i => simp [matchV, Val.tag]; exact fun h => nomatch h
      | vblob bs => simp [matchV, Val.tag]; exact fun h => nomatch h
      | vstr bs => simp [matchV, Val.tag]; exact fun h => nomatch h
      | vtree t => simp [matchV, Val.tag]; exact fun h => nomatch h
  | .vtree a, v2, h1, h2 => by
      cases v2 with
      | vtree b =>
          simp only [ValidVal] at h1 h2
          simp only [matchV]
          rw [matchTreeE_iff a b h1 h2]
          constructor
          · rintro ⟨hkeys, hvals⟩
            exact SpecMatch.tree a b hkeys hvals
          · intro h
            cases h with
            | tree _ _ hkeys hvals => exact ⟨hkeys, hvals⟩
      | vnull => simp [matchV, Val.tag]; exact fun h => nomatch h
      | vbool b => simp [matchV, Val.tag]; exact fun h => nomatch h
      | vint i => simp [matchV, Val.tag]; exact fun h => nomatch h
      | vblob bs => simp [matchV, Val.tag]; exact fun h => nomatch h
      | vstr bs => simp [matchV, Val.tag]; exact fun h => nomatch h
      | varr c => simp [matchV, Val.tag]; exact fun h => nomatch h
termination_by v1 v2 h1 h2 => (sizeOf v1, 0)
decreasing_by
  · exact Prod.Lex.left _ _ (by simp_arith)
  · exact Prod.Lex.left _ _ (by simp_arith)

theorem matchArrayL_iff : ∀ (a b : ValList), ValidList a → ValidList b →
    (matchArrayL a b = true ↔
      (a.toList.length = b.toList.length ∧
        ∀ (i : Nat) v1 v2, a.toList[i]? = some v1 → b.toList[i]? = some v2 →
          SpecMatch v1 v2))
  | .nil, .nil, _, _ => by simp [matchArrayL, ValList.toList]
  | .nil, .cons w2 r2, _, _ => by simp [matchArrayL, ValList.toList]
  | .cons w1 r1, .nil, _, _ => by simp [matchArrayL, ValList.toList]
  | .cons w1 r1, .cons w2 r2, h1, h2 => by
      simp only [ValidList] at h1 h2
      simp only [matchArrayL, Bool.and_eq_true]
      rw [matchV_iff w1 w2 h1.1 h2.1, matchArrayL_iff r1 r2 h1.2 h2.2]
      constructor
      · rintro ⟨hv, hlen, hpt⟩
        refine ⟨by simp [ValList.toList, hlen], ?_⟩
        intro i x1 x2 hx1 hx2
        cases i with
        | zero =>
            simp only [ValList.toList, List.getElem?_cons_zero, Option.some.injEq] at hx1 hx2
            rw [← hx1, ← hx2]
            exact hv
        | succ j =>
            simp only [ValList.toList, List.getElem?_cons_succ] at hx1 hx2
            exact hpt j x1 x2 hx1 hx2
      · rintro ⟨hlen, hpt⟩
        refine ⟨hpt 0 w1 w2 (by simp [ValList.toList]) (by simp [ValList.toList]), ?_, ?_⟩
        · simpa [ValList.toList] using hlen
        · intro j x1 x2 hx1 hx2
          exact hpt (j + 1) x1 x2 (by simpa [ValList.toList] using hx1)
            (by simpa [ValList.toList] using hx2)
termination_by a b h1 h2 => (sizeOf a, 0)
decreasing_by
  · exact Prod.Lex.left _ _ (by simp_arith)
  · exact Prod.Lex.left _ _ (by simp_arith)

/-- The per-pair loop of the Go tree matcher: every pair of the lexicon
has a matching value under the same key in the document. -/
theorem matchEntriesIn_iff : ∀ (a b : Entries), ValidEntries a → ValidEntries b →
    (matchEntriesIn a b = true ↔
      ∀ (k : List Nat) (v : Val), (k, v) ∈ a.toList →
        ∃ w, b.lookup k = some w ∧ SpecMatch v w)
  | .nil, b, _, _ => by simp [matchEntriesIn, Entries.toList]
  | .cons k0 v0 r, b, ha, hb => by
      simp only [ValidEntries] at ha
      simp only [matchEntriesIn, Bool.and_eq_true]
      rw [matchEntriesIn_iff r b ha.2.2.2.2 hb]
      cases hlk : b.lookup k0 with
      | none =>
          constructor
          · rintro ⟨hfalse, -⟩
            cases hfalse
          · intro h
            obtain ⟨w, hw, -⟩ := h k0 v0 (by simp [Entries.toList])
            rw [hlk] at hw
            cases hw
      | some w0 =>
          have hw0 : ValidVal w0 := lookup_valid b hb k0 w0 hlk
          have hiff := matchV_iff v0 w0 ha.2.2.2.1 hw0
          constructor
          · rintro ⟨hm, hrest⟩ k v hkv
            rcases (by simpa [Entries.toList] using hkv :
                (k = k0 ∧ v = v0) ∨ (k, v) ∈ r.toList) with ⟨hk, hv⟩ | hmem
            · rw [hk, hv]
              exact ⟨w0, hlk, hiff.mp hm⟩
            · exact hrest k v hmem
          · intro h
            refine ⟨?_, fun k v hm => h k v (by simp [Entries.toList, hm])⟩
            obtain ⟨w, hw, hsw⟩ := h k0 v0 (by simp [Entries.toList])
            rw [hlk] at hw
            injection hw with hw
            rw [← hw] at hsw
            show matchV v0 w0 = true
            exact hiff.mpr hsw
termination_by a b h1 h2 => (sizeOf a, 0)
decreasing_by
  · exact Prod.Lex.left _ _ (by simp_arith)
  · exact Prod.Lex.left _ _ (by simp_arith)

/-- The Go tree matcher agrees with the specification's tree match:
identical key sets (compared as canonically sorted key lists) and a
matching value for every key. -/
theorem matchTreeE_iff : ∀ (a b : Entries), ValidEntries a → ValidEntries b →
    (matchTreeE a b = true ↔
      ((∀ k, (a.lookup k).isSome ↔ (b.lookup k).isSome) ∧
        (∀ k v1 v2, a.lookup k = some v1 → b.lookup k = some v2 → SpecMatch v1 v2)))
  | a, b, ha, hb => by
      have hnda := ValidEntries_nodup a ha
      have hndb := ValidEntries_nodup b hb
      simp only [matchTreeE, Bool.and_eq_true, beq_iff_eq]
      rw [matchEntriesIn_iff a b ha hb]
      constructor
      · rintro ⟨hlen, hkeys, hin⟩
        have hkiff : ∀ k, (a.lookup k).isSome ↔ (b.lookup k).isSome := by
          intro k
          rw [lookup_isSome_iff_mem, lookup_isSome_iff_mem,
            ← (keys_sortEntries_perm a).mem_iff, ← (keys_sortEntries_perm b).mem_iff, hkeys]
        refine ⟨hkiff, ?_⟩
        intro k v1 v2 hv1 hv2
        obtain ⟨w, hw, hsw⟩ := hin k v1 ((mem_toList_lookup a hnda k v1).mpr hv1)
        rw [hv2] at hw
        injection hw with hw
        rw [← hw] at hsw
        exact hsw
      · rintro ⟨hkiff, hvals⟩
        have hkeys : (sortEntries a).keys = (sortEntries b).keys := by
          refine EChain_keys_eq (sortEntries a) (sortEntries b) []
            (EChain_sortEntries a ha) (EChain_sortEntries b hb) ?_
          intro k
          rw [(keys_sortEntries_perm a).mem_iff, (keys_sortEntries_perm b).mem_iff,
            ← lookup_isSome_iff_mem, ← lookup_isSome_iff_mem]
          exact hkiff k
        refine ⟨?_, hkeys, ?_⟩
        · have h1 := congrArg List.length hkeys
          rw [(keys_sortEntries_perm a).length_eq, (keys_sortEntries_perm b).length_eq,
            keys_eq_map_fst, keys_eq_map_fst] at h1
          simpa using h1
        · intro k v hkv
          have hl1 : a.lookup k = some v := (mem_toList_lookup a hnda k v).mp hkv
          have hsome : (b.lookup k).isSome := (hkiff k).mp (by rw [hl1]; rfl)
          obtain ⟨w, hw⟩ := Option.isSome_iff_exists.mp hsome
          exact ⟨w, hw, hvals k v w hl1 hw⟩
termination_by a b h1 h2 => (sizeOf a, 1)
decreasing_by
  exact Prod.Lex.right _ (by omega)

end

/-- C7: on valid trees, `Matches(lexicon, document)` is true exactly
when the specification's recursive match relation holds: trees have
identical key sets with, for every key, matching values; arrays match
positionally with equal lengths; scalar leaves are compared by variant
tag only, never by value. -/
theorem C7_matches_iff (lexicon doc : Entries)
    (hl : ValidEntries lexicon) (hd : ValidEntries doc) :
    (Matches lexicon doc = true ↔ SpecMatch (.vtree lexicon) (.vtree doc)) := by
  unfold Matches
  rw [matchTreeE_iff lexicon doc hl hd]
  constructor
  · rintro ⟨hkeys, hvals⟩
    exact SpecMatch.tree lexicon doc hkeys hvals
  · intro h
    cases h with
    | tree _ _ hkeys hvals => exact ⟨hkeys, hvals⟩

/-- Witness for C7: the lexicon `{ "a" : int 0 }` matches the document
`{ "a" : int 42 }` — integers match by tag regardless of magnitude. -/
theorem C7_matches_iff_witness :
    ValidEntries (.cons [97] (.vint 0) .nil) ∧
    ValidEntries (.cons [97] (.vint 42) .nil) ∧
    Matches (.cons [97] (.vint 0) .nil) (.cons [97] (.vint 42) .nil) = true ∧
    SpecMatch (.vtree (.cons [97] (.vint 0) .nil))
      (.vtree (.cons [97] (.vint 42) .nil)) := by
  have h1 : ValidEntries (.cons [97] (.vint 0) .nil) := by
    simp only [ValidEntries, ValidVal]
    exact ⟨⟨by decide, by decide⟩, by unfold Bytes; decide, rfl,
      ⟨by decide, by decide⟩, trivial⟩
  have h2 : ValidEntries (.cons [97] (.vint 42) .nil) := by
    simp only [ValidEntries, ValidVal]
    exact ⟨⟨by decide, by decide⟩, by unfold Bytes; decide, rfl,
      ⟨by decide, by decide⟩, trivial⟩
  have hs : SpecMatch (.vtree (.cons [97] (.vint 0) .nil))
      (.vtree (.cons [97] (.vint 42) .nil)) := by
    refine SpecMatch.tree _ _ ?_ ?_
    · intro k
      by_cases hk : [97] = k <;> simp [Entries.lookup, hk]
    · intro k v1 v2 hv1 hv2
      simp only [Entries.lookup] at hv1 hv2
      by_cases hk : [97] = k
      · rw [if_pos hk] at hv1 hv2
        injection hv1 with hv1
        injection hv2 with hv2
        rw [← hv1, ← hv2]
        exact SpecMatch.int 0 42
      · rw [if_neg hk] at hv1
        simp [Entries.lookup] at hv1
  exact ⟨h1, h2, (C7_matches_iff _ _ h1 h2).mpr hs, hs⟩

/-! ## Claim C4 -/

theorem DR.bind_eq_ok {α β : Type} (x : DR α) (f : α → DR β) (b : β)
    (h : DR.bind x f = .ok b) : ∃ a, x = .ok a ∧ f a = .ok b := by
  cases x with
  | ok a => exact ⟨a, rfl, h⟩
  | err e => cases h
  | diverge => cases h

/-- Whatever the fuel, a successful decode of an embedded encoded value
ends exactly at the encoding's end: the consumed span is determined by
the length and size fields alone. -/
theorem decode_exact_offset (v : Val) (ev : List Nat) (hval : ValidVal v)
    (hsmall : SmallVal v) (he : encodeValue v = some ev)
    (pre suf : List Nat) (hB : Bytes (pre ++ (ev ++ suf))) :
    ∀ (fuel : Nat) (v' : Val) (off : Int),
      decodeValueAt fuel (pre ++ (ev ++ suf)) (pre.length : Int) (Val.tag v) =
        .ok (v', off) →
      off = (pre.length : Int) + (ev.length : Int) := by
  intro fuel v' off h
  cases fuel with
  | zero =>
      unfold decodeValueAt at h
      cases h
  | succ f =>
      cases v with
      | vnull =>
          simp only [encodeValue, Option.some.injEq] at he
          subst he
          simp only [encodeNull, List.singleton_append, Val.tag, decodeValueAt,
            decodeNull, byteAt_head pre 0 suf] at h
          rw [if_neg (by simp only [List.length_append, List.length_cons]; push_cast; omega),
            if_neg (by decide)] at h
          simp only [DR.monad_bind_eq_bind, DR.bind_ok] at h
          injection h with h
          rw [Prod.mk.injEq] at h
          simp only [encodeNull, List.length_cons, List.length_nil]
          push_cast
          omega
      | vbool b =>
          simp only [encodeValue, Option.some.injEq] at he
          subst he
          cases b <;>
            · simp only [encodeBoolean, if_true, if_false, Bool.false_eq_true,
                List.singleton_append, Val.tag, decodeValueAt, decodeBoolean,
                byteAt_head] at h
              rw [if_neg (by simp only [List.length_append, List.length_cons]; push_cast; omega)] at h
              simp only [DR.monad_bind_eq_bind, DR.bind_ok, reduceIte] at h
              injection h with h
              rw [Prod.mk.injEq] at h
              simp only [encodeBoolean, if_true, if_false, Bool.false_eq_true,
                List.length_cons, List.length_nil]
              push_cast
              omega
      | vint i =>
          simp only [encodeValue, Option.some.injEq] at he
          subst he
          simp only [ValidVal] at hval
          simp only [Val.tag, decodeValueAt] at h
          rw [decodeInteger_encodeInteger pre suf i 0b0010 hval 8 (intByteCount_le8 i)
            (le_refl 8) hB] at h
          simp only [DR.monad_bind_eq_bind, DR.bind_ok] at h
          injection h with h
          rw [Prod.mk.injEq] at h
          rw [← h.2, encodeInteger_length]
          push_cast
          omega
      | vblob bs =>
          simp only [encodeValue, Option.some.injEq] at he
          subst he
          simp only [SmallVal] at hsmall
          simp only [Val.tag, decodeValueAt] at h
          rw [decodeBlob_encodeBlob pre bs suf 0b0011 hB hsmall] at h
          simp only [DR.monad_bind_eq_bind, DR.bind_ok] at h
          injection h with h
          rw [Prod.mk.injEq] at h
          exact h.2.symm
      | vstr bs =>
          simp only [encodeValue, encodeString, Option.some.injEq] at he
          subst he
          simp only [SmallVal] at hsmall
          simp only [Val.tag, decodeValueAt, decodeString] at h
          rw [decodeBlob_encodeBlob pre bs suf 0b0100 hB hsmall] at h
          simp only [DR.monad_bind_eq_bind, DR.bind_ok] at h
          injection h with h
          rw [Prod.mk.injEq] at h
          exact h.2.symm
      | varr a =>
          simp only [encodeValue] at he
          cases hp : encodeList a with
          | none => rw [hp] at he; cases he
          | some p =>
              rw [hp] at he
              simp only [Option.bind_eq_bind, Option.some_bind, Option.some.injEq] at he
              subst he
              simp only [SmallVal] at hsmall
              cases f with
              | zero =>
                  simp only [Val.tag, decodeValueAt, decodeArray] at h
                  cases h
              | succ g =>
                  simp only [Val.tag, decodeValueAt, decodeArray] at h
                  rw [decodeBlob_encodeBlob pre p suf 0b0101 hB (by
                    obtain ⟨p', hp', hplen, -⟩ := encodeList_props a
                      (by simpa [ValidVal] using hval)
                    rw [hp] at hp'
                    injection hp' with hp'
                    subst hp'
                    omega)] at h
                  simp only [DR.monad_bind_eq_bind, DR.bind_ok] at h
                  obtain ⟨⟨elems, idx⟩, hl, h⟩ := DR.bind_eq_ok _ _ _ h
                  by_cases hc : (p.length : Int) < idx
                  · rw [if_pos hc] at h
                    cases h
                  · rw [if_neg hc] at h
                    injection h with h
                    rw [Prod.mk.injEq] at h
                    exact h.2.symm
      | vtree t =>
          simp only [encodeValue, encodeTree] at he
          cases hp : encodeEntries (sortEntries t) with
          | none => rw [hp] at he; cases he
          | some p =>
              rw [hp] at he
              simp only [Option.bind_eq_bind, Option.some_bind, if_true,
                Option.some.injEq] at he
              subst he
              simp only [SmallVal] at hsmall
              obtain ⟨p', hp', hplen, -⟩ := encodeEntries_props (sortEntries t)
                (EntriesAll_sortEntries validPair t (ValidEntries_all t
                  (by simpa [ValidVal] using hval)))
              rw [hp] at hp'
              injection hp' with hp'
              subst hp'
              rw [encLenE_sortEntries] at hplen
              have hbc : intByteCount (p.length : Int) ≤ 4 := by
                unfold intByteCount
                split_ifs <;> omega
              cases f with
              | zero =>
                  simp only [Val.tag, decodeValueAt, decodeTree] at h
                  cases h
              | succ g =>
                  simp only [Val.tag, decodeValueAt, decodeTree, if_true] at h
                  have hre : encodeBlob p 0b0110 ++ suf =
                      encodeInteger (p.length : Int) 0b0110 ++ (p ++ suf) := by
                    simp [encodeBlob]
                  rw [hre] at h
                  rw [decodeInteger_encodeInteger pre (p ++ suf) (p.length : Int) 0b0110
                    (by constructor <;> omega) 4 hbc (by omega)
                    (by rw [← hre]; exact hB)] at h
                  simp only [DR.monad_bind_eq_bind, DR.bind_ok] at h
                  obtain ⟨⟨t', fi⟩, hl, h⟩ := DR.bind_eq_ok _ _ _ h
                  obtain ⟨⟨t2, fi2⟩, hloop, hif⟩ := DR.bind_eq_ok _ _ _ hl
                  by_cases hc : ((pre ++ (encodeInteger (p.length : Int) 0b0110 ++
                      (p ++ suf))).length : Int) < fi2
                  · rw [if_pos hc] at hif
                    cases hif
                  · rw [if_neg hc] at hif
                    injection hif with hif
                    rw [Prod.mk.injEq] at hif
                    obtain ⟨-, hfi⟩ := hif
                    injection h with h
                    rw [Prod.mk.injEq] at h
                    obtain ⟨-, hoff⟩ := h
                    rw [← hoff, ← hfi]
                    have helen2 : ((encodeBlob p 0b0110).length : Int) =
                        1 + (intByteCount (p.length : Int) : Int) + (p.length : Int) := by
                      simp only [encodeBlob, List.length_append, encodeInteger_length]
                      push_cast
                      omega
                    rw [helen2]
                    ring

/-- A minimally cut integer field (its final byte removed) fails the
decoder's presence check. -/
theorem decodeInteger_prefix_err (pre : List Nat) (v : Int) (t : Nat) (maxSize : Nat)
    (hms : intByteCount v ≤ maxSize) :
    decodeInteger (pre ++ (encodeInteger v t).dropLast) (pre.length : Int) maxSize =
      .err .intOutOfBounds := by
  have hc1 := intByteCount_pos v
  have hbody : ((List.range (intByteCount v)).map (leByte ((v % (2 ^ 64 : Int)).toNat))) ≠
      [] :=
    List.length_pos.mp (by simpa using hc1)
  rw [encodeInteger_cons, List.dropLast_cons_of_ne_nil hbody]
  unfold decodeInteger
  rw [show byteAt (pre ++ (16 * (intByteCount v - 1) + t % 16) ::
      ((List.range (intByteCount v)).map (leByte ((v % (2 ^ 64 : Int)).toNat))).dropLast)
      (pre.length : Int) = 16 * (intByteCount v - 1) + t % 16 from byteAt_head pre _ _]
  rw [if_neg (by simp only [List.length_append, List.length_cons]; push_cast; omega)]
  have hsz : (16 * (intByteCount v - 1) + t % 16) / 16 + 1 = intByteCount v := by
    have ht : t % 16 < 16 := Nat.mod_lt _ (by norm_num)
    omega
  rw [hsz]
  rw [if_neg (by omega)]
  rw [if_pos (by
    simp only [List.length_append, List.length_cons, List.length_dropLast,
      List.length_map, List.length_range]
    push_cast
    omega)]

/-- A length-prefixed payload cut by its final byte never decodes: the
cut hits either the length field (bounds error) or the payload
(declared length exceeds the buffer). -/
theorem decodeBlob_prefix_fail (pre bs : List Nat) (t : Nat) (hL : bs.length < 2 ^ 31)
    (hB : Bytes (pre ++ (encodeBlob bs t).dropLast)) :
    ∀ r : List Nat × Int,
      decodeBlob (pre ++ (encodeBlob bs t).dropLast) (pre.length : Int) ≠ .ok r := by
  intro r h
  have hc1 := intByteCount_pos ((bs.length : Nat) : Int)
  have hc4 : intByteCount ((bs.length : Nat) : Int) ≤ 4 := by
    unfold intByteCount
    split_ifs <;> omega
  cases bs with
  | nil =>
      simp only [encodeBlob, List.append_nil] at h
      unfold decodeBlob at h
      simp only [DR.monad_bind_eq_bind] at h
      obtain ⟨⟨L, off1⟩, hint, -⟩ := DR.bind_eq_ok _ _ _ h
      rw [decodeInteger_prefix_err pre _ t 4 hc4] at hint
      cases hint
  | cons b0 bs' =>
      have hdl : (encodeBlob (b0 :: bs') t).dropLast =
          encodeInteger (((b0 :: bs').length : Nat) : Int) t ++ (b0 :: bs').dropLast := by
        simp only [encodeBlob]
        rw [List.dropLast_append_of_ne_nil _ (by simp)]
      rw [hdl] at h hB
      unfold decodeBlob at h
      rw [decodeInteger_encodeInteger pre ((b0 :: bs').dropLast)
        (((b0 :: bs').length : Nat) : Int) t (by constructor <;> omega) 4
        hc4 (by omega) hB] at h
      simp only [DR.monad_bind_eq_bind, DR.bind_ok] at h
      rw [if_neg (by push_cast; omega)] at h
      rw [if_pos (by
        simp only [List.length_append, encodeInteger_length, List.length_dropLast_cons,
          List.length_cons]
        push_cast
        omega)] at h
      cases h

mutual

/-- Decoding an embedded encoded value whose final byte has been cut
off never succeeds, whatever the fuel. -/
theorem decode_prefix_fail : ∀ (v : Val) (ev : List Nat), ValidVal v → SmallVal v →
    encodeValue v = some ev →
    ∀ (pre : List Nat), Bytes (pre ++ ev.dropLast) →
    ∀ (fuel : Nat) (r : Val × Int),
      decodeValueAt fuel (pre ++ ev.dropLast) (pre.length : Int) (Val.tag v) ≠ .ok r
  | .vnull, ev, hval, hsmall, he => by
      intro pre hB fuel r h
      simp only [encodeValue, Option.some.injEq] at he
      subst he
      cases fuel with
      | zero => unfold decodeValueAt at h; cases h
      | succ f =>
          simp only [encodeNull, List.dropLast_single, List.append_nil, Val.tag,
            decodeValueAt, decodeNull] at h
          rw [if_pos (by omega)] at h
          simp only [DR.monad_bind_eq_bind, DR.bind_err] at h
          cases h
  | .vbool b, ev, hval, hsmall, he => by
      intro pre hB fuel r h
      simp only [encodeValue, Option.some.injEq] at he
      subst he
      cases fuel with
      | zero => unfold decodeValueAt at h; cases h
      | succ f =>
          cases b <;>
            · simp only [encodeBoolean, if_true, if_false, Bool.false_eq_true,
                List.dropLast_single, List.append_nil, Val.tag, decodeValueAt,
                decodeBoolean] at h
              rw [if_pos (by omega)] at h
              simp only [DR.monad_bind_eq_bind, DR.bind_err] at h
              cases h
  | .vint i, ev, hval, hsmall, he => by
      intro pre hB fuel r h
      simp only [encodeValue, Option.some.injEq] at he
      subst he
      cases fuel with
      | zero => unfold decodeValueAt at h; cases h
      | succ f =>
          simp only [Val.tag, decodeValueAt] at h
          rw [decodeInteger_prefix_err pre i 0b0010 8 (intByteCount_le8 i)] at h
          simp only [DR.monad_bind_eq_bind, DR.bind_err] at h
          cases h
  | .vblob bs, ev, hval, hsmall, he => by
      intro pre hB fuel r h
      simp only [encodeValue, Option.some.injEq] at he
      subst he
      simp only [SmallVal] at hsmall
      cases fuel with
      | zero => unfold decodeValueAt at h; cases h
      | succ f =>
          simp only [Val.tag, decodeValueAt] at h
          simp only [DR.monad_bind_eq_bind] at h
          obtain ⟨q, hq, -⟩ := DR.bind_eq_ok _ _ _ h
          exact decodeBlob_prefix_fail pre bs 0b0011 hsmall hB q hq
  | .vstr bs, ev, hval, hsmall, he => by
      intro pre hB fuel r h
      simp only [encodeValue, encodeString, Option.some.injEq] at he
      subst he
      simp only [SmallVal] at hsmall
      cases fuel with
      | zero => unfold decodeValueAt at h; cases h
      | succ f =>
          simp only [Val.tag, decodeValueAt, decodeString] at h
          simp only [DR.monad_bind_eq_bind] at h
          obtain ⟨q, hq, -⟩ := DR.bind_eq_ok _ _ _ h
          exact decodeBlob_prefix_fail pre bs 0b0100 hsmall hB q hq
  | .varr a, ev, hval, hsmall, he => by
      intro pre hB fuel r h
      simp only [encodeValue] at he
      cases hp : encodeList a with
      | none => rw [hp] at he; cases he
      | some p =>
          rw [hp] at he
          simp only [Option.bind_eq_bind, Option.some_bind, Option.some.injEq] at he
          subst he
          simp only [SmallVal] at hsmall
          obtain ⟨p', hp', hplen, -⟩ := encodeList_props a (by simpa [ValidVal] using hval)
          rw [hp] at hp'
          injection hp' with hp'
          subst hp'
          cases fuel with
          | zero => unfold decodeValueAt at h; cases h
          | succ f =>
              cases f with
              | zero =>
                  simp only [Val.tag, decodeValueAt, decodeArray] at h
                  cases h
              | succ g =>
                  simp only [Val.tag, decodeValueAt, decodeArray] at h
                  simp only [DR.monad_bind_eq_bind] at h
                  obtain ⟨q, hq, -⟩ := DR.bind_eq_ok _ _ _ h
                  exact decodeBlob_prefix_fail pre p 0b0101 (by omega) hB q hq
  | .vtree t, ev, hval, hsmall, he => by
      intro pre hB fuel r h
      simp only [encodeValue, encodeTree] at he
      cases hp : encodeEntries (sortEntries t) with
      | none => rw [hp] at he; cases he
      | some p =>
          rw [hp] at he
          simp only [Option.bind_eq_bind, Option.some_bind, if_true,
            Option.some.injEq] at he
          subst he
          simp only [SmallVal] at hsmall
          obtain ⟨p', hp', hplen, -⟩ := encodeEntries_props (sortEntries t)
            (EntriesAll_sortEntries validPair t (ValidEntries_all t
              (by simpa [ValidVal] using hval)))
          rw [hp] at hp'
          injection hp' with hp'
          subst hp'
          rw [encLenE_sortEntries] at hplen
          have hbc : intByteCount ((p.length : Nat) : Int) ≤ 4 := by
            unfold intByteCount
            split_ifs <;> omega
          cases fuel with
          | zero => unfold decodeValueAt at h; cases h
          | succ f =>
              cases f with
              | zero =>
                  simp only [Val.tag, decodeValueAt, decodeTree] at h
                  cases h
              | succ g =>
                  simp only [Val.tag, decodeValueAt, decodeTree, if_true] at h
                  cases hpe : p with
                  | nil =>
                      subst hpe
                      simp only [encodeBlob, List.append_nil] at h hB
                      simp only [DR.monad_bind_eq_bind] at h
                      obtain ⟨⟨td, offd⟩, hd, -⟩ := DR.bind_eq_ok _ _ _ h
                      obtain ⟨⟨L, off1⟩, hint, -⟩ := DR.bind_eq_ok _ _ _ hd
                      rw [decodeInteger_prefix_err pre _ 0b0110 4 hbc] at hint
                      cases hint
                  | cons q0 qs =>
                      have hdl : (encodeBlob p 0b0110).dropLast =
                          encodeInteger ((p.length : Nat) : Int) 0b0110 ++ p.dropLast := by
                        simp only [encodeBlob]
                        rw [List.dropLast_append_of_ne_nil _ (by rw [hpe]; simp)]
                      rw [hdl] at h hB
                      simp only [DR.monad_bind_eq_bind] at h
                      obtain ⟨⟨td, offd⟩, hd, -⟩ := DR.bind_eq_ok _ _ _ h
                      obtain ⟨⟨L, off1⟩, hint, h2⟩ := DR.bind_eq_ok _ _ _ hd
                      rw [decodeInteger_encodeInteger pre (p.dropLast)
                        ((p.length : Nat) : Int) 0b0110 (by constructor <;> omega) 4 hbc
                        (by omega) hB] at hint
                      injection hint with hint
                      rw [Prod.mk.injEq] at hint
                      obtain ⟨hL, hoff1⟩ := hint
                      subst hL
                      subst hoff1
                      obtain ⟨⟨t2, fi⟩, hloop, -⟩ := DR.bind_eq_ok _ _ _ h2
                      refine decode_prefix_fail_loop (sortEntries t) p
                        (EntriesAll_sortEntries validPair t (ValidEntries_all t
                          (by simpa [ValidVal] using hval)))
                        (SmallEntries_sortEntries t hsmall.2) hp (by rw [hpe]; simp)
                        (pre ++ encodeInteger ((p.length : Nat) : Int) 0b0110) [] .nil
                        ((pre.length : Int) + 1 + (intByteCount ((p.length : Nat) : Int) :
                          Int) + (p.length : Int))
                        ?_ (EChain_sortEntries t (by simpa [ValidVal] using hval)) ?_
                        g (t2, fi) ?_
                      · rw [← List.append_assoc] at hB
                        exact hB
                      · simp only [List.length_append, encodeInteger_length,
                          List.length_dropLast]
                        push_cast
                        omega
                      · rw [show (((pre ++ encodeInteger ((p.length : Nat) : Int)
                            0b0110).length : Nat) : Int) =
                            (pre.length : Int) + 1 +
                              (intByteCount ((p.length : Nat) : Int) : Int) from by
                          simp only [List.length_append, encodeInteger_length]
                          push_cast
                          omega]
                        rw [List.append_assoc]
                        exact hloop
termination_by v ev hval hsmall he => (sizeOf v, 0)
decreasing_by
  exact Prod.Lex.left _ _ (by simp_arith [sizeOf_sortEntries])

/-- The pair loop on a payload whose final byte has been cut off never
succeeds: the pairs before the cut are consumed exactly, and the cut
pair fails. -/
theorem decode_prefix_fail_loop : ∀ (t : Entries) (p : List Nat),
    EntriesAll validPair t → SmallEntries t → encodeEntries t = some p →
    1 ≤ p.length →
    ∀ (pre lastKey : List Nat) (acc : Entries) (endOffset : Int),
      Bytes (pre ++ p.dropLast) → EChain lastKey t →
      (pre.length : Int) + ((p.dropLast).length : Int) ≤ endOffset →
      ∀ (fuel : Nat) (r : Entries × Int),
        decodeTreeLoop fuel (pre ++ p.dropLast) (pre.length : Int) endOffset lastKey acc ≠
          .ok r
  | .nil, p, _, _, he, hp1 => by
      intro pre lastKey acc endOffset hB hch hend fuel r h
      simp only [encodeEntries, Option.some.injEq] at he
      subst he
      simp at hp1
  | .cons k v rest, p, hall, hsmall, he, hp1 => by
      intro pre lastKey acc endOffset hB hch hend fuel r h
      simp only [encodeEntries] at he
      obtain ⟨⟨hk1, hk2⟩, hkB, hvval⟩ := hall.1
      have hkb : encodeKey k = some ((k.length - 1) :: k) := by
        simp only [encodeKey]
        rw [if_neg (by omega), if_neg (by omega)]
      rw [hkb] at he
      simp only [Option.bind_eq_bind, Option.some_bind] at he
      cases hv : encodeValue v with
      | none => rw [hv] at he; cases he
      | some ev =>
          rw [hv] at he
          cases hr : encodeEntries rest with
          | none => rw [hr] at he; simp at he
          | some prest =>
              rw [hr] at he
              simp only [Option.some_bind, Option.some.injEq] at he
              subst he
              have hev1 : 1 ≤ ev.length := by
                obtain ⟨e', he', hlen', -⟩ := encodeValue_props v hvval
                rw [hv] at he'
                injection he' with he'
                subst he'
                rw [hlen']
                exact encLenV_pos v
              simp only [EChain] at hch
              have hin : (pre.length : Int) < endOffset := by
                have hcopy := hend
                simp only [List.length_dropLast, List.length_append,
                  List.length_cons] at hcopy
                push_cast at hcopy
                omega
              cases fuel with
              | zero =>
                  unfold decodeTreeLoop at h
                  rw [if_pos hin] at h
                  cases h
              | succ f =>
                  unfold decodeTreeLoop at h
                  rw [if_pos hin] at h
                  cases hpr : prest with
                  | nil =>
                      subst hpr
                      simp only [List.append_nil] at h hB hend
                      rw [List.dropLast_append_of_ne_nil _
                        (by intro hc; rw [hc] at hev1; simp at hev1)] at h hB hend
                      rw [decodeKey_encodeKey pre k ev.dropLast hk1 hk2] at h
                      simp only [DR.monad_bind_eq_bind, DR.bind_ok] at h
                      rw [if_neg (by rw [hch.1]; simp)] at h
                      by_cases hev2 : ev.length = 1
                      · have hevnil : ev.dropLast = [] := by
                          rw [← List.length_eq_zero, List.length_dropLast, hev2]
                        rw [hevnil, List.append_nil] at h
                        rw [show decodeType (pre ++ (k.length - 1) :: k)
                            ((pre.length : Int) + ((1 + k.length : Nat) : Int)) =
                            .err .typeExceeds from by
                          unfold decodeType
                          rw [if_pos (by
                            simp only [List.length_append, List.length_cons]
                            push_cast
                            omega)]] at h
                        simp only [DR.bind_err] at h
                        cases h
                      · obtain ⟨b, evrest, hbrest, hbtag⟩ := encodeValue_head v ev hv
                        have hevrest : evrest ≠ [] := by
                          intro hc
                          rw [hbrest, hc] at hev2
                          simp at hev2
                        rw [hbrest, List.dropLast_cons_of_ne_nil hevrest] at h hB
                        rw [← List.append_assoc] at h hB
                        rw [show (pre.length : Int) + ((1 + k.length : Nat) : Int) =
                            (((pre ++ (k.length - 1) :: k).length : Nat) : Int) from by
                          simp only [List.length_append, List.length_cons]
                          push_cast
                          omega] at h
                        rw [decodeType_at _ _ (by omega) (by
                          simp only [List.length_append, List.length_cons]
                          push_cast
                          omega)] at h
                        rw [byteAt_head (pre ++ (k.length - 1) :: k) b _, hbtag] at h
                        simp only [DR.bind_ok] at h
                        obtain ⟨q, hq, -⟩ := DR.bind_eq_ok _ _ _ h
                        rw [show (b :: evrest.dropLast) = ev.dropLast from by
                          rw [hbrest, List.dropLast_cons_of_ne_nil hevrest]] at hq hB
                        exact decode_prefix_fail v ev hvval hsmall.1 hv
                          (pre ++ (k.length - 1) :: k) hB f q hq
                  | cons r0 rs =>
                      have hprest : prest ≠ [] := by rw [hpr]; simp
                      rw [List.dropLast_append_of_ne_nil _ hprest] at h hB hend
                      rw [List.append_assoc] at h hB hend
                      rw [decodeKey_encodeKey pre k (ev ++ prest.dropLast) hk1 hk2] at h
                      simp only [DR.monad_bind_eq_bind, DR.bind_ok] at h
                      rw [if_neg (by rw [hch.1]; simp)] at h
                      obtain ⟨b, evrest, hbrest, hbtag⟩ := encodeValue_head v ev hv
                      rw [show (pre.length : Int) + ((1 + k.length : Nat) : Int) =
                          (((pre ++ (k.length - 1) :: k).length : Nat) : Int) from by
                        simp only [List.length_append, List.length_cons]
                        push_cast
                        omega] at h
                      rw [← List.append_assoc] at h hB
                      rw [decodeType_at _ _ (by omega) (by
                        simp only [List.length_append, List.length_cons,
                          List.length_dropLast]
                        push_cast
                        omega)] at h
                      rw [show byteAt ((pre ++ (k.length - 1) :: k) ++
                          (ev ++ prest.dropLast))
                          (((pre ++ (k.length - 1) :: k).length : Nat) : Int) = b from by
                        rw [hbrest, List.cons_append]
                        exact byteAt_head _ b _] at h
                      rw [hbtag] at h
                      simp only [DR.bind_ok] at h
                      obtain ⟨⟨v', idx2⟩, hq, h2⟩ := DR.bind_eq_ok _ _ _ h
                      have hidx2 := decode_exact_offset v ev hvval hsmall.1 hv
                        (pre ++ (k.length - 1) :: k) prest.dropLast hB f v' idx2 hq
                      rw [hidx2] at h2
                      rw [show (((pre ++ (k.length - 1) :: k).length : Nat) : Int) +
                          ((ev.length : Nat) : Int) =
                          ((((pre ++ (k.length - 1) :: k) ++ ev).length : Nat) : Int)
                          from by
                        simp only [List.length_append, List.length_cons]
                        push_cast
                        omega] at h2
                      rw [← List.append_assoc (pre ++ (k.length - 1) :: k) ev
                        prest.dropLast] at h2
                      exact decode_prefix_fail_loop rest prest hall.2 hsmall.2 hr
                        (by rw [hpr]; simp) ((pre ++ (k.length - 1) :: k) ++ ev) k
                        (acc.push k v') endOffset
                        (by rw [List.append_assoc]
                            exact hB)
                        hch.2
                        (by simp only [List.length_append, List.length_cons,
                              List.length_dropLast] at hend ⊢
                            push_cast at hend ⊢
                            omega)
                        f r h2
termination_by t p hall hsmall he hp1 => (sizeOf t, 0)
decreasing_by
  · exact Prod.Lex.left _ _ (by simp_arith)
  · exact Prod.Lex.left _ _ (by simp_arith)

end


/-- A byte count of at least `2^31` needs a length field of 5 or more
bytes. -/
theorem intByteCount_big (n : Nat) (h : 2 ^ 31 ≤ n) :
    5 ≤ intByteCount (n : Int) := by
  have h2 : (2 ^ 31 : Int) ≤ (n : Int) := by exact_mod_cast h
  unfold intByteCount
  split_ifs <;> omega

mutual

/-- A value that violates the payload bound has an encoding of at least
`2^31` bytes. -/
theorem bigVal_encLen : ∀ v : Val, ¬ SmallVal v → 2 ^ 31 ≤ encLenV v
  | .vnull, h => by simp only [SmallVal] at h; exact absurd trivial h
  | .vbool b, h => by simp only [SmallVal] at h; exact absurd trivial h
  | .vint i, h => by simp only [SmallVal] at h; exact absurd trivial h
  | .vblob bs, h => by
      simp only [SmallVal] at h
      push_neg at h
      simp only [encLenV]
      omega
  | .vstr bs, h => by
      simp only [SmallVal] at h
      push_neg at h
      simp only [encLenV]
      omega
  | .varr a, h => by
      simp only [SmallVal] at h
      simp only [encLenV]
      by_cases h1 : encLenL a < 2 ^ 31
      · have h2 := bigList_encLen a (fun hs => h ⟨h1, hs⟩)
        omega
      · omega
  | .vtree t, h => by
      simp only [SmallVal] at h
      simp only [encLenV]
      by_cases h1 : encLenE t < 2 ^ 31
      · have h2 := bigEntries_encLen t (fun hs => h ⟨h1, hs⟩)
        omega
      · omega

theorem bigList_encLen : ∀ a : ValList, ¬ SmallList a → 2 ^ 31 ≤ encLenL a
  | .nil, h => by simp only [SmallList] at h; exact absurd trivial h
  | .cons v r, h => by
      simp only [SmallList] at h
      simp only [encLenL]
      by_cases h1 : SmallVal v
      · have h2 := bigList_encLen r (fun hs => h ⟨h1, hs⟩)
        omega
      · have h2 := bigVal_encLen v h1
        omega

theorem bigEntries_encLen : ∀ t : Entries, ¬ SmallEntries t → 2 ^ 31 ≤ encLenE t
  | .nil, h => by simp only [SmallEntries] at h; exact absurd trivial h
  | .cons k v r, h => by
      simp only [SmallEntries] at h
      simp only [encLenE]
      by_cases h1 : SmallVal v
      · have h2 := bigEntries_encLen r (fun hs => h ⟨h1, hs⟩)
        omega
      · have h2 := bigVal_encLen v h1
        omega

end

/-- `decodeInteger` with the 4-byte cap rejects a size nibble of 4 or
more (field width 5 or more) with the too-big error. -/
theorem decodeInteger_toobig (blob : List Nat) (offset : Int) (c t : Nat)
    (hc5 : 5 ≤ c) (ht : t < 16)
    (hoff : 0 ≤ offset) (hlt : offset < (blob.length : Int))
    (hbyte : byteAt blob offset = 16 * (c - 1) + t) :
    decodeInteger blob offset 4 = .err .intTooBig := by
  unfold decodeInteger
  rw [hbyte]
  rw [if_neg (by omega)]
  have hsz : (16 * (c - 1) + t) / 16 + 1 = c := by omega
  rw [hsz]
  rw [if_pos (by omega)]

/-- Reading the length field of a length-prefixed encoding whose payload
has at least `2^31` bytes fails with the too-big error, whatever follows
the (possibly cut) encoding. -/
theorem decodeInteger_bigPayload_err (pre p suf : List Nat) (tg : Nat)
    (hp : 2 ^ 31 ≤ p.length) :
    decodeInteger (pre ++ ((encodeBlob p tg).dropLast ++ suf)) (pre.length : Int) 4 =
      .err .intTooBig := by
  have hc5 : 5 ≤ intByteCount ((p.length : Nat) : Int) := intByteCount_big p.length hp
  have hpne : p ≠ [] := by
    intro hc
    rw [hc] at hp
    simp at hp
  have hdl : (encodeBlob p tg).dropLast =
      (16 * (intByteCount ((p.length : Nat) : Int) - 1) + tg % 16) ::
        (((List.range (intByteCount ((p.length : Nat) : Int))).map
          (leByte ((((p.length : Nat) : Int) % 2 ^ 64).toNat)) ++ p).dropLast) := by
    simp only [encodeBlob, encodeInteger_cons, List.cons_append]
    rw [List.dropLast_cons_of_ne_nil (by simp [hpne])]
  rw [hdl, List.cons_append]
  exact decodeInteger_toobig _ _ (intByteCount ((p.length : Nat) : Int)) (tg % 16)
    hc5 (Nat.mod_lt _ (by norm_num)) (by omega)
    (by simp only [List.length_append, List.length_cons]; push_cast; omega)
    (byteAt_head pre _ _)

/-- Decoding at the start of the (possibly cut) embedded encoding of a
value that violates the payload bound never succeeds: the value is a
container whose length field is at least 5 bytes wide, so the decoder
rejects it before touching the payload. -/
theorem bigVal_prefix_err (v : Val) (ev : List Nat) (hval : ValidVal v)
    (hbig : ¬ SmallVal v) (he : encodeValue v = some ev) :
    ∀ (pre suf : List Nat) (fuel : Nat) (r : Val × Int),
      decodeValueAt fuel (pre ++ (ev.dropLast ++ suf)) (pre.length : Int)
        (Val.tag v) ≠ .ok r := by
  intro pre suf fuel r h
  cases fuel with
  | zero => unfold decodeValueAt at h; cases h
  | succ f =>
      cases v with
      | vnull => simp only [SmallVal] at hbig; exact absurd trivial hbig
      | vbool b => simp only [SmallVal] at hbig; exact absurd trivial hbig
      | vint i => simp only [SmallVal] at hbig; exact absurd trivial hbig
      | vblob bs =>
          simp only [SmallVal] at hbig
          push_neg at hbig
          simp only [encodeValue, Option.some.injEq] at he
          subst he
          simp only [Val.tag, decodeValueAt, DR.monad_bind_eq_bind] at h
          obtain ⟨q, hq, -⟩ := DR.bind_eq_ok _ _ _ h
          unfold decodeBlob at hq
          simp only [DR.monad_bind_eq_bind] at hq
          obtain ⟨q2, hq2, -⟩ := DR.bind_eq_ok _ _ _ hq
          rw [decodeInteger_bigPayload_err pre bs suf 3 hbig] at hq2
          cases hq2
      | vstr bs =>
          simp only [SmallVal] at hbig
          push_neg at hbig
          simp only [encodeValue, encodeString, Option.some.injEq] at he
          subst he
          simp only [Val.tag, decodeValueAt, DR.monad_bind_eq_bind] at h
          obtain ⟨q, hq, -⟩ := DR.bind_eq_ok _ _ _ h
          unfold decodeString at hq
          unfold decodeBlob at hq
          simp only [DR.monad_bind_eq_bind] at hq
          obtain ⟨q2, hq2, -⟩ := DR.bind_eq_ok _ _ _ hq
          rw [decodeInteger_bigPayload_err pre bs suf 4 hbig] at hq2
          cases hq2
      | varr a =>
          simp only [SmallVal] at hbig
          simp only [ValidVal] at hval
          obtain ⟨p, hp, hplen, -⟩ := encodeList_props a hval
          simp only [encodeValue, Option.bind_eq_bind] at he
          rw [hp] at he
          simp only [Option.some_bind, Option.some.injEq] at he
          subst he
          have hL : 2 ^ 31 ≤ p.length := by
            rw [hplen]
            by_cases h1 : encLenL a < 2 ^ 31
            · have h2 := bigList_encLen a (fun hs => hbig ⟨h1, hs⟩)
              omega
            · omega
          simp only [Val.tag, decodeValueAt] at h
          cases f with
          | zero => unfold decodeArray at h; cases h
          | succ f2 =>
              unfold decodeArray at h
              simp only [DR.monad_bind_eq_bind] at h
              obtain ⟨q, hq, -⟩ := DR.bind_eq_ok _ _ _ h
              unfold decodeBlob at hq
              simp only [DR.monad_bind_eq_bind] at hq
              obtain ⟨q2, hq2, -⟩ := DR.bind_eq_ok _ _ _ hq
              rw [decodeInteger_bigPayload_err pre p suf 5 hL] at hq2
              cases hq2
      | vtree t2 =>
          simp only [SmallVal] at hbig
          simp only [ValidVal] at hval
          obtain ⟨p, hp, hplen, -⟩ := encodeEntries_props (sortEntries t2)
            (EntriesAll_sortEntries validPair t2 (ValidEntries_all t2 hval))
          simp only [encodeValue, encodeTree] at he
          rw [hp] at he
          simp only [Option.bind_eq_bind, Option.some_bind, if_true,
            Option.some.injEq] at he
          subst he
          have hL : 2 ^ 31 ≤ p.length := by
            rw [hplen, encLenE_sortEntries]
            by_cases h1 : encLenE t2 < 2 ^ 31
            · have h2 := bigEntries_encLen t2 (fun hs => hbig ⟨h1, hs⟩)
              omega
            · omega
          simp only [Val.tag, decodeValueAt, DR.monad_bind_eq_bind] at h
          obtain ⟨q, hq, -⟩ := DR.bind_eq_ok _ _ _ h
          cases f with
          | zero => unfold decodeTree at hq; cases hq
          | succ f2 =>
              unfold decodeTree at hq
              rw [if_pos rfl] at hq
              simp only [DR.monad_bind_eq_bind] at hq
              obtain ⟨q2, hq2, -⟩ := DR.bind_eq_ok _ _ _ hq
              rw [decodeInteger_bigPayload_err pre p suf 6 hL] at hq2
              cases hq2

/-- As `bigVal_prefix_err`, for the intact (uncut) embedded encoding. -/
theorem bigVal_err (v : Val) (ev : List Nat) (hval : ValidVal v)
    (hbig : ¬ SmallVal v) (he : encodeValue v = some ev) :
    ∀ (pre suf : List Nat) (fuel : Nat) (r : Val × Int),
      decodeValueAt fuel (pre ++ (ev ++ suf)) (pre.length : Int) (Val.tag v) ≠
        .ok r := by
  intro pre suf fuel r
  obtain ⟨b, rest, hbr, -⟩ := encodeValue_head v ev he
  have hne : ev ≠ [] := by rw [hbr]; simp
  have h := bigVal_prefix_err v ev hval hbig he pre (ev.getLast hne :: suf) fuel r
  rw [show ev.dropLast ++ (ev.getLast hne :: suf) = ev ++ suf from by
    rw [← List.singleton_append, ← List.append_assoc,
      List.dropLast_append_getLast hne]] at h
  exact h

/-- The pair loop on a cut encoded pair sequence never succeeds, with no
payload bound on the values: a value within the bound decodes exactly (or
fails at the cut if it is the last), and a value beyond the bound is
rejected at its length field. -/
theorem decode_trunc_fail_loop : ∀ (t : Entries) (p : List Nat),
    EntriesAll validPair t → encodeEntries t = some p →
    1 ≤ p.length →
    ∀ (pre lastKey : List Nat) (acc : Entries) (endOffset : Int),
      Bytes (pre ++ p.dropLast) → EChain lastKey t →
      (pre.length : Int) + ((p.dropLast).length : Int) ≤ endOffset →
      ∀ (fuel : Nat) (r : Entries × Int),
        decodeTreeLoop fuel (pre ++ p.dropLast) (pre.length : Int) endOffset lastKey acc ≠
          .ok r
  | .nil, p, _, he, hp1 => by
      intro pre lastKey acc endOffset hB hch hend fuel r h
      simp only [encodeEntries, Option.some.injEq] at he
      subst he
      simp at hp1
  | .cons k v rest, p, hall, he, hp1 => by
      intro pre lastKey acc endOffset hB hch hend fuel r h
      simp only [encodeEntries] at he
      obtain ⟨⟨hk1, hk2⟩, hkB, hvval⟩ := hall.1
      have hkb : encodeKey k = some ((k.length - 1) :: k) := by
        simp only [encodeKey]
        rw [if_neg (by omega), if_neg (by omega)]
      rw [hkb] at he
      simp only [Option.bind_eq_bind, Option.some_bind] at he
      cases hv : encodeValue v with
      | none => rw [hv] at he; cases he
      | some ev =>
          rw [hv] at he
          cases hr : encodeEntries rest with
          | none => rw [hr] at he; simp at he
          | some prest =>
              rw [hr] at he
              simp only [Option.some_bind, Option.some.injEq] at he
              subst he
              have hev1 : 1 ≤ ev.length := by
                obtain ⟨e2, he2, hlen2, -⟩ := encodeValue_props v hvval
                rw [hv] at he2
                injection he2 with he2
                subst he2
                rw [hlen2]
                exact encLenV_pos v
              simp only [EChain] at hch
              have hin : (pre.length : Int) < endOffset := by
                have hcopy := hend
                simp only [List.length_dropLast, List.length_append,
                  List.length_cons] at hcopy
                push_cast at hcopy
                omega
              cases fuel with
              | zero =>
                  unfold decodeTreeLoop at h
                  rw [if_pos hin] at h
                  cases h
              | succ f =>
                  unfold decodeTreeLoop at h
                  rw [if_pos hin] at h
                  cases hpr : prest with
                  | nil =>
                      subst hpr
                      simp only [List.append_nil] at h hB hend
                      rw [List.dropLast_append_of_ne_nil _
                        (by intro hc; rw [hc] at hev1; simp at hev1)] at h hB hend
                      rw [decodeKey_encodeKey pre k ev.dropLast hk1 hk2] at h
                      simp only [DR.monad_bind_eq_bind, DR.bind_ok] at h
                      rw [if_neg (by rw [hch.1]; simp)] at h
                      by_cases hsv : SmallVal v
                      · by_cases hev2 : ev.length = 1
                        · have hevnil : ev.dropLast = [] := by
                            rw [← List.length_eq_zero, List.length_dropLast, hev2]
                          rw [hevnil, List.append_nil] at h
                          rw [show decodeType (pre ++ (k.length - 1) :: k)
                              ((pre.length : Int) + ((1 + k.length : Nat) : Int)) =
                              .err .typeExceeds from by
                            unfold decodeType
                            rw [if_pos (by
                              simp only [List.length_append, List.length_cons]
                              push_cast
                              omega)]] at h
                          simp only [DR.bind_err] at h
                          cases h
                        · obtain ⟨b, evrest, hbrest, hbtag⟩ := encodeValue_head v ev hv
                          have hevrest : evrest ≠ [] := by
                            intro hc
                            rw [hbrest, hc] at hev2
                            simp at hev2
                          rw [hbrest, List.dropLast_cons_of_ne_nil hevrest] at h hB
                          rw [← List.append_assoc] at h hB
                          rw [show (pre.length : Int) + ((1 + k.length : Nat) : Int) =
                              (((pre ++ (k.length - 1) :: k).length : Nat) : Int) from by
                            simp only [List.length_append, List.length_cons]
                            push_cast
                            omega] at h
                          rw [decodeType_at _ _ (by omega) (by
                            simp only [List.length_append, List.length_cons]
                            push_cast
                            omega)] at h
                          rw [byteAt_head (pre ++ (k.length - 1) :: k) b _, hbtag] at h
                          simp only [DR.bind_ok] at h
                          obtain ⟨q, hq, -⟩ := DR.bind_eq_ok _ _ _ h
                          rw [show (b :: evrest.dropLast) = ev.dropLast from by
                            rw [hbrest, List.dropLast_cons_of_ne_nil hevrest]] at hq hB
                          exact decode_prefix_fail v ev hvval hsv hv
                            (pre ++ (k.length - 1) :: k) hB f q hq
                      · have hevlen : ev.length = encLenV v := by
                          obtain ⟨e2, he2, hlen2, -⟩ := encodeValue_props v hvval
                          rw [hv] at he2
                          injection he2 with he2
                          subst he2
                          exact hlen2
                        have hevbig : 2 ^ 31 ≤ ev.length := by
                          rw [hevlen]
                          exact bigVal_encLen v hsv
                        obtain ⟨b, evrest, hbrest, hbtag⟩ := encodeValue_head v ev hv
                        have hevrest : evrest ≠ [] := by
                          intro hc
                          rw [hbrest, hc] at hevbig
                          simp only [List.length_cons, List.length_nil] at hevbig
                          omega
                        rw [hbrest, List.dropLast_cons_of_ne_nil hevrest] at h hB
                        rw [← List.append_assoc] at h hB
                        rw [show (pre.length : Int) + ((1 + k.length : Nat) : Int) =
                            (((pre ++ (k.length - 1) :: k).length : Nat) : Int) from by
                          simp only [List.length_append, List.length_cons]
                          push_cast
                          omega] at h
                        rw [decodeType_at _ _ (by omega) (by
                          simp only [List.length_append, List.length_cons]
                          push_cast
                          omega)] at h
                        rw [byteAt_head (pre ++ (k.length - 1) :: k) b _, hbtag] at h
                        simp only [DR.bind_ok] at h
                        obtain ⟨q, hq, -⟩ := DR.bind_eq_ok _ _ _ h
                        rw [show (b :: evrest.dropLast) = ev.dropLast from by
                          rw [hbrest, List.dropLast_cons_of_ne_nil hevrest]] at hq
                        rw [show (pre ++ (k.length - 1) :: k) ++ ev.dropLast =
                            (pre ++ (k.length - 1) :: k) ++ (ev.dropLast ++ []) from by
                          rw [List.append_nil]] at hq
                        exact bigVal_prefix_err v ev hvval hsv hv
                          (pre ++ (k.length - 1) :: k) [] f q hq
                  | cons r0 rs =>
                      have hprest : prest ≠ [] := by rw [hpr]; simp
                      rw [List.dropLast_append_of_ne_nil _ hprest] at h hB hend
                      rw [List.append_assoc] at h hB hend
                      rw [decodeKey_encodeKey pre k (ev ++ prest.dropLast) hk1 hk2] at h
                      simp only [DR.monad_bind_eq_bind, DR.bind_ok] at h
                      rw [if_neg (by rw [hch.1]; simp)] at h
                      obtain ⟨b, evrest, hbrest, hbtag⟩ := encodeValue_head v ev hv
                      rw [show (pre.length : Int) + ((1 + k.length : Nat) : Int) =
                          (((pre ++ (k.length - 1) :: k).length : Nat) : Int) from by
                        simp only [List.length_append, List.length_cons]
                        push_cast
                        omega] at h
                      rw [← List.append_assoc] at h hB
                      rw [decodeType_at _ _ (by omega) (by
                        simp only [List.length_append, List.length_cons,
                          List.length_dropLast]
                        push_cast
                        omega)] at h
                      rw [show byteAt ((pre ++ (k.length - 1) :: k) ++
                          (ev ++ prest.dropLast))
                          (((pre ++ (k.length - 1) :: k).length : Nat) : Int) = b from by
                        rw [hbrest, List.cons_append]
                        exact byteAt_head _ b _] at h
                      rw [hbtag] at h
                      simp only [DR.bind_ok] at h
                      obtain ⟨⟨v2, idx2⟩, hq, h2⟩ := DR.bind_eq_ok _ _ _ h
                      by_cases hsv : SmallVal v
                      · have hidx2 := decode_exact_offset v ev hvval hsv hv
                          (pre ++ (k.length - 1) :: k) prest.dropLast hB f v2 idx2 hq
                        rw [hidx2] at h2
                        rw [show (((pre ++ (k.length - 1) :: k).length : Nat) : Int) +
                            ((ev.length : Nat) : Int) =
                            ((((pre ++ (k.length - 1) :: k) ++ ev).length : Nat) : Int)
                            from by
                          simp only [List.length_append, List.length_cons]
                          push_cast
                          omega] at h2
                        rw [← List.append_assoc (pre ++ (k.length - 1) :: k) ev
                          prest.dropLast] at h2
                        exact decode_trunc_fail_loop rest prest hall.2 hr
                          (by rw [hpr]; simp) ((pre ++ (k.length - 1) :: k) ++ ev) k
                          (acc.push k v2) endOffset
                          (by rw [List.append_assoc]
                              exact hB)
                          hch.2
                          (by simp only [List.length_append, List.length_cons,
                                List.length_dropLast] at hend ⊢
                              push_cast at hend ⊢
                              omega)
                          f r h2
                      · exact bigVal_err v ev hvval hsv hv
                          (pre ++ (k.length - 1) :: k) prest.dropLast f (v2, idx2) hq

/-- C4: truncation of a serialized document is rejected.  For every
valid document whose serialization has at least one byte, dropping the
final byte makes decoding fail: `NewABITObject` never succeeds on the
truncated buffer, and no amount of fuel lets the top-level tree decode
succeed (so the failure is an error report, never wrong data; the
embedding reads bytes only through the bounds-checked `byteAt`, so no
access leaves the buffer). -/
theorem C4_truncation (t : Entries) (hval : ValidEntries t) (e : List Nat)
    (he : ToByteArray (.vtree t) = some e) (hlen : 1 ≤ e.length) :
    (∀ v, NewABITObject e.dropLast ≠ .ok v) ∧
    (∀ fuel r, decodeTree fuel e.dropLast 0 false ≠ .ok r) := by
  have hp : encodeEntries (sortEntries t) = some e := by
    simp only [ToByteArray, encodeTree, Option.bind_eq_bind] at he
    cases hq : encodeEntries (sortEntries t) with
    | none => rw [hq] at he; cases he
    | some p =>
        rw [hq] at he
        simp only [Option.some_bind, if_false, Option.some.injEq,
          Bool.false_eq_true] at he
        rw [he]
  obtain ⟨e2, he2, helen2, heB2⟩ := ToByteArray_ok t hval
  have hee : e2 = e := Option.some.inj (he2.symm.trans he)
  rw [hee] at helen2 heB2
  have hlen2 : 2 ≤ e.length := by
    cases t with
    | nil =>
        rw [helen2] at hlen
        simp [encLenE] at hlen
    | cons k v r =>
        rw [helen2]
        simp only [encLenE]
        have := encLenV_pos v
        omega
  have hBd : Bytes e.dropLast := by
    intro b hb
    exact heB2 b (List.dropLast_subset e hb)
  have hloop : ∀ fuel r,
      decodeTreeLoop fuel e.dropLast 0 ((e.dropLast).length : Int) [] .nil ≠
        .ok r := by
    intro fuel r
    have h := decode_trunc_fail_loop (sortEntries t) e
      (EntriesAll_sortEntries validPair t (ValidEntries_all t hval))
      hp hlen [] [] .nil
      ((e.dropLast).length : Int) (by simpa using hBd)
      (EChain_sortEntries t hval) (by simp) fuel r
    simpa using h
  have hdt : ∀ fuel r, decodeTree fuel e.dropLast 0 false ≠ .ok r := by
    intro fuel r h
    cases fuel with
    | zero => unfold decodeTree at h; cases h
    | succ f =>
        unfold decodeTree at h
        rw [if_neg (by simp)] at h
        cases hres : decodeTreeLoop f e.dropLast 0 ((e.dropLast).length : Int)
            [] .nil with
        | ok q => exact hloop f q hres
        | err er =>
            rw [hres] at h
            simp only [DR.monad_bind_eq_bind, DR.bind_err] at h
            cases h
        | diverge =>
            rw [hres] at h
            simp only [DR.monad_bind_eq_bind, DR.bind_diverge] at h
            cases h
  refine ⟨?_, hdt⟩
  intro v h
  unfold NewABITObject at h
  rw [if_pos (by simp only [List.length_dropLast]; omega)] at h
  cases hd : decodeTree (newFuel e.dropLast) e.dropLast 0 false with
  | ok p => exact hdt _ p hd
  | err er => rw [hd] at h; cases h
  | diverge => rw [hd] at h; cases h

/-- Witness: truncating the encoding `[0x00, 0x61, 0x00]` of the
document `{ "a" : null }` by its final byte yields a buffer that no
longer decodes. -/
theorem C4_truncation_witness :
    ValidEntries (.cons [97] Val.vnull .nil) ∧
    ToByteArray (.vtree (.cons [97] Val.vnull .nil)) = some [0, 97, 0] ∧
    NewABITObject ([0, 97, 0] : List Nat).dropLast ≠ .ok (.vtree .nil) := by
  have hval : ValidEntries (.cons [97] Val.vnull .nil) := by
    simp only [ValidEntries, ValidVal, Entries.lookup]
    exact ⟨⟨by decide, by decide⟩, by unfold Bytes; decide, trivial, trivial,
      trivial⟩
  have he : ToByteArray (.vtree (.cons [97] Val.vnull .nil)) = some [0, 97, 0] := by
    simp only [ToByteArray, encodeTree, sortEntries, insertEntry, encodeEntries,
      encodeValue, encodeKey, encodeNull]
    simp
  exact ⟨hval, he,
    (C4_truncation (.cons [97] Val.vnull .nil) hval [0, 97, 0] he
      (by decide)).1 (.vtree .nil)⟩

end Abit
